import Mathlib

/-!
Verification development for the CCTNS copilot engine query pipeline.

Shallow embedding of:
  * models/sql_executor.py   (SQLExecutor: security validation, parsing,
    execution, statistics)
  * models/nl2sql_processor.py (NL2SQLProcessor: rule based SQL generation)
  * agents/query_agent.py    (QueryAgent: standard, complex and analytical
    query generation, schema enhancement, agent level validation)

Python strings are embedded as Lean String or List Char; machine floats
used by the statistics are embedded as rationals; the database boundary is
an oracle value (DbOutcome) passed to the executor.
-/

set_option maxRecDepth 100000

/-! ### Basic string helpers mirroring Python primitives -/

/-- The apostrophe character (39). -/
def apos : Char := Char.ofNat 39

/-- Python whitespace for str.strip (space, tab, newline, CR, VT, FF). -/
def pyIsSpace (c : Char) : Bool :=
  c == ' ' || c == '\t' || c == '\n' || c == '\r' || c == Char.ofNat 11 || c == Char.ofNat 12

/-- Python str.upper on ASCII text. -/
def toUpperStr (s : String) : String := String.mk (s.data.map Char.toUpper)

/-- Python str.lower on ASCII text. -/
def toLowerStr (s : String) : String := String.mk (s.data.map Char.toLower)

/-- Python str.strip on a character list. -/
def pyStripList (l : List Char) : List Char :=
  ((l.dropWhile pyIsSpace).reverse.dropWhile pyIsSpace).reverse

/-- Python str.strip. -/
def pyStrip (s : String) : String := String.mk (pyStripList s.data)

/-- Does the list start with the given pattern (Python str.startswith)? -/
def startsWithSeq : List Char → List Char → Bool
  | [], _ => true
  | _ :: _, [] => false
  | p :: ps, c :: cs => p == c && startsWithSeq ps cs

/-- Does `hay` contain `pat` as a contiguous substring (Python `in`)? -/
def containsSeq (pat : List Char) : List Char → Bool
  | [] => startsWithSeq pat []
  | c :: cs => startsWithSeq pat (c :: cs) || containsSeq pat cs

/-- Python str.count, fuel driven: number of non-overlapping occurrences
of a nonempty pattern, scanning left to right.  Each step consumes at
least one character, so fuel equal to the length of the scanned list is
always enough. -/
def countSeqF : Nat → List Char → List Char → Nat
  | 0, _, _ => 0
  | _, _, [] => 0
  | fuel + 1, pat, c :: cs =>
    if startsWithSeq pat (c :: cs) then
      1 + countSeqF fuel pat (cs.drop (pat.length - 1))
    else
      countSeqF fuel pat cs

/-- Python str.count of a nonempty pattern. -/
def countSeq (pat l : List Char) : Nat := countSeqF l.length pat l

/-- Substring test on Strings (Python `in`). -/
def containsSub (hay pat : String) : Bool := containsSeq pat.data hay.data

/-! ### Mini matcher for the fixed `re.search` patterns of
`_validate_sql_security`.

Each pattern used by the source is a sequence of literal segments
separated by `.*` gaps.  `re.search` with `re.IGNORECASE` and without
`re.DOTALL` succeeds iff the segments occur in order, case
insensitively, with the gaps between consecutive segments free of
newlines (the scan to the first segment may cross newlines). -/

/-- ASCII case-insensitive character equality (re.IGNORECASE). -/
def ciEq (a b : Char) : Bool := a.toUpper == b.toUpper

/-- Case insensitive prefix test. -/
def ciStartsWith : List Char → List Char → Bool
  | [], _ => true
  | _ :: _, [] => false
  | p :: ps, c :: cs => ciEq p c && ciStartsWith ps cs

/-- Fuel based matcher: `inner = false` while scanning for the first
segment (any characters may be skipped), `inner = true` inside a `.*`
gap (newlines may not be skipped). -/
def rxAux : Nat → Bool → List (List Char) → List Char → Bool
  | 0, _, _, _ => false
  | fuel + 1, inner, segs, cs =>
    match segs with
    | [] => true
    | seg :: rest =>
      (ciStartsWith seg cs && rxAux fuel true rest (cs.drop seg.length))
      ||
      (match cs with
       | [] => false
       | c :: cs2 => (!inner || !(c == '\n')) && rxAux fuel inner (seg :: rest) cs2)

/-- re.search of a segmented pattern over a string. -/
def rxSearch (segs : List (List Char)) (s : List Char) : Bool :=
  rxAux (s.length + segs.length + segs.foldl (fun a x => a + x.length) 0 + 4) false segs s

/-- The injection patterns of `_validate_sql_security`, each paired with
the display text used in the rejection reason. -/
def injectionPatterns : List (String × List (List Char)) :=
  [ (String.mk ([apos, '.', '*', 'O', 'R', '.', '*', apos, '.', '*', '=', apos, '.', '*', apos]),
      [[apos], ['O', 'R'], [apos], ['=', apos], [apos]]),
    (String.mk ([apos, '.', '*', 'U', 'N', 'I', 'O', 'N', '.', '*', 'S', 'E', 'L', 'E', 'C', 'T']),
      [[apos], ['U', 'N', 'I', 'O', 'N'], ['S', 'E', 'L', 'E', 'C', 'T']]),
    ("--", [['-', '-']]),
    ("/\\*.*\\*/", [['/', '*'], ['*', '/']]),
    ("xp_cmdshell", [['x', 'p', '_', 'c', 'm', 'd', 's', 'h', 'e', 'l', 'l']]),
    ("sp_.*", [['s', 'p', '_'], []]) ]

/-- First injection pattern matching the raw SQL text, if any. -/
def injectionHit (sql : String) : Option String :=
  injectionPatterns.findSome? (fun p => if rxSearch p.2 sql.data then some p.1 else none)

/-! ### `_validate_sql_security` (sql_executor.py lines 119-175) -/

/-- Result of the internal security validation. -/
structure SecCheck where
  valid : Bool
  reason : String
  deriving Repr, DecidableEq

/-- The fixed denylist of dangerous keywords, in source order. -/
def dangerousKeywords : List String :=
  ["DROP", "DELETE", "UPDATE", "INSERT", "ALTER", "CREATE",
   "TRUNCATE", "REPLACE", "MERGE", "GRANT", "REVOKE",
   "EXECUTE", "EXEC", "CALL", "DECLARE", "BEGIN", "END"]

/-- The source test for one dangerous keyword: space delimited occurrence
inside the space padded upper cased statement, or the statement starts
with the keyword. -/
def dangerTriggers (sqlUpper : String) (kw : String) : Bool :=
  containsSeq (' ' :: (kw.data ++ [' '])) (' ' :: (sqlUpper.data ++ [' ']))
  || startsWithSeq kw.data sqlUpper.data

/-- The rejection reason naming a dangerous keyword. -/
def dangerReason (kw : String) : String :=
  "Dangerous keyword " ++ String.mk [apos] ++ kw ++ String.mk [apos] ++ " not allowed"

/-- Embedding of `SQLExecutor._validate_sql_security`. -/
def validateSqlSecurity (sql : String) : SecCheck :=
  let sqlUpper := pyStrip (toUpperStr sql)
  match dangerousKeywords.find? (fun kw => dangerTriggers sqlUpper kw) with
  | some kw => ⟨false, dangerReason kw⟩
  | none =>
    if !(startsWithSeq "SELECT".data sqlUpper.data) then
      ⟨false, "Only SELECT statements are allowed"⟩
    else
      match injectionHit sql with
      | some pat => ⟨false, "Potential SQL injection detected: " ++ pat⟩
      | none =>
        if countSeq "JOIN".data sql.data > 10 then
          ⟨false, "Too many JOINs (max 10 allowed)"⟩
        else if countSeq "SELECT".data sql.data > 5 then
          ⟨false, "Too many subqueries (max 5 allowed)"⟩
        else
          ⟨true, "Security validation passed"⟩

/-! ### Token model of `sqlparse.parse(...)[0].flatten()`

`sqlparse` lexes a statement into leaf tokens; every leaf token carries a
concrete ttype (Name, Keyword, Keyword.DML, Whitespace, Punctuation,
Number, Wildcard, ...), never `None` - only non-leaf group nodes have
ttype `None`, and `flatten()` yields leaves only.  The embedding keeps
`ttype` as an `Option` because the source compares it against `None`. -/

inductive TType where
  | keyword
  | keywordDML
  | name
  | whitespace
  | punctuation
  | number
  | wildcard
  deriving Repr, DecidableEq

structure STok where
  ttype : Option TType
  value : String
  deriving Repr, DecidableEq

/-- DML keywords (classified `Keyword.DML` by sqlparse). -/
def dmlKeywords : List String :=
  ["SELECT", "INSERT", "UPDATE", "DELETE", "CREATE", "DROP", "ALTER", "MERGE", "REPLACE"]

/-- Ordinary keywords (classified `Keyword` by sqlparse). -/
def plainKeywords : List String :=
  ["FROM", "WHERE", "JOIN", "ON", "GROUP", "BY", "ORDER", "LEFT", "RIGHT",
   "INNER", "OUTER", "AND", "OR", "AS", "DESC", "ASC", "UNION", "ALL",
   "DISTINCT", "HAVING", "NOT", "NULL", "IN", "IS", "LIKE", "BETWEEN", "TABLE"]

/-- Is the character part of an identifier (`[A-Za-z0-9_]`)? -/
def isIdentChar (c : Char) : Bool := c.isAlpha || c.isDigit || c == '_'

/-- Lexer for the flattened leaf token stream of one parsed statement,
fuel driven (each step consumes at least one character). -/
def tokenizeF : Nat → List Char → List STok
  | 0, _ => []
  | _, [] => []
  | fuel + 1, c :: cs =>
    if pyIsSpace c then
      ⟨some .whitespace, String.mk (c :: cs.takeWhile pyIsSpace)⟩
        :: tokenizeF fuel (cs.dropWhile pyIsSpace)
    else if c.isAlpha || c == '_' then
      let run := c :: cs.takeWhile isIdentChar
      let up := String.mk (run.map Char.toUpper)
      let tt := if dmlKeywords.contains up then TType.keywordDML
                else if plainKeywords.contains up then TType.keyword
                else TType.name
      ⟨some tt, String.mk run⟩ :: tokenizeF fuel (cs.dropWhile isIdentChar)
    else if c.isDigit then
      ⟨some .number, String.mk (c :: cs.takeWhile Char.isDigit)⟩
        :: tokenizeF fuel (cs.dropWhile Char.isDigit)
    else if c == '*' then
      ⟨some .wildcard, "*"⟩ :: tokenizeF fuel cs
    else
      ⟨some .punctuation, String.mk [c]⟩ :: tokenizeF fuel cs

/-- Lexer for the flattened leaf token stream of one parsed statement. -/
def tokenizeGo (l : List Char) : List STok := tokenizeF l.length l

/-- `sqlparse.parse` yields no statement exactly for empty input; otherwise
the first statement flattens to the leaf tokens of the text. -/
def parseSql (s : String) : Option (List STok) :=
  match s.data with
  | [] => none
  | _ :: _ => some (tokenizeGo s.data)

/-- Is the ttype in the `Keyword` family (`ttype in sqlparse.tokens.Keyword`)? -/
def inKeywordFamily : Option TType → Bool
  | some .keyword => true
  | some .keywordDML => true
  | _ => false

/-- Embedding of `SQLExecutor._get_query_type`. -/
def getQueryType (toks : List STok) : String :=
  match toks.find? (fun t => inKeywordFamily t.ttype) with
  | some t => toUpperStr t.value
  | none => "UNKNOWN"

/-- First whitespace separated word of a string (`.split()[0]`). -/
def firstWord (s : String) : String :=
  String.mk ((s.data.dropWhile pyIsSpace).takeWhile (fun c => !(pyIsSpace c)))

/-- Embedding of the loop body of `SQLExecutor._extract_tables`: note the
source appends a candidate only when `token.ttype is None`, which never
holds for flattened leaf tokens. -/
def extractTablesGo : Bool → List STok → List String
  | _, [] => []
  | fromSeen, t :: ts =>
    if t.ttype == some TType.keyword && toUpperStr t.value == "FROM" then
      extractTablesGo true ts
    else if fromSeen && t.ttype == none && !(pyStrip t.value == "") then
      let name := firstWord (pyStrip t.value)
      if ["WHERE", "JOIN", "LEFT", "RIGHT", "INNER", "OUTER"].contains (toUpperStr name) then
        extractTablesGo fromSeen ts
      else
        name :: extractTablesGo fromSeen ts
    else
      extractTablesGo fromSeen ts

/-- Embedding of `SQLExecutor._extract_tables`. -/
def extractTables (toks : List STok) : List String := extractTablesGo false toks

/-- Embedding of the loop of `SQLExecutor._extract_columns` (the guard
`token.ttype is sqlparse.tokens.Keyword` is never satisfied by `SELECT`,
whose ttype is `Keyword.DML`, and the append guard needs ttype `None`). -/
def extractColumnsGo : Bool → List STok → List String
  | _, [] => []
  | selSeen, t :: ts =>
    if t.ttype == some TType.keyword && toUpperStr t.value == "SELECT" then
      extractColumnsGo true ts
    else if selSeen && t.ttype == some TType.keyword && toUpperStr t.value == "FROM" then
      []
    else if selSeen && t.ttype == none && !(pyStrip t.value == "") then
      let col := pyStrip t.value
      if col == "," || col == "*" then extractColumnsGo selSeen ts
      else col :: extractColumnsGo selSeen ts
    else
      extractColumnsGo selSeen ts

/-- Embedding of `SQLExecutor._extract_columns`. -/
def extractColumns (toks : List STok) : List String := extractColumnsGo false toks

/-! ### `_parse_and_validate_sql` (sql_executor.py lines 177-210) -/

structure ParseCheck where
  valid : Bool
  reason : String
  query_type : String
  tables : List String
  columns : List String
  deriving Repr, DecidableEq

/-- The fixed allow-list of tables. -/
def allowedTables : List String :=
  ["DISTRICT_MASTER", "STATION_MASTER", "OFFICER_MASTER",
   "CRIME_TYPE_MASTER", "FIR", "ARREST"]

/-- Embedding of `SQLExecutor._parse_and_validate_sql`. -/
def parseAndValidateSql (sql : String) : ParseCheck :=
  match parseSql sql with
  | none => ⟨false, "Failed to parse SQL", "", [], []⟩
  | some toks =>
    let tables := extractTables toks
    let qtype := getQueryType toks
    let cols := extractColumns toks
    match tables.find? (fun t => !(allowedTables.contains (toUpperStr t))) with
    | some t =>
      ⟨false, "Access to table " ++ String.mk [apos] ++ t ++ String.mk [apos] ++ " not allowed",
       qtype, tables, cols⟩
    | none => ⟨true, "", qtype, tables, cols⟩

/-! ### `SQLExecutor.execute_sql`, statistics and error responses
(sql_executor.py lines 64-117, 251-302)

The database boundary is an oracle: a `DbOutcome` says what the engine
would do for this call (return rows or raise).  Wall clock durations are
oracle rationals.  The `executed` flag records whether the call reached
`_execute_with_timeout`. -/

/-- One row as returned by `dict(zip(columns, row))`. -/
abbrev DbRow := List (String × String)

/-- Behaviour of the database for one call. -/
inductive DbOutcome where
  | ok (rows : List DbRow) (cols : List String)
  | err (msg : String)
  deriving Repr

/-- Embedding of `_execute_with_timeout`: any driver exception is
re-raised wrapped as `SQLAlchemyError("Query execution failed: ...")`. -/
def executeWithTimeout : DbOutcome → Except String (List DbRow × List String)
  | .ok rows cols => .ok (rows, cols)
  | .err m => .error ("Query execution failed: " ++ m)

/-- The process wide execution statistics dictionary. -/
structure ExecStats where
  total_queries : Nat
  successful_queries : Nat
  failed_queries : Nat
  avg_execution_time : ℚ
  deriving Repr, DecidableEq

/-- Fresh statistics at executor construction. -/
def initStats : ExecStats := ⟨0, 0, 0, 0⟩

/-- Embedding of `_update_execution_stats` (the division is by the
already incremented `total_queries`, which is at least 1 whenever the
source reaches this method). -/
def updateExecutionStats (st : ExecStats) (t : ℚ) (success : Bool) : ExecStats :=
  let st1 :=
    if success then { st with successful_queries := st.successful_queries + 1 }
    else { st with failed_queries := st.failed_queries + 1 }
  { st1 with avg_execution_time :=
      (st1.avg_execution_time * ((st1.total_queries : ℚ) - 1) + t) / (st1.total_queries : ℚ) }

/-- The result dictionary of `execute_sql` (error responses carry `none`
in the fields the source omits). -/
structure ExecResult where
  success : Bool
  results : List DbRow
  columns : List String
  row_count : Nat
  execution_time : ℚ
  error : Option String
  sql_executed : Option String
  query_type : Option String
  tables_accessed : Option (List String)
  deriving Repr

/-- Embedding of `_error_response`. -/
def errorResponse (msg : String) : ExecResult :=
  ⟨false, [], [], 0, 0, some msg, none, none, none⟩

/-- Output of one `execute_sql` call: result, updated statistics, and
whether `_execute_with_timeout` was reached. -/
structure ExecOutput where
  res : ExecResult
  stats : ExecStats
  executed : Bool

/-- Embedding of `SQLExecutor.execute_sql`.  `hasEngine` is whether
`self.engine` is set; `outcome` is the database oracle; `elapsed` is the
measured wall clock duration of the call. -/
def executeSql (hasEngine : Bool) (sql : String) (outcome : DbOutcome)
    (elapsed : ℚ) (st : ExecStats) : ExecOutput :=
  if !hasEngine then
    ⟨errorResponse "No database connection available", st, false⟩
  else
    let st1 := { st with total_queries := st.total_queries + 1 }
    let sec := validateSqlSecurity sql
    if !sec.valid then
      ⟨errorResponse ("Security validation failed: " ++ sec.reason), st1, false⟩
    else
      let pr := parseAndValidateSql sql
      if !pr.valid then
        ⟨errorResponse ("SQL validation failed: " ++ pr.reason), st1, false⟩
      else
        match executeWithTimeout outcome with
        | .ok (rows, cols) =>
          let st2 := updateExecutionStats st1 elapsed true
          ⟨⟨true, rows, cols, rows.length, elapsed, none, some sql,
             some pr.query_type, some pr.tables⟩, st2, true⟩
        | .error e =>
          let st2 := updateExecutionStats st1 elapsed false
          ⟨errorResponse e, st2, true⟩

/-- Inputs of one `execute_sql` call with its oracles. -/
structure CallIn where
  engine : Bool
  sql : String
  outcome : DbOutcome
  elapsed : ℚ

/-- Statistics after one call. -/
def stepStats (st : ExecStats) (c : CallIn) : ExecStats :=
  (executeSql c.engine c.sql c.outcome c.elapsed st).stats

/-- Statistics after a sequence of calls. -/
def runCalls (st : ExecStats) (calls : List CallIn) : ExecStats :=
  calls.foldl stepStats st

/-! ### Claim C2 -/

/-- Maximal identifier runs of a character list, fuel driven. -/
def identTokensF : Nat → List Char → List (List Char)
  | 0, _ => []
  | _, [] => []
  | fuel + 1, c :: cs =>
    if isIdentChar c then
      (c :: cs.takeWhile isIdentChar) :: identTokensF fuel (cs.dropWhile isIdentChar)
    else
      identTokensF fuel cs

/-- Maximal identifier runs of a character list. -/
def identTokensOf (l : List Char) : List (List Char) := identTokensF l.length l

/-- Does `s` contain `kw` as a standalone whole token (not as a substring
of a longer identifier), case insensitively?  This formalises the wording
of the claim. -/
def hasStandaloneToken (kw s : String) : Bool :=
  (identTokensOf (toUpperStr s).data).contains kw.data

/-! ### Statistics lemmas for C6 and C10 -/

/-- A call rejected by one of the validation stages (with an engine). -/
def RejectedCall (c : CallIn) : Prop :=
  c.engine = true ∧
  ((validateSqlSecurity c.sql).valid = false ∨ (parseAndValidateSql c.sql).valid = false)

/-! ### `NL2SQLProcessor` (nl2sql_processor.py) -/

/-- The gazetteer of districts scanned by `_extract_district`. -/
def districtsList : List String :=
  ["guntur", "vijayawada", "visakhapatnam", "tirupati", "kurnool"]

/-- Python str.title on a single lower case word. -/
def titleCase (s : String) : String :=
  match s.data with
  | [] => ""
  | c :: cs => String.mk (c.toUpper :: cs)

/-- Embedding of `_extract_district`. -/
def extractDistrict (ql : String) : Option String :=
  (districtsList.find? (fun d => containsSub ql d)).map titleCase

/-- The SQL template of pattern 1 (district crime summary), with the
indentation of the source f-string. -/
def pattern1Sql (district : String) : String :=
  "\n                SELECT ct.description as crime_type, COUNT(*) as count\n                FROM FIR f\n                JOIN DISTRICT_MASTER d ON f.district_id = d.district_id\n                JOIN CRIME_TYPE_MASTER ct ON f.crime_type_id = ct.crime_type_id\n                WHERE d.district_name = \x27" ++
  district ++
  "\x27\n                GROUP BY ct.description\n                ORDER BY count DESC\n                "

/-- The SQL template of pattern 2 (officer performance). -/
def pattern2Sql : String :=
  "\n            SELECT o.officer_name, o.rank, COUNT(a.arrest_id) as arrests\n            FROM OFFICER_MASTER o\n            LEFT JOIN ARREST a ON o.officer_id = a.officer_id\n            WHERE a.arrest_date >= TRUNC(SYSDATE, \x27MM\x27)\n            GROUP BY o.officer_name, o.rank\n            ORDER BY arrests DESC\n            "

/-- The SQL template of pattern 3 (FIR count, today). -/
def pattern3TodaySql : String :=
  "SELECT COUNT(*) as fir_count FROM FIR WHERE DATE(incident_date) = DATE(SYSDATE)"

/-- The SQL template of pattern 3 (FIR count, this month). -/
def pattern3MonthSql : String :=
  "SELECT COUNT(*) as fir_count FROM FIR WHERE incident_date >= TRUNC(SYSDATE, \x27MM\x27)"

/-- Patterns 2 and 3 of `_rule_based_generation` (reached when pattern 1
does not return). -/
def ruleBasedPattern23 (ql : String) : Option String :=
  if containsSub ql "officer" && (containsSub ql "arrest" || containsSub ql "performance") then
    some pattern2Sql
  else if containsSub ql "fir" && containsSub ql "count" then
    if containsSub ql "today" then some pattern3TodaySql
    else if containsSub ql "month" then some pattern3MonthSql
    else none
  else none

/-- Embedding of `NL2SQLProcessor._rule_based_generation`. -/
def ruleBasedGeneration (query : String) : Option String :=
  let ql := toLowerStr query
  if containsSub ql "crimes" && containsSub ql "district" then
    match extractDistrict ql with
    | some d => some (pattern1Sql d)
    | none => ruleBasedPattern23 ql
  else
    ruleBasedPattern23 ql

/-- Embedding of `NL2SQLProcessor._validate_sql` (`sqlparse` succeeds on
any nonempty text). -/
def validateSqlSyntax (s : String) : Bool :=
  match parseSql s with
  | none => false
  | some _ => true

/-- The translation result dictionary (absent keys are `none`). -/
structure TransResult where
  sql : String
  confidence : ℚ
  method : Option String
  error : Option String
  valid : Option Bool
  deriving Repr, DecidableEq

/-- Embedding of `NL2SQLProcessor.generate_sql`. -/
def generateSql (query : String) : TransResult :=
  match ruleBasedGeneration query with
  | some s => ⟨s, 9 / 10, some "rule_based", none, some (validateSqlSyntax s)⟩
  | none => ⟨"", 0, none, some "No matching pattern", none⟩

/-! ### `QueryAgent` (agents/query_agent.py)

The agent composes the NL2SQL processor with a schema enhancement step
and its own lightweight validation.  The helpers `_add_join_to_sql`,
`_add_table_aliases` and the `SchemaManager` live outside the shipped
sources (the agent only calls them), so they are modelled from the spec
below; the driver logic (`_enhance_with_schema`, `_validate_query`,
`_generate_standard_query`, `_generate_complex_query`,
`_generate_analytical_query`) is embedded from the source. -/

/-- The `\s+([A-Za-z_][A-Za-z0-9_]*)` part of the table name regex:
require at least one whitespace character, then capture a maximal
identifier starting with a letter or underscore. -/
def wsIdentCap (l : List Char) : Option (List Char × List Char) :=
  if (l.takeWhile pyIsSpace).isEmpty then none
  else
    match l.dropWhile pyIsSpace with
    | [] => none
    | c :: cs =>
      if c.isAlpha || c == '_' then
        some (c :: cs.takeWhile isIdentChar, cs.dropWhile isIdentChar)
      else none

/-- One position of the `(?:FROM|JOIN)\s+([A-Za-z_][A-Za-z0-9_]*)` scan
of `_extract_table_names`: try to match one keyword at the head,
returning the captured identifier and the remainder after the match. -/
def fjTryKeyword (kw : List Char) (l : List Char) : Option (List Char × List Char) :=
  if ciStartsWith kw l then wsIdentCap (l.drop kw.length) else none

/-- Regex match attempt at one position (`FROM` is tried before `JOIN`,
as in the alternation). -/
def fjMatchAt (l : List Char) : Option (List Char × List Char) :=
  match fjTryKeyword ['F', 'R', 'O', 'M'] l with
  | some r => some r
  | none => fjTryKeyword ['J', 'O', 'I', 'N'] l

/-- `re.findall` scan: non-overlapping matches, resuming after each
captured identifier; fuel driven (each step consumes at least one
character). -/
def extractTNF : Nat → List Char → List String
  | 0, _ => []
  | _, [] => []
  | fuel + 1, c :: cs =>
    match fjMatchAt (c :: cs) with
    | some (name, rest) => String.mk name :: extractTNF fuel rest
    | none => extractTNF fuel cs

/-- Order preserving removal of duplicates (embedding of
`list(set(matches))`, whose order CPython leaves unspecified; the first
occurrence order is fixed here). -/
def dedupKeepFirst (l : List String) : List String :=
  l.foldl (fun acc x => if acc.contains x then acc else acc ++ [x]) []

/-- Embedding of `QueryAgent._extract_table_names`. -/
def extractTableNames (sql : String) : List String :=
  dedupKeepFirst (extractTNF sql.data.length sql.data)

/-- A join hint of the schema catalog. -/
structure JoinHint where
  from_table : String
  to_table : String
  condition : String
  deriving Repr, DecidableEq

/-- Modelled from the spec: the missing `SchemaCatalog` join hints
(section 3: `join_hints: [{from_table, to_table, condition}]`), with the
join conditions the repository itself emits in its generated SQL. -/
def catalogJoinHints : List JoinHint :=
  [⟨"FIR", "DISTRICT_MASTER", "f.district_id = d.district_id"⟩,
   ⟨"FIR", "CRIME_TYPE_MASTER", "f.crime_type_id = ct.crime_type_id"⟩,
   ⟨"OFFICER_MASTER", "ARREST", "o.officer_id = a.officer_id"⟩,
   ⟨"STATION_MASTER", "DISTRICT_MASTER", "s.district_id = d.district_id"⟩]

/-- Modelled from the spec: the missing `SchemaCatalog` table/column
specs for the six allow-listed tables. -/
def catalogTables : List (String × List String) :=
  [("DISTRICT_MASTER", ["district_id", "district_name"]),
   ("STATION_MASTER", ["station_id", "district_id", "station_name"]),
   ("OFFICER_MASTER", ["officer_id", "officer_name", "rank", "station_id"]),
   ("CRIME_TYPE_MASTER", ["crime_type_id", "description"]),
   ("FIR", ["fir_id", "district_id", "crime_type_id", "officer_id", "incident_date"]),
   ("ARREST", ["arrest_id", "officer_id", "fir_id", "arrest_date"])]

/-- Modelled from the spec: the missing
`SchemaManager.suggest_joins_for_query` - the catalog join hints whose
two endpoint tables are both mentioned. -/
def suggestJoinsForQuery (tables : List String) : List JoinHint :=
  catalogJoinHints.filter
    (fun h => tables.contains h.from_table && tables.contains h.to_table)

/-- Modelled from the spec: the missing `_add_join_to_sql` - append the
corresponding `JOIN ... ON ...` clause (section 4.2). -/
def addJoinToSql (sql : String) (h : JoinHint) : String :=
  sql ++ " JOIN " ++ h.to_table ++ " ON " ++ h.condition

/-- Columns of one catalog table. -/
def tableColumns (t : String) : Option (List String) :=
  (catalogTables.find? (fun p => p.1 == t)).map (·.2)

/-- All catalog column names. -/
def allCatalogColumns : List String :=
  dedupKeepFirst (catalogTables.foldl (fun a tc => a ++ tc.2) [])

/-- Columns owned by at least two of the mentioned catalog tables
(ambiguous across multiple joined tables, section 4.2). -/
def ambiguousCols (tables : List String) : List String :=
  allCatalogColumns.filter (fun col =>
    2 ≤ (catalogTables.filter
      (fun tc => tables.contains tc.1 && tc.2.contains col)).length)

/-- First mentioned table owning the column. -/
def qualifierFor (tables : List String) (col : String) : Option String :=
  tables.find? (fun t =>
    match tableColumns t with
    | some cols => cols.contains col
    | none => false)

/-- Qualification table for an identifier token, if it is an ambiguous
column. -/
def ambiguityLookup (tables : List String) (tok : String) : Option String :=
  if (ambiguousCols tables).contains tok then qualifierFor tables tok else none

/-- Modelled from the spec: the rewriting core of the missing
`_add_table_aliases` - every bare identifier token that is an ambiguous
column and is not already qualified (preceded by a dot) is prefixed with
`table.`; fuel driven, `prev` is the character just before the current
position. -/
def aliasF (amb : String → Option String) : Nat → Char → List Char → List Char
  | 0, _, _ => []
  | _, _, [] => []
  | fuel + 1, prev, c :: cs =>
    if isIdentChar c && !(isIdentChar prev) then
      let tok := c :: cs.takeWhile isIdentChar
      let rest := cs.dropWhile isIdentChar
      let tail := aliasF amb fuel c rest
      match amb (String.mk tok) with
      | some q =>
        if prev == '.' then tok ++ tail
        else q.data ++ ('.' :: tok) ++ tail
      | none => tok ++ tail
    else
      c :: aliasF amb fuel c cs

/-- Modelled from the spec: the missing `_add_table_aliases`. -/
def addTableAliases (sql : String) (tables : List String) : String :=
  String.mk (aliasF (ambiguityLookup tables) sql.data.length ' ' sql.data)

/-- The join suggestion loop of `_enhance_with_schema`: append each
suggested join whose condition is not already a substring. -/
def applyJoinSuggestions (sql : String) (hints : List JoinHint) : String :=
  hints.foldl (fun acc h => if containsSub acc h.condition then acc else addJoinToSql acc h) sql

/-- Embedding of `QueryAgent._enhance_with_schema` (the spec name of the
stage is `SchemaEnhancer.enhance`). -/
def enhanceWithSchema (sql : String) : String :=
  let mentioned := extractTableNames sql
  let s1 :=
    if 1 < mentioned.length then applyJoinSuggestions sql (suggestJoinsForQuery mentioned)
    else sql
  addTableAliases s1 mentioned

/-- The validation dictionary built by `QueryAgent._validate_query`
(`security_warnings` is set only when the security check fails). -/
structure AgentValidation where
  syntax_valid : Bool
  security_valid : Bool
  security_warnings : List String
  performance_warnings : List String
  semantic_warnings : List String
  deriving Repr, DecidableEq

/-- Embedding of `QueryAgent._check_query_security`. -/
def checkQuerySecurity (sql : String) : Bool × List String :=
  let su := toUpperStr sql
  let w1 := (["DROP", "DELETE", "UPDATE", "INSERT", "ALTER", "CREATE"].filter
    (fun op => containsSub su op)).map (fun op => "Dangerous operation detected: " ++ op)
  let w2 :=
    if containsSub sql "--" || containsSub sql "/*" then
      ["Potential SQL injection: comments detected"]
    else []
  let ws := w1 ++ w2
  (ws.isEmpty, ws)

/-- Embedding of `QueryAgent._check_query_performance`. -/
def checkQueryPerformance (sql : String) : List String :=
  let su := toUpperStr sql
  (if countSeq "FROM".data su.data > 1 && !(containsSub su "WHERE") then
    ["Potential Cartesian product: multiple tables without WHERE clause"]
  else []) ++
  (if containsSub su "UPPER(" || containsSub su "LOWER(" || containsSub su "SUBSTR(" then
    ["Functions in WHERE clause may prevent index usage"]
  else [])

/-- Embedding of `QueryAgent._validate_query`. -/
def validateQuery (sql : String) : AgentValidation :=
  let sec := checkQuerySecurity sql
  { syntax_valid := validateSqlSyntax sql
    security_valid := sec.1
    security_warnings := if sec.1 then [] else sec.2
    performance_warnings := checkQueryPerformance sql
    semantic_warnings := [] }

/-- Embedding of `QueryAgent._get_optimization_suggestions`. -/
def getOptimizationSuggestions (sql : String) : List String :=
  let su := toUpperStr sql
  (if containsSub su "WHERE" && !(containsSub su "INDEX") then
    ["Consider adding indexes on WHERE clause columns"]
  else []) ++
  (if containsSub su "SELECT *" then
    ["Consider selecting specific columns instead of *"]
  else []) ++
  (if containsSub su "ORDER BY" && !(containsSub su "LIMIT") then
    ["ORDER BY without LIMIT may impact performance"]
  else [])

/-- Embedding of `QueryAgent._get_query_suggestions`. -/
def getQuerySuggestions (failedQuery : String) : List String :=
  let ql := toLowerStr failedQuery
  (["Try using simpler language",
    "Specify the exact table or data you\x27re looking for",
    "Include specific date ranges or filters",
    "Use police-specific terms (FIR, SHO, district, etc.)"]) ++
  (if containsSub ql "show" || containsSub ql "display" then
    ["Try: \x27List all crimes in [district name]\x27"]
  else []) ++
  (if containsSub ql "count" || containsSub ql "how many" then
    ["Try: \x27Count FIRs registered this month\x27"]
  else []) ++
  (if containsSub ql "officer" then
    ["Try: \x27Show arrests made by officer [name]\x27"]
  else [])

/-- The result dictionary of `_generate_standard_query` (keys absent in
one of the two branches are `none`). -/
structure StandardResult where
  sql : String
  original_sql : Option String
  confidence : ℚ
  method : Option String
  error : Option String
  suggestions : Option (List String)
  validation : Option AgentValidation
  estimated_rows : Option String
  execution_plan_available : Option Bool
  suggested_optimizations : Option (List String)
  deriving Repr, DecidableEq

/-- Embedding of `QueryAgent._generate_standard_query`. -/
def generateStandardQuery (q : String) : StandardResult :=
  let sr := generateSql q
  match sr.valid with
  | some true =>
    let enhanced := enhanceWithSchema sr.sql
    { sql := enhanced, original_sql := some sr.sql, confidence := sr.confidence,
      method := sr.method, error := none, suggestions := none,
      validation := some (validateQuery enhanced),
      estimated_rows := some "unknown", execution_plan_available := some false,
      suggested_optimizations := some (getOptimizationSuggestions enhanced) }
  | _ =>
    { sql := "", original_sql := none, confidence := 0, method := none,
      error := some (sr.error.getD "SQL generation failed"),
      suggestions := some (getQuerySuggestions q),
      validation := none, estimated_rows := none, execution_plan_available := none,
      suggested_optimizations := none }

/-- The result of `_generate_complex_query`: the (possibly overridden)
standard dictionary plus the mode specific keys. -/
structure ComplexResult where
  std : StandardResult
  complexity_level : Option String
  query_components : Option (List String)
  deriving Repr, DecidableEq

/-- Embedding of `QueryAgent._generate_complex_query`, parameterised by
the externally defined `_parse_complex_query` and
`_add_complex_features`. -/
def generateComplexQuery (parseComponents : String → List String)
    (augment : String → List String → String) (q : String) : ComplexResult :=
  let comps := parseComponents q
  let base := generateStandardQuery q
  if base.sql == "" then ⟨base, none, none⟩
  else ⟨{ base with sql := augment base.sql comps }, some "high", some comps⟩

/-- The result of `_generate_analytical_query`. -/
structure AnalyticalResult where
  std : StandardResult
  analytical_patterns : Option (List String)
  deriving Repr, DecidableEq

/-- Embedding of `QueryAgent._generate_analytical_query`, parameterised
by the externally defined `_identify_analytical_patterns` and
`_add_analytical_features`. -/
def generateAnalyticalQuery (identifyPatterns : String → List String)
    (augment : String → List String → String) (q : String) : AnalyticalResult :=
  let pats := identifyPatterns q
  let base := generateStandardQuery q
  if base.sql == "" then ⟨base, none⟩
  else ⟨{ base with sql := augment base.sql pats }, some pats⟩

/-- Modelled from the spec: the missing `_parse_complex_query` - detect
the analytical keywords of section 4.5 in the query text. -/
def parseComplexQuery (q : String) : List String :=
  ["trend", "compare", "top"].filter (fun k => containsSub (toLowerStr q) k)

/-- Modelled from the spec: the missing `_add_complex_features` - append
an aggregation/grouping clause derived from the detected analytical
keywords (a monthly grouping for `trend`, a row cap for `top`). -/
def addComplexFeatures (sql : String) (comps : List String) : String :=
  if comps.contains "trend" then
    sql ++ "\nGROUP BY SUBSTR(incident_date, 1, 7)"
  else if comps.contains "top" then
    sql ++ "\nFETCH FIRST 10 ROWS ONLY"
  else sql

/-- Modelled from the spec: the missing `_identify_analytical_patterns`. -/
def identifyAnalyticalPatterns (q : String) : List String :=
  ["trend", "compare", "top"].filter (fun k => containsSub (toLowerStr q) k)

/-- Modelled from the spec: the missing `_add_analytical_features`. -/
def addAnalyticalFeatures (sql : String) (pats : List String) : String :=
  addComplexFeatures sql pats

/-! ### Infrastructure for the idempotence analysis of the schema
enhancer (claim C9): decomposition of a string into maximal identifier
runs and separator characters. -/

/-- The head of the list, if any, falsifies `p`. -/
def headNot (p : Char → Bool) : List Char → Prop
  | [] => True
  | c :: _ => p c = false

/-- Chunks: a maximal identifier run or a single separator character. -/
inductive Chunk where
  | tok (w : List Char)
  | sep (c : Char)
  deriving Repr, DecidableEq

/-- Back from chunks to characters. -/
def renderChunks : List Chunk → List Char
  | [] => []
  | .tok w :: rest => w ++ renderChunks rest
  | .sep c :: rest => c :: renderChunks rest

/-- Chunk decomposition, fuel driven. -/
def chunksF : Nat → List Char → List Chunk
  | 0, _ => []
  | _, [] => []
  | fuel + 1, c :: cs =>
    if isIdentChar c then
      .tok (c :: cs.takeWhile isIdentChar) :: chunksF fuel (cs.dropWhile isIdentChar)
    else
      .sep c :: chunksF fuel cs

/-- Chunk decomposition of a character list. -/
def chunksOf (l : List Char) : List Chunk := chunksF l.length l

/-- Well formed chunk lists: tokens are nonempty identifier runs,
separators are non identifier characters, and a token is never directly
followed by another token. -/
def cwfB : List Chunk → Bool
  | [] => true
  | .sep c :: rest => !(isIdentChar c) && cwfB rest
  | .tok w :: rest =>
    !(w.isEmpty) && w.all isIdentChar &&
    (match rest with
     | .tok _ :: _ => false
     | _ => cwfB rest)

/-- Is the head of the chunk list not a token? -/
def notTokHead : List Chunk → Bool
  | .tok _ :: _ => false
  | _ => true

/-- The regex keyword `FROM`. -/
def fromPat : List Char := ['F', 'R', 'O', 'M']

/-- The regex keyword `JOIN`. -/
def joinPat : List Char := ['J', 'O', 'I', 'N']

/-- Does the identifier run end (case insensitively) with `FROM` or
`JOIN`?  This is the only way the keyword can be followed by `\s`. -/
def endsFJ (w : List Char) : Bool :=
  decide (4 ≤ w.length) &&
  (ciStartsWith fromPat (w.drop (w.length - 4)) ||
   ciStartsWith joinPat (w.drop (w.length - 4)))

/-- The captures of the `_extract_table_names` regex scan. -/
def capturesOf (l : List Char) : List String := extractTNF l.length l

/-- Chunk-level `\s+` walker of the capture. -/
def wsCaptureGo : List Chunk → Option (List Char × List Chunk)
  | [] => none
  | Chunk.sep c :: rest => if pyIsSpace c then wsCaptureGo rest else none
  | Chunk.tok w :: rest =>
    match w with
    | [] => none
    | c :: _ => if c.isAlpha || c == '_' then some (w, rest) else none

/-- Chunk-level `\s+` capture (at least one whitespace separator, then
an identifier token starting with a letter or underscore). -/
def wsCapture : List Chunk → Option (List Char × List Chunk)
  | Chunk.sep c :: rest => if pyIsSpace c then wsCaptureGo rest else none
  | _ => none

/-- Chunk-level extraction scan, fuel driven. -/
def extractCF : Nat → List Chunk → List String
  | 0, _ => []
  | _, [] => []
  | fuel + 1, Chunk.sep _ :: rest => extractCF fuel rest
  | fuel + 1, Chunk.tok w :: rest =>
    if endsFJ w then
      match wsCapture rest with
      | some (x, rest2) => String.mk x :: extractCF fuel rest2
      | none => extractCF fuel rest
    else extractCF fuel rest

/-- Chunk-level extraction. -/
def extractC (cs : List Chunk) : List String := extractCF cs.length cs

/-- The character just before the position following a token. -/
def prevCh (p : Char) : List Char → Char
  | [] => p
  | c :: _ => c

/-- Chunk-level form of the aliasing pass, producing characters. -/
def aliasC (amb : String → Option String) : Char → List Chunk → List Char
  | _, [] => []
  | _, .sep c :: rest => c :: aliasC amb c rest
  | prev, .tok w :: rest =>
    (match amb (String.mk w) with
     | some q => if prev == '.' then w else q.data ++ '.' :: w
     | none => w) ++ aliasC amb (prevCh prev w) rest

/-- Chunk-level form of the aliasing pass, producing chunks. -/
def aliasChunks (amb : String → Option String) : Char → List Chunk → List Chunk
  | _, [] => []
  | _, .sep c :: rest => .sep c :: aliasChunks amb c rest
  | prev, .tok w :: rest =>
    (match amb (String.mk w) with
     | some q =>
       if prev == '.' then [Chunk.tok w]
       else [Chunk.tok q.data, Chunk.sep '.', Chunk.tok w]
     | none => [Chunk.tok w]) ++ aliasChunks amb (prevCh prev w) rest

/-- The token contents of a chunk list, as strings. -/
def tokStringsOf (cs : List Chunk) : List String :=
  cs.filterMap (fun ch => match ch with | Chunk.tok w => some (String.mk w) | _ => none)

/-- All positions at which the aliasing pass would rewrite are inert. -/
def aliasNoop (amb : String → Option String) : Char → List Chunk → Bool
  | _, [] => true
  | _, .sep c :: rest => aliasNoop amb c rest
  | prev, .tok w :: rest =>
    (prev == '.' || (amb (String.mk w)).isNone) && aliasNoop amb (prevCh prev w) rest

/-- The table names of the catalog. -/
def catalogNames : List String := catalogTables.map (fun p => p.1)

/-- The text appended for one join hint. -/
def clauseOf (h : JoinHint) : String :=
  " JOIN " ++ h.to_table ++ " ON " ++ h.condition

/-- Soundness conditions for an ambiguity mapping: qualifiers are
nonempty identifier runs starting with a letter and never ending in a
scan keyword, and mapped tokens start with a letter or underscore and
never end in a scan keyword. -/
def ambOK (amb : String → Option String) : Prop :=
  ∀ t q, amb t = some q →
    (q.data ≠ [] ∧ q.data.all isIdentChar = true ∧ endsFJ q.data = false ∧
      (match q.data with | c :: _ => c.isAlpha = true | [] => False)) ∧
    ((match t.data with | c :: _ => (c.isAlpha || c == '_') = true | [] => False) ∧
      endsFJ t.data = false)

/-- A run of whitespace separator chunks. -/
def allSpaceSeps : List Chunk → Bool
  | [] => true
  | .sep c :: r => pyIsSpace c && allSpaceSeps r
  | .tok _ :: _ => false

/-- Dropping a prefix never lengthens a list. -/
theorem lengthDropWhileLe {α : Type} (p : α → Bool) : (l : List α) → (l.dropWhile p).length ≤ l.length
  | [] => Nat.le_refl _
  | a :: l => by
    simp only [List.dropWhile]
    split
    · exact Nat.le_succ_of_le (lengthDropWhileLe p l)
    · exact Nat.le_refl _

/-! ### Helper lemmas about the token stream -/

/-- Every token produced by the lexer carries a concrete ttype. -/
theorem tokenizeF_ttype_ne_none :
    ∀ (fuel : Nat) (l : List Char), ∀ t ∈ tokenizeF fuel l, t.ttype ≠ none := by
  intro fuel
  induction fuel with
  | zero => intro l t ht; simp [tokenizeF] at ht
  | succ n ih =>
    intro l t ht
    match l with
    | [] => simp [tokenizeF] at ht
    | c :: cs =>
      rw [tokenizeF] at ht
      split at ht
      · rcases List.mem_cons.mp ht with h | h
        · subst h; simp
        · exact ih _ t h
      · split at ht
        · rcases List.mem_cons.mp ht with h | h
          · subst h; simp
          · exact ih _ t h
        · split at ht
          · rcases List.mem_cons.mp ht with h | h
            · subst h; simp
            · exact ih _ t h
          · split at ht
            · rcases List.mem_cons.mp ht with h | h
              · subst h; simp
              · exact ih _ t h
            · rcases List.mem_cons.mp ht with h | h
              · subst h; simp
              · exact ih _ t h

/-- The append guard of `_extract_tables` requires ttype `None`, so over
leaf tokens nothing is ever appended. -/
theorem extractTablesGo_nil (toks : List STok) (h : ∀ t ∈ toks, t.ttype ≠ none) :
    ∀ fs, extractTablesGo fs toks = [] := by
  induction toks with
  | nil => intro fs; rfl
  | cons t ts ih =>
    intro fs
    have ht := h t (List.mem_cons_self ..)
    have hts : ∀ x ∈ ts, x.ttype ≠ none := fun x hx => h x (List.mem_cons_of_mem _ hx)
    have hbeq : (t.ttype == none) = false := by
      cases hty : t.ttype with
      | none => exact absurd hty ht
      | some v => rfl
    rw [extractTablesGo]
    split
    · exact ih hts true
    · rw [if_neg (by simp [hbeq]), ih hts fs]

/-- `_extract_tables` returns the empty list on every statement. -/
theorem extractTables_always_nil (s : String) : extractTables (tokenizeGo s.data) = [] :=
  extractTablesGo_nil _ (tokenizeF_ttype_ne_none s.data.length s.data) false

/-- On nonempty input `_parse_and_validate_sql` always succeeds, with an
empty table list, because table extraction is dead code. -/
theorem parseAndValidateSql_valid (s : String) (hs : s.data ≠ []) :
    (parseAndValidateSql s).valid = true ∧ (parseAndValidateSql s).tables = [] := by
  unfold parseAndValidateSql parseSql
  match hd : s.data with
  | [] => exact absurd hd hs
  | c :: cs =>
    have hnil : extractTables (tokenizeGo (c :: cs)) = [] := by
      have := extractTables_always_nil s
      rwa [hd] at this
    simp [hnil, extractTables] at *
    simp [hnil]

/-! ### Claim C1 -/

/-- C1: `execute_sql` reaches `_execute_with_timeout` (and can report
`success = true`) only for statements that passed both the internal
security validation and the parse/allow-list validation. -/
theorem c1_validation_before_execution (he : Bool) (sql : String) (o : DbOutcome)
    (t : ℚ) (st : ExecStats)
    (h : (executeSql he sql o t st).executed = true ∨
         (executeSql he sql o t st).res.success = true) :
    (validateSqlSecurity sql).valid = true ∧ (parseAndValidateSql sql).valid = true := by
  cases hv : (validateSqlSecurity sql).valid with
  | true =>
    cases hp : (parseAndValidateSql sql).valid with
    | true => exact ⟨rfl, rfl⟩
    | false =>
      exfalso
      cases he <;> simp [executeSql, hv, hp, errorResponse] at h
  | false =>
    exfalso
    cases he <;> simp [executeSql, hv, errorResponse] at h

/-- C1 witness: a concrete call that reaches execution, hence was
validated. -/
theorem c1_witness :
    (validateSqlSecurity "SELECT * FROM FIR").valid = true ∧
    (parseAndValidateSql "SELECT * FROM FIR").valid = true :=
  c1_validation_before_execution true "SELECT * FROM FIR" (.ok [] []) 1 initStats
    (Or.inl rfl)

/-- C2 counterexample: `DROP` occurs as a standalone whole token
(delimited by a newline and a space), yet the security validation
accepts the statement - the source only detects keywords delimited by
space characters or at the very start. -/
theorem c2_counterexample :
    hasStandaloneToken "DROP" "SELECT * FROM FIR\nDROP TABLE X" = true ∧
    (validateSqlSecurity "SELECT * FROM FIR\nDROP TABLE X").valid = true :=
  ⟨rfl, rfl⟩

/-- C2 (amended): whenever a denylisted keyword occurs space delimited in
the space padded, upper cased, stripped statement (or the statement
starts with it), the security validation rejects, naming a denylisted
keyword that triggered the check. -/
theorem c2_space_delimited_keyword_rejected (sql kw : String)
    (hkw : kw ∈ dangerousKeywords)
    (htrig : dangerTriggers (pyStrip (toUpperStr sql)) kw = true) :
    (validateSqlSecurity sql).valid = false ∧
    ∃ kw2 ∈ dangerousKeywords,
      dangerTriggers (pyStrip (toUpperStr sql)) kw2 = true ∧
      (validateSqlSecurity sql).reason = dangerReason kw2 := by
  have hsome : (dangerousKeywords.find?
      (fun k => dangerTriggers (pyStrip (toUpperStr sql)) k)).isSome := by
    rw [List.find?_isSome]
    exact ⟨kw, hkw, htrig⟩
  rcases Option.isSome_iff_exists.mp hsome with ⟨kw2, hfind⟩
  refine ⟨by simp [validateSqlSecurity, hfind], kw2, List.mem_of_find?_eq_some hfind,
    List.find?_some hfind, by simp [validateSqlSecurity, hfind]⟩

/-- C2 witness: a lower case `drop` statement is rejected with the
keyword named. -/
theorem c2_witness :
    (validateSqlSecurity "drop table fir").valid = false ∧
    ∃ kw2 ∈ dangerousKeywords,
      dangerTriggers (pyStrip (toUpperStr "drop table fir")) kw2 = true ∧
      (validateSqlSecurity "drop table fir").reason = dangerReason kw2 :=
  c2_space_delimited_keyword_rejected "drop table fir" "DROP" (by decide) (by decide)

/-! ### Claim C3 -/

/-- C3 (code bug): the allow-list stage is dead code.  `_extract_tables`
only appends tokens whose ttype `is None`, which never holds for
flattened leaf tokens, so no table is ever checked against the
allow-list: a statement over the disallowed `SECRET_TABLE` passes
`_parse_and_validate_sql` and reaches execution. -/
theorem c3_allowlist_dead_code :
    (parseAndValidateSql "SELECT * FROM SECRET_TABLE").valid = true ∧
    (parseAndValidateSql "SELECT * FROM SECRET_TABLE").tables = [] ∧
    (executeSql true "SELECT * FROM SECRET_TABLE" (.ok [] []) 1 initStats).executed = true ∧
    (∀ s : String, extractTables (tokenizeGo s.data) = []) :=
  ⟨rfl, rfl, rfl, extractTables_always_nil⟩

/-! ### Claim C5 -/

/-- C5: when the database raises during execution, `execute_sql` returns
the structured error response - `success = false`, a nonempty error
message, no rows, `row_count = 0` - and (being a total function of its
oracles) never propagates the exception. -/
theorem c5_exception_becomes_error_response (sql m : String) (t : ℚ) (st : ExecStats)
    (h1 : (validateSqlSecurity sql).valid = true)
    (h2 : (parseAndValidateSql sql).valid = true) :
    (executeSql true sql (.err m) t st).res.success = false ∧
    (∃ e, (executeSql true sql (.err m) t st).res.error = some e ∧ e ≠ "") ∧
    (executeSql true sql (.err m) t st).res.results = [] ∧
    (executeSql true sql (.err m) t st).res.row_count = 0 ∧
    (executeSql true sql (.err m) t st).res =
      errorResponse ("Query execution failed: " ++ m) := by
  have hne : ("Query execution failed: " ++ m) ≠ "" := by
    intro hcontra
    have hl := congrArg String.length hcontra
    rw [String.length_append] at hl
    have h24 : ("Query execution failed: ").length = 24 := rfl
    have h0 : ("" : String).length = 0 := rfl
    omega
  refine ⟨?_, ⟨"Query execution failed: " ++ m, ?_, hne⟩, ?_, ?_, ?_⟩ <;>
    simp [executeSql, h1, h2, executeWithTimeout, errorResponse]

/-- C5 witness at a concrete failing call. -/
theorem c5_witness :
    (executeSql true "SELECT * FROM FIR" (.err "ORA-01013: timeout") 1 initStats).res.success
      = false ∧
    (∃ e, (executeSql true "SELECT * FROM FIR" (.err "ORA-01013: timeout") 1
        initStats).res.error = some e ∧ e ≠ "") ∧
    (executeSql true "SELECT * FROM FIR" (.err "ORA-01013: timeout") 1
        initStats).res.results = [] ∧
    (executeSql true "SELECT * FROM FIR" (.err "ORA-01013: timeout") 1
        initStats).res.row_count = 0 ∧
    (executeSql true "SELECT * FROM FIR" (.err "ORA-01013: timeout") 1 initStats).res =
      errorResponse ("Query execution failed: " ++ "ORA-01013: timeout") :=
  c5_exception_becomes_error_response "SELECT * FROM FIR" "ORA-01013: timeout" 1 initStats
    rfl rfl

/-! ### Claim C7 -/

/-- C7 counterexample: a statement with eleven lower case `join`
keywords passes the whole validation - the complexity stage counts the
case sensitive substring `JOIN` in the raw SQL, so lower case joins are
never counted. -/
theorem c7_counterexample :
    countSeq "JOIN".data (toUpperStr "select * from t1 join t2 join t3 join t4 join t5 join t6 join t7 join t8 join t9 join t10 join t11 join t12").data = 11 ∧
    (validateSqlSecurity "select * from t1 join t2 join t3 join t4 join t5 join t6 join t7 join t8 join t9 join t10 join t11 join t12").valid = true ∧
    (parseAndValidateSql "select * from t1 join t2 join t3 join t4 join t5 join t6 join t7 join t8 join t9 join t10 join t11 join t12").valid = true :=
  ⟨rfl, rfl, rfl⟩

/-- C7 (amended): for a statement that passes the earlier keyword,
SELECT prefix and injection stages, more than ten occurrences of the
case sensitive substring `JOIN` in the raw SQL are rejected at the
complexity stage with the reason naming the limit of 10. -/
theorem c7_join_limit (sql : String)
    (h1 : dangerousKeywords.find?
        (fun kw => dangerTriggers (pyStrip (toUpperStr sql)) kw) = none)
    (h2 : startsWithSeq "SELECT".data (pyStrip (toUpperStr sql)).data = true)
    (h3 : injectionHit sql = none)
    (h4 : countSeq "JOIN".data sql.data > 10) :
    validateSqlSecurity sql = ⟨false, "Too many JOINs (max 10 allowed)"⟩ := by
  simp [validateSqlSecurity, h1, h2, h3, h4]

/-- C7 witness: eleven upper case JOINs are rejected at the complexity
stage. -/
theorem c7_witness :
    validateSqlSecurity "SELECT * FROM T1 JOIN T2 JOIN T3 JOIN T4 JOIN T5 JOIN T6 JOIN T7 JOIN T8 JOIN T9 JOIN T10 JOIN T11 JOIN T12"
      = ⟨false, "Too many JOINs (max 10 allowed)"⟩ :=
  c7_join_limit _ rfl rfl rfl (by decide)

/-- Without an engine, a call leaves the statistics unchanged. -/
theorem stepStats_no_engine (st : ExecStats) (c : CallIn) (h : c.engine = false) :
    stepStats st c = st := by
  simp [stepStats, executeSql, h]

/-- With an engine, every call increments `total_queries` exactly once. -/
theorem stepStats_total (st : ExecStats) (c : CallIn) (he : c.engine = true) :
    (stepStats st c).total_queries = st.total_queries + 1 := by
  cases h1 : (validateSqlSecurity c.sql).valid
  · simp [stepStats, executeSql, he, h1]
  · cases h2 : (parseAndValidateSql c.sql).valid
    · simp [stepStats, executeSql, he, h1, h2]
    · cases ho : c.outcome <;>
        simp [stepStats, executeSql, he, h1, h2, ho, executeWithTimeout, updateExecutionStats]

/-- A validation-rejected call updates no counter other than
`total_queries` and never reaches execution. -/
theorem stepStats_rejected (st : ExecStats) (c : CallIn) (h : RejectedCall c) :
    (stepStats st c).total_queries = st.total_queries + 1 ∧
    (stepStats st c).successful_queries = st.successful_queries ∧
    (stepStats st c).failed_queries = st.failed_queries ∧
    (stepStats st c).avg_execution_time = st.avg_execution_time ∧
    (executeSql c.engine c.sql c.outcome c.elapsed st).executed = false := by
  obtain ⟨he, hrej⟩ := h
  rcases hrej with h1 | h2
  · refine ⟨?_, ?_, ?_, ?_, ?_⟩ <;> simp [stepStats, executeSql, he, h1]
  · cases h1 : (validateSqlSecurity c.sql).valid
    · refine ⟨?_, ?_, ?_, ?_, ?_⟩ <;> simp [stepStats, executeSql, he, h1]
    · refine ⟨?_, ?_, ?_, ?_, ?_⟩ <;> simp [stepStats, executeSql, he, h1, h2]

/-- A call that passes both validations reaches execution, adds exactly
one to `successful_queries + failed_queries`, and updates the running
average by the source formula (division by the post increment total). -/
theorem stepStats_executed (st : ExecStats) (c : CallIn) (he : c.engine = true)
    (h1 : (validateSqlSecurity c.sql).valid = true)
    (h2 : (parseAndValidateSql c.sql).valid = true) :
    (executeSql c.engine c.sql c.outcome c.elapsed st).executed = true ∧
    (stepStats st c).total_queries = st.total_queries + 1 ∧
    (stepStats st c).successful_queries + (stepStats st c).failed_queries
      = st.successful_queries + st.failed_queries + 1 ∧
    (stepStats st c).avg_execution_time
      = (st.avg_execution_time * ((st.total_queries : ℚ) + 1 - 1) + c.elapsed)
        / ((st.total_queries : ℚ) + 1) := by
  cases ho : c.outcome <;>
    refine ⟨?_, ?_, ?_, ?_⟩ <;>
      simp [stepStats, executeSql, he, h1, h2, executeWithTimeout,
        updateExecutionStats, ho] <;>
      try ring_nf

/-- One step never shrinks the gap between `total_queries` and
`successful_queries + failed_queries`. -/
theorem stepStats_gap (st : ExecStats) (c : CallIn) (k : Nat)
    (h : st.successful_queries + st.failed_queries + k ≤ st.total_queries) :
    (stepStats st c).successful_queries + (stepStats st c).failed_queries + k
      ≤ (stepStats st c).total_queries := by
  cases he : c.engine
  · rw [stepStats_no_engine st c he]; exact h
  · cases h1 : (validateSqlSecurity c.sql).valid
    · obtain ⟨ht, hs, hf, _, _⟩ := stepStats_rejected st c ⟨he, Or.inl h1⟩
      omega
    · cases h2 : (parseAndValidateSql c.sql).valid
      · obtain ⟨ht, hs, hf, _, _⟩ := stepStats_rejected st c ⟨he, Or.inr h2⟩
        omega
      · obtain ⟨_, ht, hsf, _⟩ := stepStats_executed st c he h1 h2
        omega

/-- Runs preserve the statistics gap. -/
theorem runCalls_gap (calls : List CallIn) :
    ∀ (st : ExecStats) (k : Nat),
      st.successful_queries + st.failed_queries + k ≤ st.total_queries →
      (runCalls st calls).successful_queries + (runCalls st calls).failed_queries + k
        ≤ (runCalls st calls).total_queries := by
  induction calls with
  | nil => intro st k h; exact h
  | cons c rest ih =>
    intro st k h
    exact ih (stepStats st c) k (stepStats_gap st c k h)

/-- A rejected call inside a run increases the gap strictly. -/
theorem runCalls_gap_strict (calls : List CallIn) :
    ∀ (st : ExecStats) (k : Nat),
      st.successful_queries + st.failed_queries + k ≤ st.total_queries →
      (∃ d ∈ calls, RejectedCall d) →
      (runCalls st calls).successful_queries + (runCalls st calls).failed_queries + k
        < (runCalls st calls).total_queries := by
  induction calls with
  | nil => intro st k h hex; rcases hex with ⟨d, hd, _⟩; simp at hd
  | cons c rest ih =>
    intro st k h hex
    rcases hex with ⟨d, hd, hrej⟩
    rcases List.mem_cons.mp hd with rfl | hd2
    · obtain ⟨ht, hs, hf, _, _⟩ := stepStats_rejected st d hrej
      have hk1 : (stepStats st d).successful_queries + (stepStats st d).failed_queries + (k + 1)
          ≤ (stepStats st d).total_queries := by omega
      have := runCalls_gap rest (stepStats st d) (k + 1) hk1
      have hrun : runCalls st (d :: rest) = runCalls (stepStats st d) rest := rfl
      rw [hrun]
      omega
    · have hstep := stepStats_gap st c k h
      have := ih (stepStats st c) k hstep ⟨d, hd2, hrej⟩
      exact this

/-! ### Claim C10 -/

/-- C10: with an engine, `total_queries` is incremented exactly once per
call; the success and failure counters and the running average move only
on calls that reach execution; hence
`successful_queries + failed_queries ≤ total_queries` always holds on any
run from a fresh executor, strictly after any validation-rejected call;
and a call without an engine leaves the statistics unchanged. -/
theorem c10_counter_invariants (c : CallIn) (st : ExecStats) (calls : List CallIn) :
    (c.engine = true → (stepStats st c).total_queries = st.total_queries + 1) ∧
    (c.engine = false → stepStats st c = st) ∧
    (RejectedCall c →
      (stepStats st c).successful_queries = st.successful_queries ∧
      (stepStats st c).failed_queries = st.failed_queries ∧
      (stepStats st c).avg_execution_time = st.avg_execution_time ∧
      (executeSql c.engine c.sql c.outcome c.elapsed st).executed = false) ∧
    (c.engine = true → (validateSqlSecurity c.sql).valid = true →
      (parseAndValidateSql c.sql).valid = true →
      (stepStats st c).successful_queries + (stepStats st c).failed_queries
        = st.successful_queries + st.failed_queries + 1) ∧
    ((runCalls initStats calls).successful_queries + (runCalls initStats calls).failed_queries
      ≤ (runCalls initStats calls).total_queries) ∧
    ((∃ d ∈ calls, RejectedCall d) →
      (runCalls initStats calls).successful_queries + (runCalls initStats calls).failed_queries
        < (runCalls initStats calls).total_queries) := by
  refine ⟨fun he => stepStats_total st c he,
          fun he => stepStats_no_engine st c he,
          fun hrej => ⟨(stepStats_rejected st c hrej).2.1, (stepStats_rejected st c hrej).2.2.1,
            (stepStats_rejected st c hrej).2.2.2.1, (stepStats_rejected st c hrej).2.2.2.2⟩,
          fun he h1 h2 => (stepStats_executed st c he h1 h2).2.2.1,
          ?_, ?_⟩
  · have := runCalls_gap calls initStats 0 (by simp [initStats])
    omega
  · intro hex
    have := runCalls_gap_strict calls initStats 0 (by simp [initStats]) hex
    omega

/-- C10 witness: a rejected call increments only `total_queries`, a call
without an engine changes nothing, and after one rejected call the
inequality is strict. -/
theorem c10_witness :
    (stepStats initStats ⟨true, "drop table x", .ok [] [], 0⟩).total_queries
      = initStats.total_queries + 1 ∧
    stepStats initStats ⟨false, "SELECT 1", .ok [] [], 0⟩ = initStats ∧
    (runCalls initStats [⟨true, "drop table x", .ok [] [], 0⟩]).successful_queries
        + (runCalls initStats [⟨true, "drop table x", .ok [] [], 0⟩]).failed_queries
      < (runCalls initStats [⟨true, "drop table x", .ok [] [], 0⟩]).total_queries :=
  ⟨(c10_counter_invariants ⟨true, "drop table x", .ok [] [], 0⟩ initStats []).1 rfl,
   (c10_counter_invariants ⟨false, "SELECT 1", .ok [] [], 0⟩ initStats []).2.1 rfl,
   (c10_counter_invariants ⟨true, "drop table x", .ok [] [], 0⟩ initStats
      [⟨true, "drop table x", .ok [] [], 0⟩]).2.2.2.2.2
     ⟨⟨true, "drop table x", .ok [] [], 0⟩, List.mem_singleton.mpr rfl, rfl, Or.inl rfl⟩⟩

/-! ### Claim C6 -/

/-- Auxiliary: over a run in which every call records a duration, the
total grows by the number of calls and the average times the final total
accumulates the sum of the durations. -/
theorem runCalls_avg_aux (calls : List CallIn)
    (hall : ∀ c ∈ calls, c.engine = true ∧ (validateSqlSecurity c.sql).valid = true ∧
      (parseAndValidateSql c.sql).valid = true) :
    ∀ st : ExecStats,
      (runCalls st calls).total_queries = st.total_queries + calls.length ∧
      (runCalls st calls).avg_execution_time * ((st.total_queries : ℚ) + calls.length)
        = st.avg_execution_time * st.total_queries + (calls.map (·.elapsed)).sum := by
  induction calls with
  | nil => intro st; simp [runCalls]
  | cons c rest ih =>
    intro st
    obtain ⟨he, h1, h2⟩ := hall c (List.mem_cons_self ..)
    have hrest : ∀ x ∈ rest, x.engine = true ∧ (validateSqlSecurity x.sql).valid = true ∧
        (parseAndValidateSql x.sql).valid = true :=
      fun x hx => hall x (List.mem_cons_of_mem _ hx)
    obtain ⟨_, htot, _, havg⟩ := stepStats_executed st c he h1 h2
    have hrun : runCalls st (c :: rest) = runCalls (stepStats st c) rest := rfl
    obtain ⟨ihtot, ihavg⟩ := ih hrest (stepStats st c)
    have hnz : ((st.total_queries : ℚ) + 1) ≠ 0 := by positivity
    have havg2 : (stepStats st c).avg_execution_time * ((st.total_queries : ℚ) + 1)
        = st.avg_execution_time * st.total_queries + c.elapsed := by
      rw [havg]
      field_simp
    constructor
    · rw [hrun, ihtot, htot]
      simp only [List.length_cons]
      omega
    · rw [hrun]
      have hcast : ((stepStats st c).total_queries : ℚ) = (st.total_queries : ℚ) + 1 := by
        rw [htot]; push_cast; ring
      calc (runCalls (stepStats st c) rest).avg_execution_time
            * ((st.total_queries : ℚ) + ((c :: rest).length : ℚ))
          = (runCalls (stepStats st c) rest).avg_execution_time
            * (((stepStats st c).total_queries : ℚ) + (rest.length : ℚ)) := by
              rw [hcast]; push_cast [List.length_cons]; ring
        _ = (stepStats st c).avg_execution_time * ((stepStats st c).total_queries : ℚ)
            + (rest.map (·.elapsed)).sum := ihavg
        _ = (stepStats st c).avg_execution_time * ((st.total_queries : ℚ) + 1)
            + (rest.map (·.elapsed)).sum := by rw [hcast]
        _ = st.avg_execution_time * st.total_queries + c.elapsed
            + (rest.map (·.elapsed)).sum := by rw [havg2]
        _ = st.avg_execution_time * st.total_queries + ((c :: rest).map (·.elapsed)).sum := by
              simp; ring

/-- C6: from a fresh executor, after any nonempty sequence of calls that
all record a duration (they pass both validations with an engine), the
stored running average equals the arithmetic mean of the recorded
durations; and each update follows the source formula
`new_avg = (old_avg * (n - 1) + sample) / n` with `n` the incremented
total. -/
theorem c6_running_average (calls : List CallIn) (hne : calls ≠ [])
    (hall : ∀ c ∈ calls, c.engine = true ∧ (validateSqlSecurity c.sql).valid = true ∧
      (parseAndValidateSql c.sql).valid = true) :
    (runCalls initStats calls).avg_execution_time
      = (calls.map (·.elapsed)).sum / (calls.length : ℚ) ∧
    (∀ (st : ExecStats) (c : CallIn), c.engine = true →
      (validateSqlSecurity c.sql).valid = true → (parseAndValidateSql c.sql).valid = true →
      (stepStats st c).avg_execution_time
        = (st.avg_execution_time * (((st.total_queries : ℚ) + 1) - 1) + c.elapsed)
          / ((st.total_queries : ℚ) + 1)) := by
  constructor
  · obtain ⟨htot, havg⟩ := runCalls_avg_aux calls hall initStats
    have hlen : (calls.length : ℚ) ≠ 0 := by
      have : calls.length ≠ 0 := fun h0 => hne (List.length_eq_zero.mp h0)
      exact_mod_cast this
    have havg' : (runCalls initStats calls).avg_execution_time * (calls.length : ℚ)
        = (calls.map (·.elapsed)).sum := by
      have h0 : ((initStats.total_queries : ℚ)) = 0 := by simp [initStats]
      rw [h0] at havg
      simpa [initStats] using havg
    rw [eq_div_iff hlen]
    exact havg'
  · intro st c he h1 h2
    exact (stepStats_executed st c he h1 h2).2.2.2

/-- C6 witness: two recorded calls with durations 2 and 4 leave an
average of 3. -/
theorem c6_witness :
    (runCalls initStats
      [⟨true, "SELECT * FROM FIR", .ok [] [], 2⟩,
       ⟨true, "SELECT * FROM FIR", .err "boom", 4⟩]).avg_execution_time
      = ([⟨true, "SELECT * FROM FIR", .ok [] [], 2⟩,
          ⟨true, "SELECT * FROM FIR", .err "boom", 4⟩].map
            (CallIn.elapsed)).sum /
        (([⟨true, "SELECT * FROM FIR", .ok [] [], 2⟩,
           ⟨true, "SELECT * FROM FIR", .err "boom", 4⟩] : List CallIn).length : ℚ) :=
  (c6_running_average _ (by simp)
    (by
      intro c hc
      rcases List.mem_cons.mp hc with rfl | hc2
      · exact ⟨rfl, rfl, rfl⟩
      · rcases List.mem_cons.mp hc2 with rfl | hc3
        · exact ⟨rfl, rfl, rfl⟩
        · simp at hc3)).1

/-! ### Claim C8 -/

/-- C8 counterexample: for an input matching no pattern the translator
returns the error text `No matching pattern` (capitalised), not the
string `no matching pattern` stated by the claim. -/
theorem c8_counterexample :
    ruleBasedGeneration "hello" = none ∧
    (generateSql "hello").error = some "No matching pattern" ∧
    ¬ ((generateSql "hello").error = some "no matching pattern") :=
  ⟨rfl, rfl, by decide⟩

/-- C8 (amended): the translator is a deterministic function of the
input text; with no pattern match it returns empty SQL, confidence 0 and
the error `No matching pattern`; with a rule based match it returns
confidence exactly 9/10 and method `rule_based`. -/
theorem c8_deterministic_translator (query : String) :
    (ruleBasedGeneration query = none →
      generateSql query = ⟨"", 0, none, some "No matching pattern", none⟩) ∧
    (∀ s, ruleBasedGeneration query = some s →
      (generateSql query).confidence = 9 / 10 ∧
      (generateSql query).method = some "rule_based" ∧
      (generateSql query).sql = s) := by
  constructor
  · intro h
    simp [generateSql, h]
  · intro s h
    refine ⟨?_, ?_, ?_⟩ <;> simp [generateSql, h]

/-- C8 witness at a non matching and a matching input. -/
theorem c8_witness :
    generateSql "hello" = ⟨"", 0, none, some "No matching pattern", none⟩ ∧
    (generateSql "Show crimes in Guntur district").confidence = 9 / 10 ∧
    (generateSql "Show crimes in Guntur district").method = some "rule_based" :=
  ⟨(c8_deterministic_translator "hello").1 rfl,
   ((c8_deterministic_translator "Show crimes in Guntur district").2 _ rfl).1,
   ((c8_deterministic_translator "Show crimes in Guntur district").2 _ rfl).2.1⟩

/-! ### Claim C4 -/

/-- C4 counterexample: in complex mode the validation report attached to
the result is the report of the pre-augmentation SQL: the returned
(augmented) SQL would raise a performance warning under the same
Validator, but the attached report carries none - the augmented SQL is
never re-validated. -/
theorem c4_counterexample :
    ((generateComplexQuery parseComplexQuery addComplexFeatures
        "Show crimes trend in Guntur district").std.validation).map
      (fun v => v.performance_warnings) = some [] ∧
    (validateQuery (generateComplexQuery parseComplexQuery addComplexFeatures
        "Show crimes trend in Guntur district").std.sql).performance_warnings
      = ["Functions in WHERE clause may prevent index usage"] :=
  ⟨rfl, rfl⟩

/-- C4 (amended): for both modes the standard pipeline runs first; with
empty standard SQL the standard result is returned unchanged; otherwise
the augmented SQL replaces the standard SQL while every other field -
including the validation report, which therefore describes the
pre-augmentation SQL - is returned unchanged, with no re-validation. -/
theorem c4_modes_no_revalidation (pc : String → List String)
    (aug : String → List String → String) (q : String) :
    ((generateStandardQuery q).sql = "" →
      generateComplexQuery pc aug q = ⟨generateStandardQuery q, none, none⟩ ∧
      generateAnalyticalQuery pc aug q = ⟨generateStandardQuery q, none⟩) ∧
    ((generateStandardQuery q).sql ≠ "" →
      (generateComplexQuery pc aug q).std.sql = aug (generateStandardQuery q).sql (pc q) ∧
      (generateComplexQuery pc aug q).std.validation = (generateStandardQuery q).validation ∧
      (generateAnalyticalQuery pc aug q).std.sql = aug (generateStandardQuery q).sql (pc q) ∧
      (generateAnalyticalQuery pc aug q).std.validation
        = (generateStandardQuery q).validation) := by
  constructor
  · intro h
    constructor <;> simp [generateComplexQuery, generateAnalyticalQuery, h]
  · intro h
    refine ⟨?_, ?_, ?_, ?_⟩ <;> simp [generateComplexQuery, generateAnalyticalQuery, h]

/-- C4 witness: both branches of the amended statement at concrete
inputs. -/
theorem c4_witness :
    generateComplexQuery parseComplexQuery addComplexFeatures "hello"
      = ⟨generateStandardQuery "hello", none, none⟩ ∧
    (generateComplexQuery parseComplexQuery addComplexFeatures
        "Show crimes trend in Guntur district").std.validation
      = (generateStandardQuery "Show crimes trend in Guntur district").validation :=
  ⟨((c4_modes_no_revalidation parseComplexQuery addComplexFeatures "hello").1 rfl).1,
   ((c4_modes_no_revalidation parseComplexQuery addComplexFeatures
      "Show crimes trend in Guntur district").2 (by decide)).2.1⟩

/-- takeWhile/dropWhile through a boundary where the predicate flips. -/
theorem takeWhile_append_exact (p : Char → Bool) :
    ∀ (x y : List Char), (∀ a ∈ x, p a = true) → headNot p y →
      (x ++ y).takeWhile p = x ∧ (x ++ y).dropWhile p = y := by
  intro x
  induction x with
  | nil =>
    intro y _ hy
    match y with
    | [] => exact ⟨rfl, rfl⟩
    | c :: cs =>
      simp only [headNot] at hy
      simp [List.takeWhile, List.dropWhile, hy]
  | cons a x ih =>
    intro y hx hy
    have ha := hx a (List.mem_cons_self ..)
    have hx' : ∀ b ∈ x, p b = true := fun b hb => hx b (List.mem_cons_of_mem _ hb)
    obtain ⟨h1, h2⟩ := ih y hx' hy
    constructor
    · simp [List.takeWhile, ha, h1]
    · simp [List.dropWhile, ha, h2]

/-- The fuel of the chunk decomposition is irrelevant once sufficient. -/
theorem chunksF_fuel :
    ∀ (f1 f2 : Nat) (l : List Char), l.length ≤ f1 → l.length ≤ f2 →
      chunksF f1 l = chunksF f2 l := by
  intro f1
  induction f1 with
  | zero =>
    intro f2 l h1 _
    match l, h1 with
    | [], _ => cases f2 <;> rfl
  | succ n ih =>
    intro f2 l h1 h2
    match l with
    | [] => cases f2 <;> rfl
    | c :: cs =>
      match f2, h2 with
      | m + 1, h2 =>
        simp only [chunksF]
        have hcs1 : cs.length ≤ n := Nat.le_of_succ_le_succ h1
        have hcs2 : cs.length ≤ m := Nat.le_of_succ_le_succ h2
        split
        · rw [ih m _ (Nat.le_trans (lengthDropWhileLe ..) hcs1)
            (Nat.le_trans (lengthDropWhileLe ..) hcs2)]
        · rw [ih m _ hcs1 hcs2]

/-- Rendering inverts the chunk decomposition. -/
theorem render_chunksF :
    ∀ (fuel : Nat) (l : List Char), l.length ≤ fuel →
      renderChunks (chunksF fuel l) = l := by
  intro fuel
  induction fuel with
  | zero =>
    intro l h
    match l, h with
    | [], _ => rfl
  | succ n ih =>
    intro l h
    match l with
    | [] => rfl
    | c :: cs =>
      have hcs : cs.length ≤ n := Nat.le_of_succ_le_succ h
      simp only [chunksF]
      split
      · simp only [renderChunks]
        rw [ih _ (Nat.le_trans (lengthDropWhileLe ..) hcs)]
        simp [List.takeWhile_append_dropWhile]
      · simp only [renderChunks]
        rw [ih _ hcs]

/-- After dropping the satisfying prefix, the head falsifies `p`. -/
theorem dropWhile_headNot (p : Char → Bool) : ∀ l : List Char, headNot p (l.dropWhile p) := by
  intro l
  induction l with
  | nil => trivial
  | cons c cs ih =>
    simp only [List.dropWhile]
    cases hc : p c
    · simp [headNot, hc]
    · simpa [hc] using ih

/-- Every character kept by takeWhile satisfies `p`. -/
theorem takeWhile_all (p : Char → Bool) : ∀ l : List Char, ∀ a ∈ l.takeWhile p, p a = true := by
  intro l
  induction l with
  | nil => intro a ha; simp at ha
  | cons c cs ih =>
    intro a ha
    simp only [List.takeWhile] at ha
    cases hc : p c
    · rw [hc] at ha; simp at ha
    · rw [hc] at ha
      rcases List.mem_cons.mp ha with rfl | h
      · exact hc
      · exact ih a h

/-- A list whose head is not an identifier character never decomposes
into a leading token chunk. -/
theorem chunksF_notTokHead (fuel : Nat) (l : List Char) (h : headNot isIdentChar l) :
    notTokHead (chunksF fuel l) = true := by
  match fuel, l with
  | 0, [] => rfl
  | 0, _ :: _ => rfl
  | _ + 1, [] => rfl
  | _ + 1, c :: cs =>
    simp only [headNot] at h
    simp [chunksF, h, notTokHead]

/-- The chunk decomposition is well formed. -/
theorem cwf_chunksF :
    ∀ (fuel : Nat) (l : List Char), l.length ≤ fuel →
      cwfB (chunksF fuel l) = true := by
  intro fuel
  induction fuel with
  | zero =>
    intro l h
    match l, h with
    | [], _ => rfl
  | succ n ih =>
    intro l h
    match l with
    | [] => rfl
    | c :: cs =>
      have hcs : cs.length ≤ n := Nat.le_of_succ_le_succ h
      simp only [chunksF]
      split
      · rename_i hc
        have hall : (c :: cs.takeWhile isIdentChar).all isIdentChar = true := by
          simp only [List.all_cons, hc, Bool.true_and, List.all_eq_true]
          exact takeWhile_all isIdentChar cs
        have hrest : cwfB (chunksF n (cs.dropWhile isIdentChar)) = true :=
          ih _ (Nat.le_trans (lengthDropWhileLe isIdentChar cs) hcs)
        have hnt : notTokHead (chunksF n (cs.dropWhile isIdentChar)) = true :=
          chunksF_notTokHead n _ (dropWhile_headNot isIdentChar cs)
        simp only [cwfB, hall, List.isEmpty_cons, Bool.not_false, Bool.true_and, Bool.and_true]
        match hd : chunksF n (cs.dropWhile isIdentChar) with
        | [] => rfl
        | .sep e :: r => rw [hd] at hrest; exact hrest
        | .tok v :: r => rw [hd] at hnt; simp [notTokHead] at hnt
      · rename_i hc
        simp only [cwfB, ih _ hcs, Bool.and_true]
        simp [hc]

/-- Unfolding of `chunksOf` on a cons cell. -/
theorem chunksOf_cons (c : Char) (cs : List Char) :
    chunksOf (c :: cs) =
      (if isIdentChar c then
        Chunk.tok (c :: cs.takeWhile isIdentChar) :: chunksOf (cs.dropWhile isIdentChar)
      else
        Chunk.sep c :: chunksOf cs) := by
  simp only [chunksOf, List.length_cons, chunksF]
  split
  · rw [chunksF_fuel cs.length (cs.dropWhile isIdentChar).length _
      (lengthDropWhileLe ..) (Nat.le_refl _)]
  · rfl

/-- takeWhile/dropWhile over an append whose right part starts blocked. -/
theorem takeWhile_append_headNot (p : Char → Bool) :
    ∀ (x y : List Char), headNot p y →
      (x ++ y).takeWhile p = x.takeWhile p ∧ (x ++ y).dropWhile p = x.dropWhile p ++ y := by
  intro x
  induction x with
  | nil =>
    intro y hy
    match y with
    | [] => exact ⟨rfl, rfl⟩
    | c :: cs =>
      simp only [headNot] at hy
      simp [List.takeWhile, List.dropWhile, hy]
  | cons a x ih =>
    intro y hy
    obtain ⟨h1, h2⟩ := ih y hy
    cases ha : p a
    · constructor <;> simp [List.takeWhile, List.dropWhile, ha]
    · constructor <;> simp [List.takeWhile, List.dropWhile, ha, h1, h2]

/-- Chunking distributes over an append at a blocked boundary. -/
theorem chunksF_append :
    ∀ (fuel : Nat) (l a : List Char), (l ++ a).length ≤ fuel → headNot isIdentChar a →
      chunksF fuel (l ++ a) = chunksOf l ++ chunksOf a := by
  intro fuel
  induction fuel with
  | zero =>
    intro l a h ha
    match l, a, h with
    | [], [], _ => rfl
  | succ n ih =>
    intro l a h ha
    match l with
    | [] =>
      simp only [List.nil_append, chunksOf, List.length_nil, chunksF]
      rw [chunksF_fuel (n + 1) a.length a (by simpa using h) (Nat.le_refl _)]
    | c :: cs =>
      have hlen : (cs ++ a).length ≤ n := by
        simpa using Nat.le_of_succ_le_succ (by simpa using h)
      simp only [List.cons_append, chunksF, List.append_eq]
      rw [chunksOf_cons]
      split
      · obtain ⟨ht, hd⟩ := takeWhile_append_headNot isIdentChar cs a ha
        rw [ht, hd]
        have hlen2 : (cs.dropWhile isIdentChar ++ a).length ≤ n := by
          simp only [List.length_append] at hlen ⊢
          have := lengthDropWhileLe isIdentChar cs
          omega
        rw [ih (cs.dropWhile isIdentChar) a hlen2 ha]
        simp
      · rw [ih cs a hlen ha]
        simp

/-- `chunksOf` distributes over an append at a blocked boundary. -/
theorem chunksOf_append (l a : List Char) (ha : headNot isIdentChar a) :
    chunksOf (l ++ a) = chunksOf l ++ chunksOf a :=
  chunksF_append (l ++ a).length l a (Nat.le_refl _) ha

/-- For a well formed chunk list whose head is not a token, the rendered
text starts blocked. -/
theorem render_headNot (cs : List Chunk) (hcwf : cwfB cs = true) (hnt : notTokHead cs = true) :
    headNot isIdentChar (renderChunks cs) := by
  match cs with
  | [] => trivial
  | .sep c :: rest =>
    simp only [cwfB, Bool.and_eq_true] at hcwf
    simp only [renderChunks, headNot]
    simpa using hcwf.1
  | .tok w :: rest => simp [notTokHead] at hnt

/-- Chunking inverts rendering on well formed chunk lists. -/
theorem chunksOf_render (cs : List Chunk) (hcwf : cwfB cs = true) :
    chunksOf (renderChunks cs) = cs := by
  induction cs with
  | nil => rfl
  | cons ch rest ih =>
    match ch with
    | .sep c =>
      simp only [cwfB, Bool.and_eq_true] at hcwf
      have hc : isIdentChar c = false := by simpa using hcwf.1
      simp only [renderChunks]
      rw [chunksOf_cons]
      simp [hc, ih hcwf.2]
    | .tok w =>
      simp only [cwfB, Bool.and_eq_true] at hcwf
      obtain ⟨⟨hne, hall⟩, hrest⟩ := hcwf
      have hcwfrest : cwfB rest = true := by
        match rest, hrest with
        | [], _ => rfl
        | .sep e :: r, hr => exact hr
        | .tok v :: r, hr => simp at hr
      have hnt : notTokHead rest = true := by
        match rest, hrest with
        | [], _ => rfl
        | .sep e :: r, _ => rfl
        | .tok v :: r, hr => simp at hr
      match w, hne with
      | w0 :: w', _ =>
        simp only [List.all_cons, Bool.and_eq_true, List.all_eq_true] at hall
        simp only [renderChunks, List.cons_append]
        rw [chunksOf_cons]
        obtain ⟨ht, hd⟩ := takeWhile_append_exact isIdentChar w' (renderChunks rest)
          (fun a haa => hall.2 a haa) (render_headNot rest hcwfrest hnt)
        simp only [hall.1, if_true, ht, hd]
        rw [ih hcwfrest]

/-- toUpper does not move characters outside the identifier range. -/
theorem toUpper_eq_of_not_ident (c : Char) (h : isIdentChar c = false) : c.toUpper = c := by
  unfold Char.toUpper
  show (if c.toNat ≥ 97 ∧ c.toNat ≤ 122 then Char.ofNat (c.toNat - 32) else c) = c
  split
  · exfalso
    rename_i hcond
    obtain ⟨h1, h2⟩ := hcond
    simp only [isIdentChar, Bool.or_eq_false_iff] at h
    have halpha := h.1.1
    simp only [Char.isAlpha, Bool.or_eq_false_iff] at halpha
    have hlow := halpha.2
    simp only [Char.isLower, Bool.and_eq_false_iff] at hlow
    simp only [Char.toNat] at h1 h2
    rcases hlow with hl | hl
    · have : (97 : UInt32) ≤ c.val := by
        rw [UInt32.le_def, BitVec.le_def]
        simpa [UInt32.toNat] using h1
      simp [ge_iff_le, this] at hl
    · have : c.val ≤ (122 : UInt32) := by
        rw [UInt32.le_def, BitVec.le_def]
        simpa [UInt32.toNat] using h2
      simp [this] at hl
  · rfl

/-- Identifier characters are not whitespace. -/
theorem ident_not_space (c : Char) (h : isIdentChar c = true) : pyIsSpace c = false := by
  cases hc : pyIsSpace c
  · rfl
  · exfalso
    simp only [pyIsSpace, Bool.or_eq_true, beq_iff_eq] at hc
    rcases hc with ((((rfl | rfl) | rfl) | rfl) | rfl) | rfl <;> exact absurd h (by decide)

/-- A self-upper identifier letter never case-folds onto a non identifier
character. -/
theorem ciEq_false_of_not_ident (p c : Char) (hp : isIdentChar p = true)
    (hpu : p.toUpper = p) (hc : isIdentChar c = false) : ciEq p c = false := by
  cases he : ciEq p c
  · rfl
  · exfalso
    simp only [ciEq, hpu, toUpper_eq_of_not_ident c hc, beq_iff_eq] at he
    rw [he] at hp
    rw [hp] at hc
    simp at hc

/-- A case insensitive prefix test only inspects the first pattern-length
characters. -/
theorem ciStartsWith_append_left :
    ∀ (kw w rest : List Char), kw.length ≤ w.length →
      ciStartsWith kw (w ++ rest) = ciStartsWith kw w := by
  intro kw
  induction kw with
  | nil => intro w rest _; rfl
  | cons k kw ih =>
    intro w rest h
    match w with
    | [] => simp at h
    | c :: cs =>
      simp only [List.cons_append, ciStartsWith, List.append_eq]
      rw [ih cs rest (Nat.le_of_succ_le_succ h)]

/-- A keyword of identifier letters cannot match across the end of an
identifier run into a blocked remainder. -/
theorem ciStartsWith_short_blocked :
    ∀ (kw w rest : List Char), w.length < kw.length →
      (∀ a ∈ kw, isIdentChar a = true ∧ a.toUpper = a) →
      (∀ a ∈ w, isIdentChar a = true) → headNot isIdentChar rest →
      ciStartsWith kw (w ++ rest) = false := by
  intro kw
  induction kw with
  | nil => intro w rest h _ _ _; simp at h
  | cons k kw ih =>
    intro w rest h hkw hw hr
    match w with
    | [] =>
      match rest with
      | [] => rfl
      | c :: cs =>
        simp only [headNot] at hr
        obtain ⟨hk1, hk2⟩ := hkw k (List.mem_cons_self ..)
        simp only [List.nil_append, ciStartsWith, ciEq_false_of_not_ident k c hk1 hk2 hr,
          Bool.false_and]
    | c :: cs =>
      simp only [List.cons_append, ciStartsWith, List.append_eq]
      rw [ih cs rest (Nat.le_of_succ_le_succ h)
        (fun a ha => hkw a (List.mem_cons_of_mem _ ha))
        (fun a ha => hw a (List.mem_cons_of_mem _ ha)) hr]
      simp

/-- No capture can start at a non whitespace character. -/
theorem wsIdentCap_head_not_space (c : Char) (l : List Char) (h : pyIsSpace c = false) :
    wsIdentCap (c :: l) = none := by
  unfold wsIdentCap
  rw [if_pos]
  simp [List.takeWhile, h]

/-- Size and structure of a successful capture. -/
theorem wsIdentCap_some (l x r : List Char) (h : wsIdentCap l = some (x, r)) :
    r.length < l.length ∧ x ≠ [] ∧ (∀ a ∈ x, isIdentChar a = true) ∧
    headNot isIdentChar r := by
  unfold wsIdentCap at h
  by_cases hne : (l.takeWhile pyIsSpace).isEmpty = true
  · rw [if_pos hne] at h
    exact absurd h (by simp)
  · rw [if_neg hne] at h
    match hd : l.dropWhile pyIsSpace with
    | [] => rw [hd] at h; exact absurd h (by simp)
    | c :: cs =>
      rw [hd] at h
      dsimp only at h
      by_cases hc : (c.isAlpha || c == '_') = true
      · rw [if_pos hc] at h
        simp only [Option.some.injEq, Prod.mk.injEq] at h
        obtain ⟨hx, hr⟩ := h
        have hlen : (c :: cs).length ≤ l.length := hd ▸ lengthDropWhileLe ..
        refine ⟨?_, ?_, ?_, ?_⟩
        · have := lengthDropWhileLe isIdentChar cs
          subst hr
          simp only [List.length_cons] at hlen
          omega
        · subst hx; simp
        · intro a ha
          subst hx
          rcases List.mem_cons.mp ha with rfl | ha2
          · rcases (Bool.or_eq_true ..).mp hc with h1 | h1
            · simp [isIdentChar, h1]
            · simp [isIdentChar, h1]
          · exact takeWhile_all isIdentChar cs a ha2
        · subst hr; exact dropWhile_headNot isIdentChar cs
      · rw [if_neg hc] at h
        exact absurd h (by simp)

/-- Size and structure of a successful keyword match attempt. -/
theorem fjTryKeyword_some (kw l x r : List Char) (h : fjTryKeyword kw l = some (x, r)) :
    r.length < l.length ∧ x ≠ [] ∧ (∀ a ∈ x, isIdentChar a = true) ∧
    headNot isIdentChar r := by
  unfold fjTryKeyword at h
  by_cases hci : ciStartsWith kw l = true
  · rw [if_pos hci] at h
    obtain ⟨h1, h2, h3, h4⟩ := wsIdentCap_some _ x r h
    exact ⟨Nat.lt_of_lt_of_le h1 (by simp), h2, h3, h4⟩
  · rw [if_neg hci] at h
    exact absurd h (by simp)

/-- Size and structure of a successful position match. -/
theorem fjMatchAt_some (l x r : List Char) (h : fjMatchAt l = some (x, r)) :
    r.length < l.length ∧ x ≠ [] ∧ (∀ a ∈ x, isIdentChar a = true) ∧
    headNot isIdentChar r := by
  unfold fjMatchAt at h
  match hf : fjTryKeyword ['F', 'R', 'O', 'M'] l with
  | some p =>
    rw [hf] at h
    simp only [Option.some.injEq] at h
    subst h
    exact fjTryKeyword_some _ l x r hf
  | none =>
    rw [hf] at h
    exact fjTryKeyword_some _ l x r h

/-- The fuel of the table scan is irrelevant once sufficient. -/
theorem extractTNF_fuel :
    ∀ (f1 f2 : Nat) (l : List Char), l.length ≤ f1 → l.length ≤ f2 →
      extractTNF f1 l = extractTNF f2 l := by
  intro f1
  induction f1 with
  | zero =>
    intro f2 l h1 _
    match l, h1 with
    | [], _ => cases f2 <;> rfl
  | succ n ih =>
    intro f2 l h1 h2
    match l with
    | [] => cases f2 <;> rfl
    | c :: cs =>
      match f2, h2 with
      | m + 1, h2 =>
        simp only [List.length_cons] at h1 h2
        simp only [extractTNF]
        match hm : fjMatchAt (c :: cs) with
        | some (x, r) =>
          dsimp only
          have hlt := (fjMatchAt_some _ x r hm).1
          simp only [List.length_cons] at hlt
          rw [ih m r (by omega) (by omega)]
        | none =>
          dsimp only
          rw [ih m cs (by omega) (by omega)]

/-- One position match inside an identifier run: only the exact last
four characters of the run can host the keyword. -/
theorem fjMatchAt_tok (w rest : List Char) (hwne : w ≠ [])
    (hw : ∀ a ∈ w, isIdentChar a = true) (hr : headNot isIdentChar rest) :
    fjMatchAt (w ++ rest) =
      if w.length = 4 && (ciStartsWith fromPat w || ciStartsWith joinPat w) then
        wsIdentCap rest
      else
        none := by
  have hfj : ∀ kw : List Char, kw = fromPat ∨ kw = joinPat →
      fjTryKeyword kw (w ++ rest) =
        if w.length = 4 && ciStartsWith kw w then wsIdentCap rest else none := by
    intro kw hkw
    have hkwid : ∀ a ∈ kw, isIdentChar a = true ∧ a.toUpper = a := by
      rcases hkw with rfl | rfl <;> · intro a ha; fin_cases ha <;> exact ⟨by decide, by decide⟩
    have hkwlen : kw.length = 4 := by rcases hkw with rfl | rfl <;> rfl
    unfold fjTryKeyword
    rcases Nat.lt_trichotomy w.length 4 with hlen | hlen | hlen
    · have : ciStartsWith kw (w ++ rest) = false :=
        ciStartsWith_short_blocked kw w rest (by omega) hkwid hw hr
      rw [this]
      have : (w.length = 4 && ciStartsWith kw w) = false := by
        simp only [Bool.and_eq_false_iff]
        left
        simp
        omega
      rw [this]
      rfl
    · have hci : ciStartsWith kw (w ++ rest) = ciStartsWith kw w :=
        ciStartsWith_append_left kw w rest (by omega)
      rw [hci]
      cases hc : ciStartsWith kw w
      · simp
      · have hdrop : (w ++ rest).drop kw.length = rest := by
          rw [hkwlen, List.drop_append_of_le_length (by omega)]
          rw [List.drop_of_length_le (by omega)]
          simp [hlen]
        rw [hdrop]
        simp [hlen]
    · have hci : ciStartsWith kw (w ++ rest) = ciStartsWith kw w :=
        ciStartsWith_append_left kw w rest (by omega)
      rw [hci]
      cases hc : ciStartsWith kw w
      · simp
      · have hdrop : (w ++ rest).drop kw.length = w.drop 4 ++ rest := by
          rw [hkwlen, List.drop_append_of_le_length (by omega)]
        rw [hdrop]
        have hwne4 : w.drop 4 ≠ [] := by
          intro hcon
          have := congrArg List.length hcon
          simp at this
          omega
        match hd4 : w.drop 4 with
        | [] => exact absurd hd4 hwne4
        | d :: ds =>
          have hdid : isIdentChar d = true := by
            have : d ∈ w := by
              have : d ∈ w.drop 4 := by rw [hd4]; exact List.mem_cons_self ..
              exact List.mem_of_mem_drop this
            exact hw d this
          rw [List.cons_append, wsIdentCap_head_not_space d _ (ident_not_space d hdid)]
          have h4 : w.length ≠ 4 := by omega
          simp [h4]
  unfold fjMatchAt
  rw [show (['F', 'R', 'O', 'M'] : List Char) = fromPat from rfl,
    show (['J', 'O', 'I', 'N'] : List Char) = joinPat from rfl]
  rw [hfj fromPat (Or.inl rfl), hfj joinPat (Or.inr rfl)]
  by_cases h4 : w.length = 4
  · cases hf : ciStartsWith fromPat w
    · simp [h4, hf]
    · have hj : ciStartsWith joinPat w = false := by
        match w, h4 with
        | [a, b, c, d], _ =>
          simp only [fromPat, ciStartsWith, Bool.and_eq_true] at hf
          cases hje : ciStartsWith joinPat [a, b, c, d]
          · rfl
          · exfalso
            simp only [joinPat, ciStartsWith, Bool.and_eq_true] at hje
            have h1 := hf.1
            have h2 := hje.1
            simp only [ciEq, beq_iff_eq] at h1 h2
            rw [← h1] at h2
            simp at h2
      simp only [h4, hf, hj, Bool.or_false, Bool.or_true, decide_True, Bool.true_and]
      match hcap : wsIdentCap rest with
      | some p => rfl
      | none => rfl
  · simp [h4]

/-- Scanning an identifier run: the run yields a capture exactly when it
ends with `FROM`/`JOIN` and the remainder starts with whitespace and an
identifier; otherwise the scan moves on past the run. -/
theorem extractTNF_tok :
    ∀ (fuel : Nat) (w rest : List Char), w ≠ [] → (∀ a ∈ w, isIdentChar a = true) →
      headNot isIdentChar rest → (w ++ rest).length ≤ fuel →
      extractTNF fuel (w ++ rest) =
        (if endsFJ w then
          match wsIdentCap rest with
          | some (x, r) => String.mk x :: capturesOf r
          | none => capturesOf rest
        else capturesOf rest) := by
  intro fuel
  induction fuel with
  | zero =>
    intro w rest hne _ _ hlen
    match w, hne with
    | c :: w', _ =>
      simp only [List.cons_append, List.length_cons] at hlen
      omega
  | succ n ih =>
    intro w rest hwne hw hr hlen
    match w, hwne with
    | c :: w', _ =>
      have hfj := fjMatchAt_tok (c :: w') rest (by simp) hw hr
      rw [List.cons_append] at hfj
      have hlen' : (w' ++ rest).length ≤ n := by
        simp only [List.cons_append, List.length_cons, List.length_append] at hlen ⊢
        omega
      have hrestlen : rest.length ≤ n := by
        simp only [List.length_append] at hlen'
        omega
      simp only [List.cons_append, extractTNF, List.append_eq]
      rw [hfj]
      by_cases hcond : ((c :: w').length = 4 &&
          (ciStartsWith fromPat (c :: w') || ciStartsWith joinPat (c :: w'))) = true
      · rw [if_pos hcond]
        obtain ⟨h4, hcij⟩ := Bool.and_eq_true .. |>.mp hcond
        have hends : endsFJ (c :: w') = true := by
          simp only [endsFJ]
          have : (c :: w').length - 4 = 0 := by
            simp only [decide_eq_true_eq] at h4
            omega
          rw [this, List.drop_zero, hcij]
          simp only [decide_eq_true_eq] at h4
          simp [h4]
        rw [hends, if_pos rfl]
        match hcap : wsIdentCap rest with
        | some (x, r) =>
          dsimp only
          have hrlen := (wsIdentCap_some rest x r hcap).1
          rw [extractTNF_fuel n r.length r (by omega) (Nat.le_refl _)]
          rfl
        | none =>
          dsimp only
          have h4' : (c :: w').length = 4 := by simpa using h4
          have hw'len : w'.length = 3 := by
            simp only [List.length_cons] at h4'
            omega
          have hw'ne : w' ≠ [] := by
            intro hcon
            rw [hcon] at hw'len
            simp at hw'len
          rw [ih w' rest hw'ne (fun x hx => hw x (List.mem_cons_of_mem _ hx)) hr hlen']
          have hef : endsFJ w' = false := by
            simp only [endsFJ, Bool.and_eq_false_iff]
            left
            simp
            omega
          rw [hef, if_neg (by simp)]
      · rw [if_neg hcond]
        have hends : endsFJ (c :: w') = endsFJ w' := by
          rcases Nat.lt_trichotomy (c :: w').length 4 with hl | hl | hl
          · simp only [List.length_cons] at hl
            have h1 : endsFJ (c :: w') = false := by
              simp only [endsFJ, Bool.and_eq_false_iff]
              left; simp; omega
            have h2 : endsFJ w' = false := by
              simp only [endsFJ, Bool.and_eq_false_iff]
              left; simp; omega
            rw [h1, h2]
          · have hcijf : (ciStartsWith fromPat (c :: w') ||
                ciStartsWith joinPat (c :: w')) = false := by
              cases hx : (ciStartsWith fromPat (c :: w') || ciStartsWith joinPat (c :: w'))
              · rfl
              · exfalso
                apply hcond
                simp [hl, hx]
            have h1 : endsFJ (c :: w') = false := by
              simp only [endsFJ]
              have : (c :: w').length - 4 = 0 := by omega
              rw [this, List.drop_zero, hcijf]
              simp
            have h2 : endsFJ w' = false := by
              simp only [List.length_cons] at hl
              simp only [endsFJ, Bool.and_eq_false_iff]
              left; simp; omega
            rw [h1, h2]
          · simp only [endsFJ]
            have hlc : (c :: w').length - 4 = (w'.length - 4) + 1 := by
              simp only [List.length_cons] at hl ⊢
              omega
            rw [hlc, List.drop_succ_cons]
            have hle : 4 ≤ (c :: w').length ∧ 4 ≤ w'.length := by
              simp only [List.length_cons] at hl ⊢
              omega
            rw [decide_eq_true hle.1, decide_eq_true hle.2]
        rw [hends]
        match hw' : w' with
        | [] =>
          simp only [List.nil_append]
          rw [extractTNF_fuel n rest.length rest hrestlen (Nat.le_refl _)]
          have : endsFJ [] = false := by simp [endsFJ]
          rw [this, if_neg (by simp)]
          rfl
        | d :: ds =>
          rw [ih (d :: ds) rest (by simp)
            (fun x hx => hw x (List.mem_cons_of_mem _ hx)) hr hlen']

/-- Whitespace is not an identifier character. -/
theorem space_not_ident (c : Char) (h : pyIsSpace c = true) : isIdentChar c = false := by
  cases hc : isIdentChar c
  · rfl
  · rw [ident_not_space c hc] at h
    exact absurd h (by simp)

/-- A non identifier character is neither a letter nor an underscore. -/
theorem not_ident_not_alpha (c : Char) (h : isIdentChar c = false) :
    (c.isAlpha || c == '_') = false := by
  cases hc : (c.isAlpha || c == '_')
  · rfl
  · exfalso
    rcases (Bool.or_eq_true ..).mp hc with h1 | h1
    · simp [isIdentChar, h1] at h
    · simp [isIdentChar, h1] at h

/-- A successful chunk capture consumes at least one chunk. -/
theorem wsCaptureGo_length (cs : List Chunk) (x : List Char) (r : List Chunk)
    (h : wsCaptureGo cs = some (x, r)) : r.length < cs.length := by
  induction cs with
  | nil => exact absurd h (by simp [wsCaptureGo])
  | cons ch rest ih =>
    match ch with
    | .sep c =>
      rw [show wsCaptureGo (Chunk.sep c :: rest) =
        (if pyIsSpace c then wsCaptureGo rest else none) from rfl] at h
      split at h
      · have := ih h
        simp only [List.length_cons]
        omega
      · exact absurd h (by simp)
    | .tok w =>
      match w with
      | [] => exact absurd h (by simp [wsCaptureGo])
      | d :: ds =>
        rw [show wsCaptureGo (Chunk.tok (d :: ds) :: rest) =
          (if d.isAlpha || d == '_' then some (d :: ds, rest) else none) from rfl] at h
        split at h
        · simp only [Option.some.injEq, Prod.mk.injEq] at h
          obtain ⟨-, rfl⟩ := h
          simp
        · exact absurd h (by simp)

/-- A successful chunk capture shortens the list. -/
theorem wsCapture_length (cs : List Chunk) (x : List Char) (r : List Chunk)
    (h : wsCapture cs = some (x, r)) : r.length < cs.length := by
  match cs with
  | [] => simp [wsCapture] at h
  | .tok w :: rest => simp [wsCapture] at h
  | .sep c :: rest =>
    rw [show wsCapture (Chunk.sep c :: rest) =
      (if pyIsSpace c then wsCaptureGo rest else none) from rfl] at h
    split at h
    · have := wsCaptureGo_length rest x r h
      simp only [List.length_cons]
      omega
    · exact absurd h (by simp)

/-- The fuel of the chunk scan is irrelevant once sufficient. -/
theorem extractCF_fuel :
    ∀ (f1 f2 : Nat) (cs : List Chunk), cs.length ≤ f1 → cs.length ≤ f2 →
      extractCF f1 cs = extractCF f2 cs := by
  intro f1
  induction f1 with
  | zero =>
    intro f2 cs h1 _
    match cs, h1 with
    | [], _ => cases f2 <;> rfl
  | succ n ih =>
    intro f2 cs h1 h2
    match cs with
    | [] => cases f2 <;> rfl
    | ch :: rest =>
      match f2, h2 with
      | m + 1, h2 =>
        simp only [List.length_cons] at h1 h2
        match ch with
        | .sep c =>
          simp only [extractCF]
          exact ih m rest (by omega) (by omega)
        | .tok w =>
          simp only [extractCF]
          split
          · match hcap : wsCapture rest with
            | some (x, rest2) =>
              dsimp only
              have := wsCapture_length rest x rest2 hcap
              rw [ih m rest2 (by omega) (by omega)]
            | none =>
              dsimp only
              exact ih m rest (by omega) (by omega)
          · exact ih m rest (by omega) (by omega)

/-- Chunk-level characterisation of the whitespace walker. -/
theorem wsCaptureGo_chunksOf (cs : List Char) :
    wsCaptureGo (chunksOf cs) =
      (match cs.dropWhile pyIsSpace with
       | [] => none
       | c :: cs2 =>
         if c.isAlpha || c == '_' then
           some (c :: cs2.takeWhile isIdentChar, chunksOf (cs2.dropWhile isIdentChar))
         else none) := by
  induction cs with
  | nil => rfl
  | cons c cs ih =>
    rw [chunksOf_cons]
    by_cases hc : isIdentChar c = true
    · rw [if_pos hc]
      have hns : pyIsSpace c = false := ident_not_space c hc
      simp only [wsCaptureGo, List.dropWhile, hns]
    · rw [if_neg (by simp [hc])]
      simp only [Bool.not_eq_true] at hc
      by_cases hs : pyIsSpace c = true
      · simp only [wsCaptureGo, hs, if_pos, List.dropWhile]
        rw [ih]
      · simp only [Bool.not_eq_true] at hs
        simp only [wsCaptureGo, hs, Bool.false_eq_true, if_false, List.dropWhile]
        rw [not_ident_not_alpha c hc]
        simp

/-- Chunk-level characterisation of the capture after a keyword. -/
theorem wsCapture_chunksOf (rest : List Char) :
    wsCapture (chunksOf rest) =
      (match wsIdentCap rest with
       | some (x, r) => some (x, chunksOf r)
       | none => none) := by
  match rest with
  | [] => rfl
  | c :: cs =>
    rw [chunksOf_cons]
    by_cases hc : isIdentChar c = true
    · rw [if_pos hc]
      rw [wsIdentCap_head_not_space c cs (ident_not_space c hc)]
      rfl
    · rw [if_neg (by simp [hc])]
      simp only [Bool.not_eq_true] at hc
      by_cases hs : pyIsSpace c = true
      · rw [show wsCapture (Chunk.sep c :: chunksOf cs) =
          (if pyIsSpace c then wsCaptureGo (chunksOf cs) else none) from rfl]
        rw [if_pos hs, wsCaptureGo_chunksOf]
        unfold wsIdentCap
        have hne : ((c :: cs).takeWhile pyIsSpace).isEmpty = false := by
          simp [List.takeWhile, hs]
        rw [hne]
        simp only [Bool.false_eq_true, if_false]
        have hdw : (c :: cs).dropWhile pyIsSpace = cs.dropWhile pyIsSpace := by
          simp [List.dropWhile, hs]
        rw [hdw]
        match hd : cs.dropWhile pyIsSpace with
        | [] => rfl
        | d :: ds =>
          dsimp only
          by_cases hda : (d.isAlpha || d == '_') = true
          · rw [if_pos hda, if_pos hda]
          · rw [if_neg hda, if_neg hda]
      · simp only [Bool.not_eq_true] at hs
        rw [show wsCapture (Chunk.sep c :: chunksOf cs) =
          (if pyIsSpace c then wsCaptureGo (chunksOf cs) else none) from rfl]
        rw [hs]
        rw [wsIdentCap_head_not_space c cs hs]
        simp

/-- No match can start at a non identifier character. -/
theorem fjMatchAt_not_ident (c : Char) (cs : List Char) (hc : isIdentChar c = false) :
    fjMatchAt (c :: cs) = none := by
  have hkw : ∀ (k : Char) (kw : List Char), isIdentChar k = true → k.toUpper = k →
      fjTryKeyword (k :: kw) (c :: cs) = none := by
    intro k kw hk1 hk2
    unfold fjTryKeyword
    rw [if_neg]
    simp only [ciStartsWith, ciEq_false_of_not_ident k c hk1 hk2 hc, Bool.false_and]
    simp
  unfold fjMatchAt
  rw [hkw 'F' ['R', 'O', 'M'] (by decide) (by decide),
    hkw 'J' ['O', 'I', 'N'] (by decide) (by decide)]

/-- The char-level regex scan equals the chunk-level scan. -/
theorem capturesOf_eq_extractC :
    ∀ (n : Nat) (l : List Char), l.length ≤ n → capturesOf l = extractC (chunksOf l) := by
  intro n
  induction n with
  | zero =>
    intro l h
    match l, h with
    | [], _ => rfl
  | succ n ih =>
    intro l h
    match l with
    | [] => rfl
    | c :: cs =>
      simp only [List.length_cons] at h
      by_cases hc : isIdentChar c = true
      · have hw : ∀ a ∈ c :: cs.takeWhile isIdentChar, isIdentChar a = true := by
          intro a ha
          rcases List.mem_cons.mp ha with rfl | ha2
          · exact hc
          · exact takeWhile_all isIdentChar cs a ha2
        have hsplit : (c :: cs.takeWhile isIdentChar) ++ cs.dropWhile isIdentChar = c :: cs := by
          simp [List.takeWhile_append_dropWhile]
        have hrest := dropWhile_headNot isIdentChar cs
        have htok := extractTNF_tok (c :: cs).length (c :: cs.takeWhile isIdentChar)
          (cs.dropWhile isIdentChar) (by simp) hw hrest
          (by rw [hsplit])
        rw [hsplit] at htok
        have hdroplen : (cs.dropWhile isIdentChar).length ≤ n := by
          have := lengthDropWhileLe isIdentChar cs
          omega
        rw [chunksOf_cons, if_pos hc]
        unfold capturesOf
        rw [htok]
        have hCtail : extractC (Chunk.tok (c :: cs.takeWhile isIdentChar)
            :: chunksOf (cs.dropWhile isIdentChar)) =
            (if endsFJ (c :: cs.takeWhile isIdentChar) then
              match wsCapture (chunksOf (cs.dropWhile isIdentChar)) with
              | some (x, rest2) => String.mk x :: extractC rest2
              | none => extractC (chunksOf (cs.dropWhile isIdentChar))
            else extractC (chunksOf (cs.dropWhile isIdentChar))) := by
          unfold extractC
          simp only [List.length_cons, extractCF]
          split
          · match hcap : wsCapture (chunksOf (cs.dropWhile isIdentChar)) with
            | some (x, rest2) =>
              dsimp only
              have := wsCapture_length _ x rest2 hcap
              rw [extractCF_fuel (chunksOf (cs.dropWhile isIdentChar)).length rest2.length
                rest2 (by omega) (Nat.le_refl _)]
            | none => rfl
          · rfl
        rw [hCtail, wsCapture_chunksOf]
        split
        · match hcap : wsIdentCap (cs.dropWhile isIdentChar) with
          | some (x, r) =>
            dsimp only
            have hrlen := (wsIdentCap_some _ x r hcap).1
            rw [ih r (by omega)]
          | none =>
            dsimp only
            rw [ih (cs.dropWhile isIdentChar) hdroplen]
        · rw [ih (cs.dropWhile isIdentChar) hdroplen]
      · simp only [Bool.not_eq_true] at hc
        unfold capturesOf
        simp only [List.length_cons, extractTNF]
        rw [fjMatchAt_not_ident c cs hc]
        dsimp only
        have h1 : extractTNF cs.length cs = capturesOf cs := rfl
        rw [h1, ih cs (by omega)]
        rw [chunksOf_cons, if_neg (by simp [hc])]
        unfold extractC
        simp only [List.length_cons, extractCF]

/-- Rendering the chunk-level aliasing gives the character-level one. -/
theorem renderChunks_aliasChunks (amb : String → Option String) :
    ∀ (cs : List Chunk) (prev : Char),
      renderChunks (aliasChunks amb prev cs) = aliasC amb prev cs := by
  intro cs
  induction cs with
  | nil => intro prev; rfl
  | cons ch rest ih =>
    intro prev
    match ch with
    | .sep c =>
      simp only [aliasChunks, aliasC, renderChunks]
      rw [ih]
    | .tok w =>
      simp only [aliasChunks, aliasC]
      match amb (String.mk w) with
      | none =>
        simp only [List.append_eq, List.cons_append, List.nil_append, renderChunks]
        rw [ih]
      | some q =>
        dsimp only
        split
        · simp only [List.append_eq, List.cons_append, List.nil_append, renderChunks]
          rw [ih]
        · simp only [List.append_eq, List.cons_append, List.nil_append, renderChunks]
          rw [ih]
          simp [List.append_assoc]

/-- Aliasing never puts a token chunk at the head of a blocked list. -/
theorem aliasChunks_notTokHead (amb : String → Option String) (prev : Char)
    (cs : List Chunk) (h : notTokHead cs = true) :
    notTokHead (aliasChunks amb prev cs) = true := by
  match cs with
  | [] => rfl
  | .sep c :: rest => rfl
  | .tok w :: rest => simp [notTokHead] at h

/-- The tail of a well formed chunk list is well formed. -/
theorem cwfB_tail (ch : Chunk) (rest : List Chunk) (h : cwfB (ch :: rest) = true) :
    cwfB rest = true := by
  match ch with
  | .sep c =>
    simp only [cwfB, Bool.and_eq_true] at h
    exact h.2
  | .tok w =>
    simp only [cwfB, Bool.and_eq_true] at h
    match rest, h with
    | [], _ => rfl
    | .sep c :: r, h => exact h.2
    | .tok v :: r, h => exact absurd h.2 (by simp)

/-- A well formed chunk list never starts with a token after a token. -/
theorem cwfB_tok_parts (w : List Char) (rest : List Chunk)
    (h : cwfB (Chunk.tok w :: rest) = true) :
    w.isEmpty = false ∧ w.all isIdentChar = true ∧ notTokHead rest = true := by
  simp only [cwfB, Bool.and_eq_true] at h
  refine ⟨by simpa using h.1.1, h.1.2, ?_⟩
  match rest, h with
  | [], _ => rfl
  | .sep c :: r, h => rfl
  | .tok v :: r, h => exact absurd h.2 (by simp)

/-- Reassemble well formedness for a token head. -/
theorem cwfB_tok_cons (w : List Char) (rest : List Chunk) (h1 : w.isEmpty = false)
    (h2 : w.all isIdentChar = true) (h3 : notTokHead rest = true)
    (h4 : cwfB rest = true) : cwfB (Chunk.tok w :: rest) = true := by
  match rest with
  | [] => simp [cwfB, h1, h2]
  | .sep c :: r =>
    simp only [cwfB, Bool.and_eq_true] at h4
    simp only [cwfB]
    simp only [Bool.and_eq_true]
    exact ⟨⟨by simpa using h1, h2⟩, by simpa using h4.1, h4.2⟩
  | .tok v :: r => simp [notTokHead] at h3

/-- Aliasing preserves well formedness of the chunk decomposition. -/
theorem aliasChunks_cwf (amb : String → Option String) (hok : ambOK amb) :
    ∀ (cs : List Chunk) (prev : Char), cwfB cs = true →
      cwfB (aliasChunks amb prev cs) = true := by
  intro cs
  induction cs with
  | nil => intro prev _; rfl
  | cons ch rest ih =>
    intro prev hcwf
    have hrest := cwfB_tail ch rest hcwf
    match ch with
    | .sep c =>
      simp only [cwfB, Bool.and_eq_true] at hcwf
      simp only [aliasChunks, cwfB, Bool.and_eq_true]
      exact ⟨hcwf.1, ih c hrest⟩
    | .tok w =>
      obtain ⟨hne, hall, hnt⟩ := cwfB_tok_parts w rest hcwf
      have hA : cwfB (aliasChunks amb (prevCh prev w) rest) = true :=
        ih (prevCh prev w) hrest
      have hAnt : notTokHead (aliasChunks amb (prevCh prev w) rest) = true :=
        aliasChunks_notTokHead amb (prevCh prev w) rest hnt
      simp only [aliasChunks]
      match hamb : amb (String.mk w) with
      | none =>
        simp only [List.append_eq, List.cons_append, List.nil_append]
        have hres := cwfB_tok_cons w _ hne hall hAnt hA
        simp only [cwfB, Bool.and_eq_true] at hres ⊢
        exact hres
      | some q =>
        dsimp only
        obtain ⟨⟨hq1, hq2, -, -⟩, -⟩ := hok (String.mk w) q hamb
        split
        · simp only [List.append_eq, List.cons_append, List.nil_append]
          have hres := cwfB_tok_cons w _ hne hall hAnt hA
          simp only [cwfB, Bool.and_eq_true] at hres ⊢
          exact hres
        · simp only [List.append_eq, List.cons_append, List.nil_append]
          have hw : cwfB (Chunk.tok w :: aliasChunks amb (prevCh prev w) rest) = true :=
            cwfB_tok_cons w _ hne hall hAnt hA
          have hin : cwfB (Chunk.sep (Char.ofNat 46) :: Chunk.tok w ::
              aliasChunks amb (prevCh prev w) rest) = true := by
            rw [show cwfB (Chunk.sep (Char.ofNat 46) :: Chunk.tok w ::
              aliasChunks amb (prevCh prev w) rest) =
              (!(isIdentChar (Char.ofNat 46)) && cwfB (Chunk.tok w ::
                aliasChunks amb (prevCh prev w) rest)) from rfl]
            rw [hw]
            decide
          have hres := cwfB_tok_cons q.data
            (Chunk.sep (Char.ofNat 46) :: Chunk.tok w ::
              aliasChunks amb (prevCh prev w) rest)
            (by simpa using hq1) hq2 (by rfl) hin
          have hdot : Char.ofNat 46 = ('.' : Char) := by decide
          rw [hdot] at hres
          simp only [cwfB, Bool.and_eq_true] at hres ⊢
          exact hres

/-- The character-level aliasing pass equals the chunk-level one. -/
theorem aliasF_eq_aliasC (amb : String → Option String) :
    ∀ (n : Nat) (l : List Char) (fuel : Nat) (prev : Char),
      l.length ≤ n → l.length ≤ fuel →
      (isIdentChar prev = false ∨ headNot isIdentChar l) →
      aliasF amb fuel prev l = aliasC amb prev (chunksOf l) := by
  intro n
  induction n with
  | zero =>
    intro l fuel prev h _ _
    match l, h with
    | [], _ => cases fuel <;> rfl
  | succ n ih =>
    intro l fuel prev h hf hprev
    match l with
    | [] => cases fuel <;> rfl
    | c :: cs =>
      simp only [List.length_cons] at h hf
      match fuel, hf with
      | f + 1, hf =>
        by_cases hc : isIdentChar c = true
        · have hpre : isIdentChar prev = false := by
            rcases hprev with hp | hp
            · exact hp
            · simp only [headNot] at hp
              rw [hp] at hc
              exact absurd hc (by simp)
          rw [chunksOf_cons, if_pos hc]
          simp only [aliasF, hc, hpre, Bool.not_false, Bool.and_self, if_true]
          simp only [aliasC]
          have hrec : aliasF amb f c (cs.dropWhile isIdentChar) =
              aliasC amb c (chunksOf (cs.dropWhile isIdentChar)) := by
            have hlen := lengthDropWhileLe isIdentChar cs
            exact ih (cs.dropWhile isIdentChar) f c (by omega) (by omega)
              (Or.inr (dropWhile_headNot isIdentChar cs))
          have hpc : prevCh prev (c :: cs.takeWhile isIdentChar) = c := rfl
          rw [hpc]
          match amb (String.mk (c :: cs.takeWhile isIdentChar)) with
          | none =>
            dsimp only
            rw [hrec]
          | some q =>
            dsimp only
            rw [hrec]
            split <;> simp [List.append_assoc]
        · simp only [Bool.not_eq_true] at hc
          rw [chunksOf_cons, if_neg (by simp [hc])]
          simp only [aliasF, hc, Bool.false_and, Bool.false_eq_true, if_false]
          simp only [aliasC]
          rw [ih cs f c (by omega) (by omega) (Or.inl hc)]

/-- Separator chunks are skipped by the chunk scan. -/
theorem extC_sep (c : Char) (A : List Chunk) : extractC (Chunk.sep c :: A) = extractC A := rfl

/-- One step of the chunk scan at a token chunk. -/
theorem extC_tok (w : List Char) (A : List Chunk) :
    extractC (Chunk.tok w :: A) =
      (if endsFJ w then
        match wsCapture A with
        | some (x, r) => String.mk x :: extractC r
        | none => extractC A
      else extractC A) := by
  unfold extractC
  simp only [List.length_cons, extractCF]
  split
  · match hcap : wsCapture A with
    | some (x, r) =>
      dsimp only
      have := wsCapture_length A x r hcap
      rw [extractCF_fuel A.length r.length r (by omega) (Nat.le_refl _)]
    | none => rfl
  · rfl

/-- The whitespace walker over an appended chunk list. -/
theorem wsCaptureGo_append (cs ds : List Chunk) :
    wsCaptureGo (cs ++ ds) =
      (match wsCaptureGo cs with
       | some (x, r) => some (x, r ++ ds)
       | none => if allSpaceSeps cs then wsCaptureGo ds else none) := by
  induction cs with
  | nil => simp [wsCaptureGo, allSpaceSeps]
  | cons ch rest ih =>
    match ch with
    | .sep c =>
      by_cases hs : pyIsSpace c = true
      · rw [List.cons_append,
          show wsCaptureGo (Chunk.sep c :: (rest ++ ds)) =
            (if pyIsSpace c then wsCaptureGo (rest ++ ds) else none) from rfl,
          show wsCaptureGo (Chunk.sep c :: rest) =
            (if pyIsSpace c then wsCaptureGo rest else none) from rfl,
          if_pos hs, if_pos hs, ih,
          show allSpaceSeps (Chunk.sep c :: rest) =
            (pyIsSpace c && allSpaceSeps rest) from rfl,
          hs, Bool.true_and]
      · have hs2 : pyIsSpace c = false := by simpa using hs
        rw [List.cons_append,
          show wsCaptureGo (Chunk.sep c :: (rest ++ ds)) =
            (if pyIsSpace c then wsCaptureGo (rest ++ ds) else none) from rfl,
          show wsCaptureGo (Chunk.sep c :: rest) =
            (if pyIsSpace c then wsCaptureGo rest else none) from rfl,
          hs2,
          show allSpaceSeps (Chunk.sep c :: rest) =
            (pyIsSpace c && allSpaceSeps rest) from rfl,
          hs2]
        simp
    | .tok w =>
      match w with
      | [] => rfl
      | d :: dw =>
        by_cases hd : (d.isAlpha || d == '_') = true
        · simp [wsCaptureGo, hd]
        · simp only [Bool.not_eq_true] at hd
          simp [wsCaptureGo, hd, allSpaceSeps]

/-- The capture over an appended chunk list. -/
theorem wsCapture_append (cs ds : List Chunk) (hne : cs ≠ []) :
    wsCapture (cs ++ ds) =
      (match wsCapture cs with
       | some (x, r) => some (x, r ++ ds)
       | none => if allSpaceSeps cs then wsCaptureGo ds else none) := by
  match cs, hne with
  | .tok w :: rest, _ => rfl
  | .sep c :: rest, _ =>
    by_cases hs : pyIsSpace c = true
    · rw [List.cons_append,
        show wsCapture (Chunk.sep c :: (rest ++ ds)) =
          (if pyIsSpace c then wsCaptureGo (rest ++ ds) else none) from rfl,
        show wsCapture (Chunk.sep c :: rest) =
          (if pyIsSpace c then wsCaptureGo rest else none) from rfl,
        if_pos hs, if_pos hs, wsCaptureGo_append,
        show allSpaceSeps (Chunk.sep c :: rest) =
          (pyIsSpace c && allSpaceSeps rest) from rfl,
        hs, Bool.true_and]
    · have hs2 : pyIsSpace c = false := by simpa using hs
      rw [List.cons_append,
        show wsCapture (Chunk.sep c :: (rest ++ ds)) =
          (if pyIsSpace c then wsCaptureGo (rest ++ ds) else none) from rfl,
        show wsCapture (Chunk.sep c :: rest) =
          (if pyIsSpace c then wsCaptureGo rest else none) from rfl,
        hs2,
        show allSpaceSeps (Chunk.sep c :: rest) =
          (pyIsSpace c && allSpaceSeps rest) from rfl,
        hs2]
      simp

/-- A walker capture is a token of the list, and the resumption point is
made of chunks of the list. -/
theorem wsCaptureGo_tok_mem (cs : List Chunk) (x : List Char) (r : List Chunk)
    (h : wsCaptureGo cs = some (x, r)) :
    Chunk.tok x ∈ cs ∧ ∀ ch ∈ r, ch ∈ cs := by
  induction cs with
  | nil => exact absurd h (by simp [wsCaptureGo])
  | cons ch rest ih =>
    match ch with
    | .sep c =>
      rw [show wsCaptureGo (Chunk.sep c :: rest) =
        (if pyIsSpace c then wsCaptureGo rest else none) from rfl] at h
      split at h
      · obtain ⟨h1, h2⟩ := ih h
        exact ⟨List.mem_cons_of_mem _ h1, fun d hd => List.mem_cons_of_mem _ (h2 d hd)⟩
      · exact absurd h (by simp)
    | .tok w =>
      match w with
      | [] => exact absurd h (by simp [wsCaptureGo])
      | d :: dw =>
        rw [show wsCaptureGo (Chunk.tok (d :: dw) :: rest) =
          (if d.isAlpha || d == '_' then some (d :: dw, rest) else none) from rfl] at h
        split at h
        · simp only [Option.some.injEq, Prod.mk.injEq] at h
          obtain ⟨rfl, rfl⟩ := h
          exact ⟨List.mem_cons_self .., fun d2 hd2 => List.mem_cons_of_mem _ hd2⟩
        · exact absurd h (by simp)

/-- A capture is a token of the list, and the resumption point is made
of chunks of the list. -/
theorem wsCapture_tok_mem (cs : List Chunk) (x : List Char) (r : List Chunk)
    (h : wsCapture cs = some (x, r)) :
    Chunk.tok x ∈ cs ∧ ∀ ch ∈ r, ch ∈ cs := by
  match cs with
  | [] => exact absurd h (by simp [wsCapture])
  | .tok w :: rest => exact absurd h (by simp [wsCapture])
  | .sep c :: rest =>
    rw [show wsCapture (Chunk.sep c :: rest) =
      (if pyIsSpace c then wsCaptureGo rest else none) from rfl] at h
    split at h
    · obtain ⟨h1, h2⟩ := wsCaptureGo_tok_mem rest x r h
      exact ⟨List.mem_cons_of_mem _ h1, fun d hd => List.mem_cons_of_mem _ (h2 d hd)⟩
    · exact absurd h (by simp)

/-- Every capture of the chunk scan is a token content of the list. -/
theorem extractC_mem_toks :
    ∀ (n : Nat) (cs : List Chunk), cs.length ≤ n →
      ∀ y ∈ extractC cs, ∃ w, Chunk.tok w ∈ cs ∧ y = String.mk w := by
  intro n
  induction n with
  | zero =>
    intro cs h y hy
    match cs, h with
    | [], _ => exact absurd hy (by simp [extractC, extractCF])
  | succ n ih =>
    intro cs h y hy
    match cs with
    | [] => exact absurd hy (by simp [extractC, extractCF])
    | .sep c :: rest =>
      simp only [List.length_cons] at h
      rw [extC_sep] at hy
      obtain ⟨w, hw1, hw2⟩ := ih rest (by omega) y hy
      exact ⟨w, List.mem_cons_of_mem _ hw1, hw2⟩
    | .tok w :: rest =>
      simp only [List.length_cons] at h
      rw [extC_tok] at hy
      split at hy
      · match hcap : wsCapture rest with
        | some (x, r) =>
          rw [hcap] at hy
          dsimp only at hy
          obtain ⟨hxmem, hrmem⟩ := wsCapture_tok_mem rest x r hcap
          rcases List.mem_cons.mp hy with rfl | hy2
          · exact ⟨x, List.mem_cons_of_mem _ hxmem, rfl⟩
          · have hrlen := wsCapture_length rest x r hcap
            obtain ⟨v, hv1, hv2⟩ := ih r (by omega) y hy2
            exact ⟨v, List.mem_cons_of_mem _ (hrmem _ hv1), hv2⟩
        | none =>
          rw [hcap] at hy
          dsimp only at hy
          obtain ⟨v, hv1, hv2⟩ := ih rest (by omega) y hy
          exact ⟨v, List.mem_cons_of_mem _ hv1, hv2⟩
      · obtain ⟨v, hv1, hv2⟩ := ih rest (by omega) y hy
        exact ⟨v, List.mem_cons_of_mem _ hv1, hv2⟩

/-- Every capture of an appended chunk list is a capture of the left
part or a token of the right part. -/
theorem extractC_append :
    ∀ (n : Nat) (cs ds : List Chunk), cs.length ≤ n →
      ∀ y ∈ extractC (cs ++ ds),
        y ∈ extractC cs ∨ ∃ w, Chunk.tok w ∈ ds ∧ y = String.mk w := by
  intro n
  induction n with
  | zero =>
    intro cs ds h y hy
    match cs, h with
    | [], _ =>
      rw [List.nil_append] at hy
      exact Or.inr (extractC_mem_toks ds.length ds (Nat.le_refl _) y hy)
  | succ n ih =>
    intro cs ds h y hy
    match cs with
    | [] =>
      rw [List.nil_append] at hy
      exact Or.inr (extractC_mem_toks ds.length ds (Nat.le_refl _) y hy)
    | .sep c :: rest =>
      simp only [List.length_cons] at h
      rw [List.cons_append, extC_sep] at hy
      rw [extC_sep]
      exact ih rest ds (by omega) y hy
    | .tok w :: rest =>
      simp only [List.length_cons] at h
      rw [List.cons_append, extC_tok] at hy
      rw [extC_tok]
      by_cases hfj : endsFJ w = true
      · rw [if_pos hfj] at hy ⊢
        match rest with
        | [] =>
          rw [List.nil_append] at hy
          rw [show wsCapture ([] : List Chunk) = none from rfl]
          dsimp only
          match hcap : wsCapture ds with
          | some (x, r) =>
            rw [hcap] at hy
            dsimp only at hy
            obtain ⟨hxmem, hrmem⟩ := wsCapture_tok_mem ds x r hcap
            rcases List.mem_cons.mp hy with rfl | hy2
            · exact Or.inr ⟨x, hxmem, rfl⟩
            · obtain ⟨v, hv1, hv2⟩ := extractC_mem_toks r.length r (Nat.le_refl _) y hy2
              exact Or.inr ⟨v, hrmem _ hv1, hv2⟩
          | none =>
            rw [hcap] at hy
            dsimp only at hy
            exact Or.inr (extractC_mem_toks ds.length ds (Nat.le_refl _) y hy)
        | ch2 :: rest2 =>
          simp only [List.length_cons] at h
          rw [wsCapture_append (ch2 :: rest2) ds (by simp)] at hy
          match hcap : wsCapture (ch2 :: rest2) with
          | some (x, r) =>
            rw [hcap] at hy
            dsimp only at hy
            rcases List.mem_cons.mp hy with rfl | hy2
            · exact Or.inl (by dsimp only; exact List.mem_cons_self ..)
            · have hrlen := wsCapture_length (ch2 :: rest2) x r hcap
              simp only [List.length_cons] at hrlen
              rcases ih r ds (by omega) y hy2 with hl | hr
              · exact Or.inl (by dsimp only; exact List.mem_cons_of_mem _ hl)
              · exact Or.inr hr
          | none =>
            rw [hcap] at hy
            dsimp only at hy
            by_cases hsp : allSpaceSeps (ch2 :: rest2) = true
            · rw [if_pos hsp] at hy
              match hcap2 : wsCaptureGo ds with
              | some (x, r) =>
                rw [hcap2] at hy
                dsimp only at hy
                obtain ⟨hxmem, hrmem⟩ := wsCaptureGo_tok_mem ds x r hcap2
                rcases List.mem_cons.mp hy with rfl | hy2
                · exact Or.inr ⟨x, hxmem, rfl⟩
                · obtain ⟨v, hv1, hv2⟩ :=
                    extractC_mem_toks r.length r (Nat.le_refl _) y hy2
                  exact Or.inr ⟨v, hrmem _ hv1, hv2⟩
              | none =>
                rw [hcap2] at hy
                dsimp only at hy
                have hlen2 : (ch2 :: rest2).length ≤ n := by
                  simp only [List.length_cons]
                  omega
                rcases ih (ch2 :: rest2) ds hlen2 y hy with hl | hr
                · exact Or.inl hl
                · exact Or.inr hr
            · rw [if_neg hsp] at hy
              have hlen2 : (ch2 :: rest2).length ≤ n := by
                simp only [List.length_cons]
                omega
              rcases ih (ch2 :: rest2) ds hlen2 y hy with hl | hr
              · exact Or.inl hl
              · exact Or.inr hr
      · rw [if_neg hfj] at hy ⊢
        exact ih rest ds (by omega) y hy

/-- The head-or-default of a nonempty list ignores the default. -/
theorem prevCh_ne (a b : Char) (x : List Char) (h : x ≠ []) :
    prevCh a x = prevCh b x := by
  match x, h with
  | c :: _, _ => rfl

/-- A whitespace character is not a dot. -/
theorem space_ne_dot (p : Char) (h : pyIsSpace p = true) : (p == '.') = false := by
  cases hd : p == '.'
  · rfl
  · rw [eq_of_beq hd] at h
    exact absurd h (by decide)

/-- Structure facts for a successful walker capture on a well formed
list. -/
theorem wsCaptureGo_some_facts (cs : List Chunk) (x : List Char) (r : List Chunk)
    (hcwf : cwfB cs = true) (h : wsCaptureGo cs = some (x, r)) :
    x ≠ [] ∧ x.all isIdentChar = true ∧ cwfB r = true ∧ notTokHead r = true := by
  induction cs with
  | nil => exact absurd h (by simp [wsCaptureGo])
  | cons ch rest ih =>
    have hrest := cwfB_tail ch rest hcwf
    match ch with
    | .sep c =>
      rw [show wsCaptureGo (Chunk.sep c :: rest) =
        (if pyIsSpace c then wsCaptureGo rest else none) from rfl] at h
      split at h
      · exact ih hrest h
      · exact absurd h (by simp)
    | .tok w =>
      obtain ⟨hne, hall, hnt⟩ := cwfB_tok_parts w rest hcwf
      match w, hne with
      | d :: dw, _ =>
        rw [show wsCaptureGo (Chunk.tok (d :: dw) :: rest) =
          (if d.isAlpha || d == '_' then some (d :: dw, rest) else none) from rfl] at h
        split at h
        · simp only [Option.some.injEq, Prod.mk.injEq] at h
          obtain ⟨rfl, rfl⟩ := h
          exact ⟨by simp, hall, hrest, hnt⟩
        · exact absurd h (by simp)

/-- Structure facts for a successful capture on a well formed list. -/
theorem wsCapture_some_facts (cs : List Chunk) (x : List Char) (r : List Chunk)
    (hcwf : cwfB cs = true) (h : wsCapture cs = some (x, r)) :
    x ≠ [] ∧ x.all isIdentChar = true ∧ cwfB r = true ∧ notTokHead r = true := by
  match cs with
  | [] => exact absurd h (by simp [wsCapture])
  | .tok w :: rest => exact absurd h (by simp [wsCapture])
  | .sep c :: rest =>
    rw [show wsCapture (Chunk.sep c :: rest) =
      (if pyIsSpace c then wsCaptureGo rest else none) from rfl] at h
    split at h
    · exact wsCaptureGo_some_facts rest x r (cwfB_tail _ _ hcwf) h
    · exact absurd h (by simp)

/-- The whitespace walker on an aliased chunk list. -/
theorem wsCaptureGo_alias (amb : String → Option String) (hok : ambOK amb) :
    ∀ (cs : List Chunk) (p : Char), cwfB cs = true → pyIsSpace p = true →
      wsCaptureGo (aliasChunks amb p cs) =
        (match wsCaptureGo cs with
         | some (x, r) =>
           match amb (String.mk x) with
           | some q => some (q.data,
               Chunk.sep '.' :: Chunk.tok x :: aliasChunks amb (prevCh p x) r)
           | none => some (x, aliasChunks amb (prevCh p x) r)
         | none => none) := by
  intro cs
  induction cs with
  | nil => intro p _ _; rfl
  | cons ch rest ih =>
    intro p hcwf hp
    have hrest := cwfB_tail ch rest hcwf
    match ch with
    | .sep c =>
      simp only [aliasChunks]
      rw [show wsCaptureGo (Chunk.sep c :: aliasChunks amb c rest) =
        (if pyIsSpace c then wsCaptureGo (aliasChunks amb c rest) else none) from rfl]
      rw [show wsCaptureGo (Chunk.sep c :: rest) =
        (if pyIsSpace c then wsCaptureGo rest else none) from rfl]
      by_cases hs : pyIsSpace c = true
      · rw [if_pos hs, if_pos hs, ih c hrest hs]
        match hgo : wsCaptureGo rest with
        | none => rfl
        | some (x, r) =>
          have hxne := (wsCaptureGo_some_facts rest x r hrest hgo).1
          dsimp only
          rw [prevCh_ne c p x hxne]
      · rw [if_neg hs, if_neg hs]
    | .tok w =>
      obtain ⟨hne, hall, hnt⟩ := cwfB_tok_parts w rest hcwf
      match w, hne with
      | d :: dw, _ =>
        simp only [aliasChunks]
        rw [show wsCaptureGo (Chunk.tok (d :: dw) :: rest) =
          (if d.isAlpha || d == '_' then some (d :: dw, rest) else none) from rfl]
        match hamb : amb (String.mk (d :: dw)) with
        | none =>
          simp only [List.append_eq, List.cons_append, List.nil_append]
          rw [show wsCaptureGo (Chunk.tok (d :: dw) ::
              aliasChunks amb (prevCh p (d :: dw)) rest) =
            (if d.isAlpha || d == '_' then
              some (d :: dw, aliasChunks amb (prevCh p (d :: dw)) rest)
            else none) from rfl]
          by_cases hd : (d.isAlpha || d == '_') = true
          · rw [if_pos hd, if_pos hd]
            dsimp only
            rw [hamb]
          · rw [if_neg hd, if_neg hd]
        | some q =>
          obtain ⟨⟨hq1, -, -, hq4⟩, ⟨hdom, -⟩⟩ := hok (String.mk (d :: dw)) q hamb
          have hd : (d.isAlpha || d == '_') = true := hdom
          dsimp only
          rw [space_ne_dot p hp]
          simp only [Bool.false_eq_true, if_false, List.append_eq,
            List.cons_append, List.nil_append]
          rw [if_pos hd]
          dsimp only
          rw [hamb]
          match hq : q.data, hq1 with
          | qc :: qrest, _ =>
            have hqa : qc.isAlpha = true := by
              rw [hq] at hq4
              exact hq4
            rw [show wsCaptureGo (Chunk.tok (qc :: qrest) :: Chunk.sep '.' ::
                Chunk.tok (d :: dw) :: aliasChunks amb (prevCh p (d :: dw)) rest) =
              (if qc.isAlpha || qc == '_' then
                some (qc :: qrest, Chunk.sep '.' :: Chunk.tok (d :: dw) ::
                  aliasChunks amb (prevCh p (d :: dw)) rest)
              else none) from rfl]
            rw [if_pos (by simp [hqa])]
            dsimp only
            rw [hq]

/-- The capture on an aliased chunk list. -/
theorem wsCapture_alias (amb : String → Option String) (hok : ambOK amb)
    (cs : List Chunk) (p : Char) (hcwf : cwfB cs = true) (hnt : notTokHead cs = true) :
    wsCapture (aliasChunks amb p cs) =
      (match wsCapture cs with
       | some (x, r) =>
         match amb (String.mk x) with
         | some q => some (q.data,
             Chunk.sep '.' :: Chunk.tok x :: aliasChunks amb (prevCh p x) r)
         | none => some (x, aliasChunks amb (prevCh p x) r)
       | none => none) := by
  match cs with
  | [] => rfl
  | .tok w :: rest => simp [notTokHead] at hnt
  | .sep c :: rest =>
    have hrest := cwfB_tail _ _ hcwf
    simp only [aliasChunks]
    rw [show wsCapture (Chunk.sep c :: aliasChunks amb c rest) =
      (if pyIsSpace c then wsCaptureGo (aliasChunks amb c rest) else none) from rfl]
    rw [show wsCapture (Chunk.sep c :: rest) =
      (if pyIsSpace c then wsCaptureGo rest else none) from rfl]
    by_cases hs : pyIsSpace c = true
    · rw [if_pos hs, if_pos hs, wsCaptureGo_alias amb hok rest c hrest hs]
      match hgo : wsCaptureGo rest with
      | none => rfl
      | some (x, r) =>
        have hxne := (wsCaptureGo_some_facts rest x r hrest hgo).1
        dsimp only
        rw [prevCh_ne c p x hxne]
    · rw [if_neg hs, if_neg hs]

/-- Rebuilding a string from its characters is the identity. -/
theorem stringMk_data (s : String) : String.mk s.data = s := rfl

/-- Every capture of an aliased chunk list is a capture of the original
list or an inserted qualifier. -/
theorem extractC_alias (amb : String → Option String) (hok : ambOK amb) :
    ∀ (n : Nat) (cs : List Chunk) (p : Char), cs.length ≤ n → cwfB cs = true →
      ∀ y ∈ extractC (aliasChunks amb p cs),
        y ∈ extractC cs ∨ ∃ t q, amb t = some q ∧ y = q := by
  intro n
  induction n with
  | zero =>
    intro cs p h hcwf y hy
    match cs, h with
    | [], _ => exact absurd hy (by simp [aliasChunks, extractC, extractCF])
  | succ n ih =>
    intro cs p h hcwf y hy
    match cs with
    | [] => exact absurd hy (by simp [aliasChunks, extractC, extractCF])
    | .sep c :: rest =>
      simp only [List.length_cons] at h
      have hrest := cwfB_tail _ _ hcwf
      simp only [aliasChunks, extC_sep] at hy
      rw [extC_sep]
      exact ih rest c (by omega) hrest y hy
    | .tok w :: rest =>
      simp only [List.length_cons] at h
      obtain ⟨hne, hall, hnt⟩ := cwfB_tok_parts w rest hcwf
      have hrest := cwfB_tail _ _ hcwf
      simp only [aliasChunks] at hy
      rw [extC_tok]
      match hamb : amb (String.mk w) with
      | none =>
        rw [hamb] at hy
        simp only [List.append_eq, List.cons_append, List.nil_append] at hy
        rw [extC_tok] at hy
        by_cases hfj : endsFJ w = true
        · rw [if_pos hfj] at hy ⊢
          rw [wsCapture_alias amb hok rest (prevCh p w) hrest hnt] at hy
          match hcap : wsCapture rest with
          | none =>
            rw [hcap] at hy
            dsimp only at hy
            exact ih rest (prevCh p w) (by omega) hrest y hy
          | some (x, r) =>
            obtain ⟨hxne, hxall, hrcwf, -⟩ := wsCapture_some_facts rest x r hrest hcap
            have hrlen := wsCapture_length rest x r hcap
            rw [hcap] at hy
            dsimp only at hy
            match hax : amb (String.mk x) with
            | none =>
              rw [hax] at hy
              dsimp only at hy
              rcases List.mem_cons.mp hy with rfl | hy2
              · exact Or.inl (List.mem_cons_self ..)
              · rcases ih r (prevCh (prevCh p w) x) (by omega) hrcwf y hy2 with hl | hr
                · exact Or.inl (List.mem_cons_of_mem _ hl)
                · exact Or.inr hr
            | some qx =>
              obtain ⟨-, ⟨-, hxfj⟩⟩ := hok (String.mk x) qx hax
              rw [hax] at hy
              dsimp only at hy
              rcases List.mem_cons.mp hy with rfl | hy2
              · exact Or.inr ⟨String.mk x, qx, hax, stringMk_data qx⟩
              · rw [extC_sep, extC_tok] at hy2
                rw [if_neg (by simpa using hxfj)] at hy2
                rcases ih r (prevCh (prevCh p w) x) (by omega) hrcwf y hy2 with hl | hr
                · exact Or.inl (List.mem_cons_of_mem _ hl)
                · exact Or.inr hr
        · rw [if_neg hfj] at hy ⊢
          exact ih rest (prevCh p w) (by omega) hrest y hy
      | some q =>
        obtain ⟨⟨-, -, hqfj, -⟩, ⟨-, hwfj⟩⟩ := hok (String.mk w) q hamb
        rw [hamb] at hy
        dsimp only at hy
        rw [if_neg (by simpa using hwfj)]
        by_cases hdot : (p == '.') = true
        · rw [if_pos hdot] at hy
          simp only [List.append_eq, List.cons_append, List.nil_append] at hy
          rw [extC_tok, if_neg (by simpa using hwfj)] at hy
          exact ih rest (prevCh p w) (by omega) hrest y hy
        · rw [if_neg hdot] at hy
          simp only [List.append_eq, List.cons_append, List.nil_append] at hy
          rw [extC_tok, if_neg (by simpa using hqfj), extC_sep,
            extC_tok, if_neg (by simpa using hwfj)] at hy
          exact ih rest (prevCh p w) (by omega) hrest y hy

/-- A fully satisfying list is its own takeWhile and drops to nothing. -/
theorem takeWhile_all_eq {p : Char → Bool} :
    ∀ (x : List Char), (∀ a ∈ x, p a = true) →
      x.takeWhile p = x ∧ x.dropWhile p = [] := by
  intro x
  induction x with
  | nil => intro _; exact ⟨rfl, rfl⟩
  | cons c cs ih =>
    intro hall
    have hc : p c = true := hall c (List.mem_cons_self ..)
    have := ih (fun a ha => hall a (List.mem_cons_of_mem _ ha))
    simp [List.takeWhile, List.dropWhile, hc, this.1, this.2]

/-- takeWhile and dropWhile across an all-satisfying left part. -/
theorem takeWhile_all_append {p : Char → Bool} :
    ∀ (x y : List Char), (∀ a ∈ x, p a = true) →
      (x ++ y).takeWhile p = x ++ y.takeWhile p ∧ (x ++ y).dropWhile p = y.dropWhile p := by
  intro x
  induction x with
  | nil => intro y _; exact ⟨rfl, rfl⟩
  | cons c cs ih =>
    intro y hall
    have hc : p c = true := hall c (List.mem_cons_self ..)
    have := ih y (fun a ha => hall a (List.mem_cons_of_mem _ ha))
    simp [List.takeWhile, List.dropWhile, hc, this.1, this.2]

/-- A pattern starts any list it prefixes. -/
theorem startsWithSeq_front :
    ∀ (p v : List Char), startsWithSeq p (p ++ v) = true := by
  intro p
  induction p with
  | nil => intro v; rfl
  | cons c cs ih =>
    intro v
    simp [startsWithSeq, ih]

/-- A matching prefix is a containment. -/
theorem containsSeq_of_starts (pat l : List Char) (h : startsWithSeq pat l = true) :
    containsSeq pat l = true := by
  match l with
  | [] => exact h
  | c :: cs => simp [containsSeq, h]

/-- Containment is preserved by consing on the left. -/
theorem containsSeq_cons (pat l : List Char) (c : Char)
    (h : containsSeq pat l = true) : containsSeq pat (c :: l) = true := by
  simp [containsSeq, h]

/-- Containment is preserved by appending on the left. -/
theorem containsSeq_append_left (pat : List Char) :
    ∀ (x l : List Char), containsSeq pat l = true →
      containsSeq pat (x ++ l) = true := by
  intro x
  induction x with
  | nil => intro l h; exact h
  | cons c cs ih =>
    intro l h
    exact containsSeq_cons pat _ c (ih l h)

/-- A list of the form prefix-pattern-suffix contains the pattern. -/
theorem containsSeq_of_decomp (pat u v : List Char) :
    containsSeq pat (u ++ pat ++ v) = true := by
  rw [List.append_assoc]
  exact containsSeq_append_left pat u _
    (containsSeq_of_starts pat _ (startsWithSeq_front pat v))

/-- A matching prefix decomposes the list. -/
theorem startsWithSeq_decomp :
    ∀ (p l : List Char), startsWithSeq p l = true → ∃ v, l = p ++ v := by
  intro p
  induction p with
  | nil => intro l _; exact ⟨l, rfl⟩
  | cons c cs ih =>
    intro l h
    match l with
    | [] => exact absurd h (by simp [startsWithSeq])
    | d :: ds =>
      simp only [startsWithSeq, Bool.and_eq_true, beq_iff_eq] at h
      obtain ⟨v, hv⟩ := ih ds h.2
      exact ⟨v, by rw [h.1, hv]; rfl⟩

/-- Containment decomposes the list around an occurrence. -/
theorem containsSeq_decomp :
    ∀ (l pat : List Char), containsSeq pat l = true → ∃ u v, l = u ++ pat ++ v := by
  intro l
  induction l with
  | nil =>
    intro pat h
    obtain ⟨v, hv⟩ := startsWithSeq_decomp pat [] h
    exact ⟨[], v, by simpa using hv⟩
  | cons c cs ih =>
    intro pat h
    simp only [containsSeq, Bool.or_eq_true] at h
    rcases h with h | h
    · obtain ⟨v, hv⟩ := startsWithSeq_decomp pat (c :: cs) h
      exact ⟨[], v, by simpa using hv⟩
    · obtain ⟨u, v, huv⟩ := ih pat h
      exact ⟨c :: u, v, by rw [List.cons_append, List.cons_append, ← huv]⟩

/-- A token right after a dot is copied verbatim by the aliasing pass. -/
theorem aliasC_tok_dot (amb : String → Option String) (w : List Char) (R : List Chunk) :
    aliasC amb '.' (Chunk.tok w :: R) = w ++ aliasC amb (prevCh '.' w) R := by
  simp only [aliasC]
  match amb (String.mk w) with
  | none => rfl
  | some q =>
    dsimp only
    rw [if_pos (by decide)]

/-- A token outside the ambiguity map is copied verbatim. -/
theorem aliasC_tok_none (amb : String → Option String) (p : Char) (w : List Char)
    (R : List Chunk) (h : amb (String.mk w) = none) :
    aliasC amb p (Chunk.tok w :: R) = w ++ aliasC amb (prevCh p w) R := by
  simp only [aliasC, h]

/-- A nonempty identifier run followed by a blocked list chunks into one
token. -/
theorem chunksOf_run (col : List Char) (Y : List Char) (hne : col ≠ [])
    (hall : ∀ a ∈ col, isIdentChar a = true) (hY : headNot isIdentChar Y) :
    chunksOf (col ++ Y) = Chunk.tok col :: chunksOf Y := by
  match col, hne with
  | c0 :: col2, _ =>
    rw [List.cons_append, chunksOf_cons, if_pos (hall c0 (List.mem_cons_self ..))]
    obtain ⟨ht, hd⟩ := takeWhile_append_headNot isIdentChar col2 Y hY
    have hta := takeWhile_all_eq col2 (fun a ha => hall a (List.mem_cons_of_mem _ ha))
    rw [ht, hd, hta.1, hta.2, List.nil_append]

/-- A nonempty identifier run followed by anything chunks into a token
absorbing the identifier prefix of the rest. -/
theorem chunksOf_run_open (col v : List Char) (hne : col ≠ [])
    (hall : ∀ a ∈ col, isIdentChar a = true) :
    chunksOf (col ++ v) =
      Chunk.tok (col ++ v.takeWhile isIdentChar) :: chunksOf (v.dropWhile isIdentChar) := by
  match col, hne with
  | c0 :: col2, _ =>
    rw [List.cons_append, chunksOf_cons, if_pos (hall c0 (List.mem_cons_self ..))]
    obtain ⟨ht, hd⟩ := takeWhile_all_append col2 v
      (fun a ha => hall a (List.mem_cons_of_mem _ ha))
    rw [ht, hd, List.cons_append]

/-- The chunk shape of the dotted tail of a join condition. -/
theorem chunksOf_condTail (col qual v : List Char) (hcne : col ≠ [])
    (hcall : ∀ a ∈ col, isIdentChar a = true) (hqne : qual ≠ [])
    (hqall : ∀ a ∈ qual, isIdentChar a = true) :
    chunksOf ('.' :: (col ++ (' ' :: '=' :: ' ' :: (qual ++ ('.' :: (col ++ v)))))) =
      Chunk.sep '.' :: Chunk.tok col :: Chunk.sep ' ' :: Chunk.sep '=' :: Chunk.sep ' ' ::
      Chunk.tok qual :: Chunk.sep '.' ::
      Chunk.tok (col ++ v.takeWhile isIdentChar) :: chunksOf (v.dropWhile isIdentChar) := by
  rw [chunksOf_cons, if_neg (by decide)]
  rw [chunksOf_run col _ hcne hcall (by simp [headNot]; decide)]
  rw [chunksOf_cons, if_neg (by decide)]
  rw [chunksOf_cons, if_neg (by decide)]
  rw [chunksOf_cons, if_neg (by decide)]
  rw [chunksOf_run qual _ hqne hqall (by simp [headNot]; decide)]
  rw [chunksOf_cons, if_neg (by decide)]
  rw [chunksOf_run_open col v hcne hcall]

/-- Separator chunks are copied verbatim by the aliasing pass. -/
theorem aliasC_sep (amb : String → Option String) (p c : Char) (R : List Chunk) :
    aliasC amb p (Chunk.sep c :: R) = c :: aliasC amb c R := rfl

/-- The dotted tail of a join condition survives the aliasing pass
verbatim. -/
theorem aliasTailVerbatim (amb : String → Option String) (col qual v : List Char)
    (hcne : col ≠ []) (hcall : ∀ a ∈ col, isIdentChar a = true)
    (hqne : qual ≠ []) (hqall : ∀ a ∈ qual, isIdentChar a = true)
    (hqamb : amb (String.mk qual) = none) (prev : Char) :
    ∃ w, aliasC amb prev
        (chunksOf ('.' :: (col ++ (' ' :: '=' :: ' ' :: (qual ++ ('.' :: (col ++ v))))))) =
      '.' :: (col ++ (' ' :: '=' :: ' ' :: (qual ++ ('.' :: (col ++ w))))) := by
  rw [chunksOf_condTail col qual v hcne hcall hqne hqall]
  refine ⟨v.takeWhile isIdentChar ++
    aliasC amb (prevCh '.' (col ++ v.takeWhile isIdentChar))
      (chunksOf (v.dropWhile isIdentChar)), ?_⟩
  rw [aliasC_sep, aliasC_tok_dot, aliasC_sep, aliasC_sep, aliasC_sep,
    aliasC_tok_none amb _ qual _ hqamb, aliasC_sep, aliasC_tok_dot]
  simp [List.append_assoc]

/-- One skipped character of the aliasing scan. -/
theorem aliasF_step_skip (amb : String → Option String) (f : Nat) (prev c : Char)
    (cs : List Char) (h : (isIdentChar c && !(isIdentChar prev)) = false) :
    aliasF amb (f + 1) prev (c :: cs) = c :: aliasF amb f c cs := by
  simp [aliasF, h]

/-- One token step of the aliasing scan. -/
theorem aliasF_step_tok (amb : String → Option String) (f : Nat) (prev c : Char)
    (cs : List Char) (hc : isIdentChar c = true) (hp : isIdentChar prev = false) :
    aliasF amb (f + 1) prev (c :: cs) =
      (match amb (String.mk (c :: cs.takeWhile isIdentChar)) with
       | some q =>
         if prev == '.' then
           (c :: cs.takeWhile isIdentChar) ++ aliasF amb f c (cs.dropWhile isIdentChar)
         else
           q.data ++ ('.' :: (c :: cs.takeWhile isIdentChar)) ++
             aliasF amb f c (cs.dropWhile isIdentChar)
       | none =>
         (c :: cs.takeWhile isIdentChar) ++ aliasF amb f c (cs.dropWhile isIdentChar)) := by
  simp [aliasF, hc, hp]

/-- A list that dropWhile exhausts satisfies the predicate everywhere. -/
theorem all_of_dropWhile_nil {p : Char → Bool} :
    ∀ (l : List Char), l.dropWhile p = [] → ∀ a ∈ l, p a = true := by
  intro l
  induction l with
  | nil => intro _ a ha; exact absurd ha (by simp)
  | cons c cs ih =>
    intro h a ha
    by_cases hc : p c = true
    · rw [List.dropWhile_cons_of_pos hc] at h
      rcases List.mem_cons.mp ha with rfl | ha2
      · exact hc
      · exact ih h a ha2
    · rw [List.dropWhile_cons_of_neg hc] at h
      exact absurd h (by simp)

/-- dropWhile over an append whose left part is not exhausted. -/
theorem dropWhile_append_ne {p : Char → Bool} :
    ∀ (l y : List Char), l.dropWhile p ≠ [] →
      (l ++ y).dropWhile p = l.dropWhile p ++ y := by
  intro l
  induction l with
  | nil => intro y h; exact absurd rfl h
  | cons c cs ih =>
    intro y h
    by_cases hc : p c = true
    · rw [List.dropWhile_cons_of_pos hc] at h ⊢
      rw [List.cons_append, List.dropWhile_cons_of_pos hc]
      exact ih y h
    · rw [List.dropWhile_cons_of_neg hc] at h ⊢
      rw [List.cons_append, List.dropWhile_cons_of_neg hc]

/-- A join condition occurring in the scanned text survives the aliasing
pass: the output still contains it. -/
theorem aliasSurvives (amb : String → Option String) (a : Char) (col qual : List Char)
    (ha : isIdentChar a = true)
    (hcne : col ≠ []) (hcall : ∀ x ∈ col, isIdentChar x = true)
    (hqne : qual ≠ []) (hqall : ∀ x ∈ qual, isIdentChar x = true)
    (hqamb : amb (String.mk qual) = none) :
    ∀ (n : Nat) (u : List Char), u.length ≤ n → ∀ (fuel : Nat) (prev : Char) (v : List Char),
      (u ++ (a :: '.' :: (col ++ (' ' :: '=' :: ' ' ::
        (qual ++ ('.' :: (col ++ v))))))).length ≤ fuel →
      containsSeq (a :: '.' :: (col ++ (' ' :: '=' :: ' ' :: (qual ++ ('.' :: col)))))
        (aliasF amb fuel prev (u ++ (a :: '.' :: (col ++ (' ' :: '=' :: ' ' ::
          (qual ++ ('.' :: (col ++ v)))))))) = true := by
  have hpatapp : ∀ w : List Char,
      (a :: '.' :: (col ++ (' ' :: '=' :: ' ' :: (qual ++ ('.' :: col))))) ++ w =
      a :: '.' :: (col ++ (' ' :: '=' :: ' ' :: (qual ++ ('.' :: (col ++ w))))) := by
    intro w
    simp [List.append_assoc]
  have htailv : ∀ (f : Nat) (p : Char) (v : List Char),
      ('.' :: (col ++ (' ' :: '=' :: ' ' :: (qual ++ ('.' :: (col ++ v)))))).length ≤ f →
      ∃ w, aliasF amb f p ('.' :: (col ++ (' ' :: '=' :: ' ' ::
          (qual ++ ('.' :: (col ++ v)))))) =
        '.' :: (col ++ (' ' :: '=' :: ' ' :: (qual ++ ('.' :: (col ++ w))))) := by
    intro f p v hf
    rw [aliasF_eq_aliasC amb
      ('.' :: (col ++ (' ' :: '=' :: ' ' :: (qual ++ ('.' :: (col ++ v)))))).length _ f p
      (Nat.le_refl _) hf (Or.inr (by show isIdentChar '.' = false; decide))]
    exact aliasTailVerbatim amb col qual v hcne hcall hqne hqall hqamb p
  have hempty : ∀ (fuel : Nat) (prev : Char) (v : List Char),
      ((a :: '.' :: (col ++ (' ' :: '=' :: ' ' ::
        (qual ++ ('.' :: (col ++ v))))))).length ≤ fuel →
      containsSeq (a :: '.' :: (col ++ (' ' :: '=' :: ' ' :: (qual ++ ('.' :: col)))))
        (aliasF amb fuel prev ((a :: '.' :: (col ++ (' ' :: '=' :: ' ' ::
          (qual ++ ('.' :: (col ++ v)))))))) = true := by
    intro fuel prev v hf
    simp only [List.length_cons] at hf
    match fuel, hf with
    | f + 1, hf =>
      have hTL : ('.' :: (col ++ (' ' :: '=' :: ' ' ::
          (qual ++ ('.' :: (col ++ v)))))).length ≤ f := by
        simp only [List.length_cons]
        omega
      by_cases hprev : isIdentChar prev = true
      · rw [aliasF_step_skip amb f prev a _ (by simp [hprev])]
        obtain ⟨w, hw⟩ := htailv f a v hTL
        rw [hw, ← hpatapp w]
        exact containsSeq_of_starts _ _ (startsWithSeq_front _ w)
      · simp only [Bool.not_eq_true] at hprev
        rw [aliasF_step_tok amb f prev a _ ha hprev]
        rw [List.takeWhile_cons_of_neg (by decide), List.dropWhile_cons_of_neg (by decide)]
        obtain ⟨w, hw⟩ := htailv f a v hTL
        rw [hw]
        match amb (String.mk [a]) with
        | none =>
          dsimp only
          rw [show [a] ++ ('.' :: (col ++ (' ' :: '=' :: ' ' ::
              (qual ++ ('.' :: (col ++ w)))))) =
            a :: '.' :: (col ++ (' ' :: '=' :: ' ' ::
              (qual ++ ('.' :: (col ++ w))))) from rfl]
          rw [← hpatapp w]
          exact containsSeq_of_starts _ _ (startsWithSeq_front _ w)
        | some q =>
          dsimp only
          split
          · rw [show [a] ++ ('.' :: (col ++ (' ' :: '=' :: ' ' ::
                (qual ++ ('.' :: (col ++ w)))))) =
              a :: '.' :: (col ++ (' ' :: '=' :: ' ' ::
                (qual ++ ('.' :: (col ++ w))))) from rfl]
            rw [← hpatapp w]
            exact containsSeq_of_starts _ _ (startsWithSeq_front _ w)
          · simp only [List.append_assoc, List.cons_append, List.nil_append]
            refine containsSeq_append_left _ q.data _ ?_
            refine containsSeq_cons _ _ '.' ?_
            rw [← hpatapp w]
            exact containsSeq_of_starts _ _ (startsWithSeq_front _ w)
  intro n
  induction n with
  | zero =>
    intro u hu fuel prev v hf
    match u, hu with
    | [], _ =>
      rw [List.nil_append] at hf ⊢
      exact hempty fuel prev v hf
  | succ n ih =>
    intro u hu fuel prev v hf
    match u with
    | [] =>
      rw [List.nil_append] at hf ⊢
      exact hempty fuel prev v hf
    | c :: u2 =>
      simp only [List.length_cons] at hu
      simp only [List.cons_append] at hf ⊢
      simp only [List.length_cons] at hf
      match fuel, hf with
      | f + 1, hf =>
        by_cases hskip : (isIdentChar c && !(isIdentChar prev)) = true
        · obtain ⟨hc, hp⟩ := Bool.and_eq_true_iff.mp hskip
          simp only [Bool.not_eq_eq_eq_not, Bool.not_true] at hp
          rw [aliasF_step_tok amb f prev c _ hc hp]
          by_cases hu2d : u2.dropWhile isIdentChar = []
          · have hall2 := all_of_dropWhile_nil u2 hu2d
            have htw : (u2 ++ (a :: '.' :: (col ++ (' ' :: '=' :: ' ' ::
                (qual ++ ('.' :: (col ++ v))))))).takeWhile isIdentChar = u2 ++ [a] := by
              rw [(takeWhile_all_append u2 _ hall2).1]
              rw [List.takeWhile_cons_of_pos ha, List.takeWhile_cons_of_neg (by decide)]
            have hdw : (u2 ++ (a :: '.' :: (col ++ (' ' :: '=' :: ' ' ::
                (qual ++ ('.' :: (col ++ v))))))).dropWhile isIdentChar =
                '.' :: (col ++ (' ' :: '=' :: ' ' :: (qual ++ ('.' :: (col ++ v))))) := by
              rw [(takeWhile_all_append u2 _ hall2).2]
              rw [List.dropWhile_cons_of_pos ha, List.dropWhile_cons_of_neg (by decide)]
            rw [htw, hdw]
            have hTL : ('.' :: (col ++ (' ' :: '=' :: ' ' ::
                (qual ++ ('.' :: (col ++ v)))))).length ≤ f := by
              simp only [List.length_append, List.length_cons] at hf ⊢
              omega
            obtain ⟨w, hw⟩ := htailv f c v hTL
            rw [hw]
            match amb (String.mk (c :: (u2 ++ [a]))) with
            | none =>
              dsimp only
              simp only [List.append_assoc, List.cons_append, List.nil_append]
              rw [← hpatapp w]
              refine containsSeq_cons _ _ c ?_
              exact containsSeq_append_left _ u2 _
                (containsSeq_of_starts _ _ (startsWithSeq_front _ w))
            | some q =>
              dsimp only
              split
              · simp only [List.append_assoc, List.cons_append, List.nil_append]
                rw [← hpatapp w]
                refine containsSeq_cons _ _ c ?_
                exact containsSeq_append_left _ u2 _
                  (containsSeq_of_starts _ _ (startsWithSeq_front _ w))
              · simp only [List.append_assoc, List.cons_append, List.nil_append]
                rw [← hpatapp w]
                refine containsSeq_append_left _ q.data _ ?_
                refine containsSeq_cons _ _ '.' ?_
                refine containsSeq_cons _ _ c ?_
                exact containsSeq_append_left _ u2 _
                  (containsSeq_of_starts _ _ (startsWithSeq_front _ w))
          · rw [dropWhile_append_ne _ _ hu2d]
            have hlen2 : (u2.dropWhile isIdentChar).length ≤ n := by
              have := lengthDropWhileLe isIdentChar u2
              omega
            have hflen : ((u2.dropWhile isIdentChar) ++ (a :: '.' :: (col ++ (' ' :: '=' :: ' ' ::
                (qual ++ ('.' :: (col ++ v))))))).length ≤ f := by
              have := lengthDropWhileLe isIdentChar u2
              simp only [List.length_append, List.length_cons] at hf ⊢
              omega
            have hrec := ih (u2.dropWhile isIdentChar) hlen2 f c v hflen
            match amb (String.mk (c :: (u2 ++ (a :: '.' :: (col ++ (' ' :: '=' :: ' ' ::
                (qual ++ ('.' :: (col ++ v))))))).takeWhile isIdentChar)) with
            | none =>
              dsimp only
              simp only [List.append_assoc, List.cons_append, List.nil_append]
              refine containsSeq_cons _ _ c ?_
              exact containsSeq_append_left _ _ _ hrec
            | some q =>
              dsimp only
              split
              · simp only [List.append_assoc, List.cons_append, List.nil_append]
                refine containsSeq_cons _ _ c ?_
                exact containsSeq_append_left _ _ _ hrec
              · simp only [List.append_assoc, List.cons_append, List.nil_append]
                refine containsSeq_append_left _ q.data _ ?_
                refine containsSeq_cons _ _ '.' ?_
                refine containsSeq_cons _ _ c ?_
                exact containsSeq_append_left _ _ _ hrec
        · rw [aliasF_step_skip amb f prev c _ (by simpa using hskip)]
          refine containsSeq_cons _ _ c ?_
          have hflen : (u2 ++ (a :: '.' :: (col ++ (' ' :: '=' :: ' ' ::
              (qual ++ ('.' :: (col ++ v))))))).length ≤ f := by
            omega
          exact ih u2 (by omega) f c v hflen

/-- The characters of an appended string. -/
theorem strData_append (a b : String) : (a ++ b).data = a.data ++ b.data := rfl

/-- The characters of a rebuilt string. -/
theorem data_stringMk (l : List Char) : (String.mk l).data = l := rfl

/-- The empty pattern is contained everywhere. -/
theorem containsSeq_nil_pat : ∀ (l : List Char), containsSeq [] l = true := by
  intro l
  match l with
  | [] => rfl
  | c :: cs => simp [containsSeq, startsWithSeq]

/-- A prefix keeps matching after extending the list. -/
theorem startsWithSeq_extend :
    ∀ (p x y : List Char), startsWithSeq p x = true →
      startsWithSeq p (x ++ y) = true := by
  intro p
  induction p with
  | nil => intro x y _; rfl
  | cons c cs ih =>
    intro x y h
    match x with
    | [] => exact absurd h (by simp [startsWithSeq])
    | d :: ds =>
      simp only [startsWithSeq, Bool.and_eq_true] at h
      simp only [List.cons_append, startsWithSeq, Bool.and_eq_true]
      exact ⟨h.1, ih ds y h.2⟩

/-- Containment is preserved by appending on the right. -/
theorem containsSeq_append_right (pat : List Char) :
    ∀ (x y : List Char), containsSeq pat x = true →
      containsSeq pat (x ++ y) = true := by
  intro x
  induction x with
  | nil =>
    intro y h
    match pat with
    | [] => exact containsSeq_nil_pat y
    | c :: cs => exact absurd h (by simp [containsSeq, startsWithSeq])
  | cons c cs ih =>
    intro y h
    simp only [containsSeq, Bool.or_eq_true] at h
    rcases h with h | h
    · rw [List.cons_append]
      exact containsSeq_of_starts _ _ (startsWithSeq_extend pat (c :: cs) y h)
    · rw [List.cons_append]
      exact containsSeq_cons pat _ c (ih y h)

/-- A list ending in the pattern contains it. -/
theorem containsSeq_suffix (pat x : List Char) : containsSeq pat (x ++ pat) = true := by
  have h := containsSeq_of_decomp pat x []
  simpa using h

/-- The appended join clause ends with its condition. -/
theorem addJoinToSql_data (sql : String) (h : JoinHint) :
    (addJoinToSql sql h).data = sql.data ++ (clauseOf h).data := by
  simp [addJoinToSql, clauseOf, strData_append, List.append_assoc]

/-- One fold step of the join loop keeps earlier substrings. -/
theorem applyJoin_mono :
    ∀ (hints : List JoinHint) (sql : String) (c : String),
      containsSub sql c = true →
      containsSub (applyJoinSuggestions sql hints) c = true := by
  intro hints
  induction hints with
  | nil => intro sql c h; exact h
  | cons hh t ih =>
    intro sql c h
    show containsSub (applyJoinSuggestions
      (if containsSub sql hh.condition then sql else addJoinToSql sql hh) t) c = true
    split
    · exact ih sql c h
    · refine ih _ c ?_
      unfold containsSub
      rw [addJoinToSql_data]
      exact containsSeq_append_right _ _ _ h

/-- After the join loop every processed condition is present. -/
theorem applyJoin_ensures :
    ∀ (hints : List JoinHint) (sql : String) (h : JoinHint), h ∈ hints →
      containsSub (applyJoinSuggestions sql hints) h.condition = true := by
  intro hints
  induction hints with
  | nil => intro sql h hmem; exact absurd hmem (by simp)
  | cons hh t ih =>
    intro sql h hmem
    rcases List.mem_cons.mp hmem with rfl | hmem2
    · show containsSub (applyJoinSuggestions
        (if containsSub sql h.condition then sql else addJoinToSql sql h) t) h.condition = true
      split
      · exact applyJoin_mono t sql h.condition (by assumption)
      · refine applyJoin_mono t _ h.condition ?_
        unfold containsSub
        rw [addJoinToSql_data]
        unfold clauseOf
        rw [strData_append]
        rw [← List.append_assoc]
        exact containsSeq_suffix _ _
    · exact ih _ h hmem2

/-- The join loop is the identity when every condition is present. -/
theorem applyJoin_noop :
    ∀ (hints : List JoinHint) (sql : String),
      (∀ h ∈ hints, containsSub sql h.condition = true) →
      applyJoinSuggestions sql hints = sql := by
  intro hints
  induction hints with
  | nil => intro sql _; rfl
  | cons hh t ih =>
    intro sql hall
    show applyJoinSuggestions
      (if containsSub sql hh.condition then sql else addJoinToSql sql hh) t = sql
    rw [if_pos (hall hh (List.mem_cons_self ..))]
    exact ih sql (fun h hm => hall h (List.mem_cons_of_mem _ hm))

/-- The clause text appended for a hint starts blocked. -/
theorem clauseOf_headNot (h : JoinHint) : headNot isIdentChar (clauseOf h).data := by
  show headNot isIdentChar ((" JOIN " ++ h.to_table ++ " ON " ++ h.condition)).data
  rw [show (" JOIN " ++ h.to_table ++ " ON " ++ h.condition) =
    " JOIN " ++ (h.to_table ++ " ON " ++ h.condition) from by
      simp [String.append_assoc]]
  rw [strData_append]
  rw [show (" JOIN ").data = ' ' :: ('J' :: 'O' :: 'I' :: 'N' :: ' ' :: []) from rfl]
  show isIdentChar ' ' = false
  decide

/-- Captures accumulated by the join loop: each is a capture of the
original text or a token of one appended clause. -/
theorem capturesOf_applyJoin :
    ∀ (hints : List JoinHint) (sql : String) (y : String),
      y ∈ capturesOf (applyJoinSuggestions sql hints).data →
      y ∈ capturesOf sql.data ∨
        ∃ h, h ∈ hints ∧ ∃ w, Chunk.tok w ∈ chunksOf (clauseOf h).data ∧ y = String.mk w := by
  intro hints
  induction hints with
  | nil => intro sql y hy; exact Or.inl hy
  | cons hh t ih =>
    intro sql y hy
    have hy2 : y ∈ capturesOf (applyJoinSuggestions
        (if containsSub sql hh.condition then sql else addJoinToSql sql hh) t).data := hy
    rcases ih _ y hy2 with hl | ⟨h, hm, hw⟩
    · by_cases hc : containsSub sql hh.condition = true
      · rw [if_pos hc] at hl
        exact Or.inl hl
      · rw [if_neg hc] at hl
        rw [addJoinToSql_data] at hl
        rw [capturesOf_eq_extractC (sql.data ++ (clauseOf hh).data).length _ (Nat.le_refl _),
          chunksOf_append _ _ (clauseOf_headNot hh)] at hl
        rcases extractC_append (chunksOf sql.data).length _ _ (Nat.le_refl _) y hl with
          h2 | ⟨w, hw1, hw2⟩
        · rw [← capturesOf_eq_extractC sql.data.length _ (Nat.le_refl _)] at h2
          exact Or.inl h2
        · exact Or.inr ⟨hh, List.mem_cons_self .., w, hw1, hw2⟩
    · exact Or.inr ⟨h, List.mem_cons_of_mem _ hm, hw⟩

/-- Deduplication preserves membership. -/
theorem dedup_mem_aux :
    ∀ (l : List String) (acc : List String) (y : String),
      y ∈ l.foldl (fun a x => if a.contains x then a else a ++ [x]) acc ↔
        y ∈ acc ∨ y ∈ l := by
  intro l
  induction l with
  | nil => intro acc y; simp
  | cons z t ih =>
    intro acc y
    show y ∈ t.foldl _ (if acc.contains z then acc else acc ++ [z]) ↔ _
    rw [ih]
    have hstep : y ∈ (if acc.contains z then acc else acc ++ [z]) ↔ y ∈ acc ∨ y = z := by
      by_cases hc : acc.contains z = true
      · rw [if_pos hc]
        have hz : z ∈ acc := List.mem_of_elem_eq_true hc
        constructor
        · intro h2; exact Or.inl h2
        · intro h2
          rcases h2 with h2 | rfl
          · exact h2
          · exact hz
      · rw [if_neg hc]
        simp [List.mem_append]
    rw [hstep]
    simp only [List.mem_cons]
    tauto

/-- Membership in the deduplicated capture list. -/
theorem dedup_mem (l : List String) (y : String) :
    y ∈ dedupKeepFirst l ↔ y ∈ l := by
  unfold dedupKeepFirst
  rw [dedup_mem_aux]
  simp

/-- Filtering with a stronger predicate keeps fewer elements. -/
theorem lengthFilterMono {α : Type} :
    ∀ (l : List α) (p q : α → Bool), (∀ x ∈ l, p x = true → q x = true) →
      (l.filter p).length ≤ (l.filter q).length := by
  intro l
  induction l with
  | nil => intro p q _; exact Nat.le_refl _
  | cons a t ih =>
    intro p q himp
    have ht := ih p q (fun x hx h => himp x (List.mem_cons_of_mem _ hx) h)
    by_cases hp : p a = true
    · have hq := himp a (List.mem_cons_self ..) hp
      rw [List.filter_cons_of_pos hp, List.filter_cons_of_pos hq]
      simpa using ht
    · rw [List.filter_cons_of_neg (by simpa using hp)]
      by_cases hq : q a = true
      · rw [List.filter_cons_of_pos hq]
        simp only [List.length_cons]
        omega
      · rw [List.filter_cons_of_neg (by simpa using hq)]
        exact ht

/-- With pairwise distinct keys, at most one entry matches a key. -/
theorem lengthFilterKeyLe :
    ∀ (l : List (String × List String)), (l.map Prod.fst).Nodup →
      ∀ (x : String) (P : String × List String → Bool),
        (l.filter (fun tc => (tc.1 == x) && P tc)).length ≤ 1 := by
  intro l
  induction l with
  | nil => intro _ x P; simp
  | cons a t ih =>
    intro hnd x P
    simp only [List.map_cons, List.nodup_cons] at hnd
    by_cases ha : ((a.1 == x) && P a) = true
    · rw [List.filter_cons, if_pos ha]
      have hax : a.1 = x := by
        have := (Bool.and_eq_true_iff.mp ha).1
        exact eq_of_beq this
      have ht : t.filter (fun tc => (tc.1 == x) && P tc) = [] := by
        rw [List.filter_eq_nil_iff]
        intro tc htc
        intro hpred
        have htx : tc.1 = x := eq_of_beq (Bool.and_eq_true_iff.mp hpred).1
        refine hnd.1 ?_
        rw [hax]
        rw [← htx]
        exact List.mem_map.mpr ⟨tc, htc, rfl⟩
      rw [ht]
      simp
    · rw [List.filter_cons, if_neg (by simpa using ha)]
      exact ih hnd.2 x P

/-- Membership and the boolean contains test agree. -/
theorem containsStr_iff (l : List String) (a : String) :
    l.contains a = true ↔ a ∈ l := by
  constructor
  · exact fun h => List.mem_of_elem_eq_true h
  · exact fun h => List.elem_eq_true_of_mem h

/-- The catalog table names are pairwise distinct. -/
theorem catalog_keys_nodup : (catalogTables.map Prod.fst).Nodup := by decide

/-- Looking a catalog entry up by its own key returns the entry. -/
theorem catalog_find_self : ∀ tc ∈ catalogTables,
    catalogTables.find? (fun p => p.1 == tc.1) = some tc := by decide

/-- Every catalog column name is a letter-headed identifier that does
not end in a scan keyword. -/
theorem allCols_facts : ∀ y ∈ allCatalogColumns,
    ((match y.data with | c :: _ => c.isAlpha || c == '_' | [] => false) &&
      !(endsFJ y.data)) = true := by decide

/-- Every catalog table name is a nonempty letter-headed identifier run
that does not end in a scan keyword. -/
theorem names_facts : ∀ y ∈ catalogNames,
    ((!y.data.isEmpty) && y.data.all isIdentChar && !(endsFJ y.data) &&
      (match y.data with | c :: _ => c.isAlpha | [] => false)) = true := by decide

/-- No catalog table name is a catalog column name. -/
theorem names_not_cols : ∀ y ∈ catalogNames, y ∉ allCatalogColumns := by decide

/-- Ambiguous columns are catalog columns. -/
theorem ambiguousCols_sub (T : List String) (t : String) (h : t ∈ ambiguousCols T) :
    t ∈ allCatalogColumns := (List.mem_filter.mp h).1

/-- Unfolding a successful ambiguity lookup. -/
theorem lookup_some_parts (T : List String) (t q : String)
    (h : ambiguityLookup T t = some q) :
    t ∈ ambiguousCols T ∧ qualifierFor T t = some q := by
  unfold ambiguityLookup at h
  by_cases hc : (ambiguousCols T).contains t = true
  · rw [if_pos hc] at h
    exact ⟨List.mem_of_elem_eq_true hc, h⟩
  · rw [if_neg hc] at h
    exact absurd h (by simp)

/-- A qualifier is one of the mentioned tables. -/
theorem qualifierFor_memT (T : List String) (t q : String)
    (h : qualifierFor T t = some q) : q ∈ T := List.mem_of_find?_eq_some h

/-- A qualifier is a catalog table name. -/
theorem qualifierFor_name (T : List String) (t q : String)
    (h : qualifierFor T t = some q) : q ∈ catalogNames := by
  have hp := List.find?_some h
  match htc : tableColumns q with
  | none => rw [htc] at hp; exact absurd hp (by simp)
  | some cols =>
    unfold tableColumns at htc
    obtain ⟨p0, hfind, -⟩ := Option.map_eq_some'.mp htc
    have hmem := List.mem_of_find?_eq_some hfind
    have hbeq := List.find?_some hfind
    have hq : p0.1 = q := eq_of_beq hbeq
    exact List.mem_map.mpr ⟨p0, hmem, hq⟩

/-- An ambiguity of the mentioned tables always has a qualifier. -/
theorem qualifierFor_isSome_of_amb (T : List String) (t : String)
    (h : t ∈ ambiguousCols T) : (qualifierFor T t).isSome = true := by
  obtain ⟨-, hcnt⟩ := List.mem_filter.mp h
  have h2 : 2 ≤ (catalogTables.filter
      (fun tc => T.contains tc.1 && tc.2.contains t)).length := of_decide_eq_true hcnt
  have hpos : 0 < (catalogTables.filter
      (fun tc => T.contains tc.1 && tc.2.contains t)).length := by omega
  obtain ⟨tc, htc⟩ := List.exists_mem_of_length_pos hpos
  obtain ⟨htcmem, htcpred⟩ := List.mem_filter.mp htc
  obtain ⟨htc1, htc2⟩ := Bool.and_eq_true_iff.mp htcpred
  unfold qualifierFor
  rw [List.find?_isSome]
  refine ⟨tc.1, List.mem_of_elem_eq_true htc1, ?_⟩
  have hfind := catalog_find_self tc htcmem
  have hcols : tableColumns tc.1 = some tc.2 := by
    unfold tableColumns
    rw [hfind]
    rfl
  rw [hcols]
  exact htc2

/-- The ambiguity lookup of the mentioned tables is sound. -/
theorem ambOK_lookup (T : List String) : ambOK (ambiguityLookup T) := by
  intro t q h
  obtain ⟨hamb, hq⟩ := lookup_some_parts T t q h
  have hqname := qualifierFor_name T t q hq
  have hqf := names_facts q hqname
  simp only [Bool.and_eq_true] at hqf
  obtain ⟨⟨⟨hq1, hq2⟩, hq3⟩, hq4⟩ := hqf
  have htcol := ambiguousCols_sub T t hamb
  have htf := allCols_facts t htcol
  simp only [Bool.and_eq_true] at htf
  obtain ⟨ht1, ht2⟩ := htf
  refine ⟨⟨?_, hq2, ?_, ?_⟩, ?_, ?_⟩
  · intro he
    rw [he] at hq1
    exact absurd hq1 (by simp [List.isEmpty])
  · cases he : endsFJ q.data
    · rfl
    · rw [he] at hq3
      exact absurd hq3 (by simp)
  · match hd : q.data, hq1 with
    | c :: _, _ =>
      rw [hd] at hq4
      exact hq4
  · match hd : t.data, ht1 with
    | [], h1 => exact absurd h1 (by simp)
    | c :: _, h1 => exact h1
  · cases he : endsFJ t.data
    · rfl
    · rw [he] at ht2
      exact absurd ht2 (by simp)

/-- Tokens outside the catalog columns are never qualified. -/
theorem lookup_none_not_col (T : List String) (t : String)
    (h : t ∉ allCatalogColumns) : ambiguityLookup T t = none := by
  unfold ambiguityLookup
  rw [if_neg]
  intro hc
  exact h (ambiguousCols_sub T t (List.mem_of_elem_eq_true hc))

/-- Capture sets shrinking on catalog tables shrink the ambiguous
columns. -/
theorem ambCols_mono (T1 T2 : List String)
    (hsub : ∀ x ∈ T2, x ∈ catalogNames → x ∈ T1) :
    ∀ t ∈ ambiguousCols T2, t ∈ ambiguousCols T1 := by
  intro t ht
  obtain ⟨hcol, hcnt⟩ := List.mem_filter.mp ht
  unfold ambiguousCols
  rw [List.mem_filter]
  refine ⟨hcol, ?_⟩
  have h2 : 2 ≤ (catalogTables.filter
      (fun tc => T2.contains tc.1 && tc.2.contains t)).length := of_decide_eq_true hcnt
  have hmono := lengthFilterMono catalogTables
    (fun tc => T2.contains tc.1 && tc.2.contains t)
    (fun tc => T1.contains tc.1 && tc.2.contains t)
    (by
      intro tc htcmem hp
      obtain ⟨hp1, hp2⟩ := Bool.and_eq_true_iff.mp hp
      have hmem2 : tc.1 ∈ T2 := List.mem_of_elem_eq_true hp1
      have hname : tc.1 ∈ catalogNames := List.mem_map.mpr ⟨tc, htcmem, rfl⟩
      have hmem1 : tc.1 ∈ T1 := hsub tc.1 hmem2 hname
      rw [Bool.and_eq_true_iff]
      exact ⟨List.elem_eq_true_of_mem hmem1, hp2⟩)
  exact decide_eq_true (by omega)

/-- With at most one mentioned table nothing is ambiguous. -/
theorem amb_none_of_short (T : List String) (hlen : T.length ≤ 1) (t : String) :
    ambiguityLookup T t = none := by
  unfold ambiguityLookup
  rw [if_neg]
  intro hc
  have hmem := List.mem_of_elem_eq_true hc
  have hcnt : 2 ≤ (catalogTables.filter
      (fun tc => T.contains tc.1 && tc.2.contains t)).length :=
    of_decide_eq_true (List.mem_filter.mp hmem).2
  have hb : (catalogTables.filter
      (fun tc => T.contains tc.1 && tc.2.contains t)).length ≤ 1 := by
    match T, hlen with
    | [], _ =>
      have hnil : catalogTables.filter
          (fun tc => ([] : List String).contains tc.1 && tc.2.contains t) = [] := by
        rw [List.filter_eq_nil_iff]
        intro tc _
        simp [List.contains, List.elem]
      rw [hnil]
      simp
    | [x], _ =>
      have hmono := lengthFilterMono catalogTables
        (fun tc => ([x] : List String).contains tc.1 && tc.2.contains t)
        (fun tc => (tc.1 == x) && tc.2.contains t)
        (by
          intro tc _ hp
          obtain ⟨hp1, hp2⟩ := Bool.and_eq_true_iff.mp hp
          have hx : tc.1 ∈ ([x] : List String) := List.mem_of_elem_eq_true hp1
          have : tc.1 = x := by simpa using hx
          rw [Bool.and_eq_true_iff]
          exact ⟨by simp [this], hp2⟩)
      have hkey := lengthFilterKeyLe catalogTables catalog_keys_nodup x
        (fun tc => tc.2.contains t)
      omega
  omega

/-- An everywhere-empty ambiguity map makes the aliasing pass the
identity. -/
theorem aliasF_id_of_none (amb : String → Option String)
    (hnone : ∀ t, amb t = none) :
    ∀ (n : Nat) (l : List Char) (fuel : Nat) (prev : Char),
      l.length ≤ n → l.length ≤ fuel → aliasF amb fuel prev l = l := by
  intro n
  induction n with
  | zero =>
    intro l fuel prev h _
    match l, h with
    | [], _ => cases fuel <;> rfl
  | succ n ih =>
    intro l fuel prev h hf
    match l with
    | [] => cases fuel <;> rfl
    | c :: cs =>
      simp only [List.length_cons] at h hf
      match fuel, hf with
      | f + 1, hf =>
        by_cases hstep : (isIdentChar c && !(isIdentChar prev)) = true
        · obtain ⟨hc, hp⟩ := Bool.and_eq_true_iff.mp hstep
          simp only [Bool.not_eq_eq_eq_not, Bool.not_true] at hp
          rw [aliasF_step_tok amb f prev c cs hc hp, hnone]
          dsimp only
          have hlen := lengthDropWhileLe isIdentChar cs
          rw [ih (cs.dropWhile isIdentChar) f c (by omega) (by omega)]
          rw [List.cons_append, List.takeWhile_append_dropWhile]
        · rw [aliasF_step_skip amb f prev c cs (by simpa using hstep)]
          rw [ih cs f c (by omega) (by omega)]

/-- An inert chunk list renders unchanged through the aliasing pass. -/
theorem aliasNoop_render (amb : String → Option String) :
    ∀ (cs : List Chunk) (prev : Char), aliasNoop amb prev cs = true →
      aliasC amb prev cs = renderChunks cs := by
  intro cs
  induction cs with
  | nil => intro prev _; rfl
  | cons ch rest ih =>
    intro prev hno
    match ch with
    | .sep c =>
      simp only [aliasNoop] at hno
      simp only [aliasC, renderChunks]
      rw [ih c hno]
    | .tok w =>
      simp only [aliasNoop, Bool.and_eq_true] at hno
      obtain ⟨hcond, hrest⟩ := hno
      simp only [aliasC, renderChunks]
      rw [ih (prevCh prev w) hrest]
      match hamb : amb (String.mk w) with
      | none => rfl
      | some q =>
        dsimp only
        rw [hamb] at hcond
        simp only [Option.isNone_some, Bool.or_false] at hcond
        rw [if_pos hcond]

/-- A second aliasing pass whose map rejects everything the first pass
left bare, and rejects every inserted qualifier, is inert on the output
of the first pass. -/
theorem noop_transfer (amb1 amb2 : String → Option String)
    (hA : ∀ t, amb1 t = none → amb2 t = none)
    (hB : ∀ t q, amb1 t = some q → amb2 q = none) :
    ∀ (cs : List Chunk) (prev : Char), cwfB cs = true →
      aliasNoop amb2 prev (aliasChunks amb1 prev cs) = true := by
  intro cs
  induction cs with
  | nil => intro prev _; rfl
  | cons ch rest ih =>
    intro prev hcwf
    have hrest := cwfB_tail ch rest hcwf
    match ch with
    | .sep c =>
      simp only [aliasChunks, aliasNoop]
      exact ih c hrest
    | .tok w =>
      obtain ⟨hne, -, -⟩ := cwfB_tok_parts w rest hcwf
      have hwne : w ≠ [] := by
        intro he
        rw [he] at hne
        exact absurd hne (by simp [List.isEmpty])
      simp only [aliasChunks]
      match hamb : amb1 (String.mk w) with
      | none =>
        simp only [List.append_eq, List.cons_append, List.nil_append]
        simp only [aliasNoop, Bool.and_eq_true]
        refine ⟨?_, ih (prevCh prev w) hrest⟩
        rw [hA (String.mk w) hamb]
        simp
      | some q =>
        dsimp only
        by_cases hdot : (prev == '.') = true
        · rw [if_pos hdot]
          simp only [List.append_eq, List.cons_append, List.nil_append]
          simp only [aliasNoop, Bool.and_eq_true]
          exact ⟨by simp [hdot], ih (prevCh prev w) hrest⟩
        · rw [if_neg hdot]
          simp only [List.append_eq, List.cons_append, List.nil_append]
          simp only [aliasNoop, Bool.and_eq_true]
          refine ⟨?_, ?_, ?_⟩
          · rw [show String.mk q.data = q from stringMk_data q, hB (String.mk w) q hamb]
            simp
          · simp
          · rw [prevCh_ne '.' prev w hwne]
            exact ih (prevCh prev w) hrest

/-- The endpoints of every catalog join hint are catalog table names. -/
theorem hint_endpoints : ∀ h ∈ catalogJoinHints,
    h.from_table ∈ catalogNames ∧ h.to_table ∈ catalogNames := by decide

/-- A token chunk contributes its string to the token strings. -/
theorem tok_mem_tokStrings (cs : List Chunk) (w : List Char) (h : Chunk.tok w ∈ cs) :
    String.mk w ∈ tokStringsOf cs := List.mem_filterMap.mpr ⟨Chunk.tok w, h, rfl⟩

/-- The only catalog table name among the tokens of an appended join
clause is its target table. -/
theorem clause_toks_catalog : ∀ h ∈ catalogJoinHints,
    ∀ y ∈ tokStringsOf (chunksOf (clauseOf h).data), y ∈ catalogNames → y = h.to_table := by
  decide

/-- A join condition of the generic dotted shape survives an aliasing
pass over any text containing it. -/
theorem cond_survives_generic (T : List String) (sql e2 : String)
    (a : Char) (col qual : List Char) (condStr : String)
    (hshape : condStr.data = a :: '.' :: (col ++ (' ' :: '=' :: ' ' ::
      (qual ++ ('.' :: col)))))
    (ha : isIdentChar a = true) (hcne : col ≠ [])
    (hcall : ∀ x ∈ col, isIdentChar x = true)
    (hqne : qual ≠ []) (hqall : ∀ x ∈ qual, isIdentChar x = true)
    (hqnc : String.mk qual ∉ allCatalogColumns)
    (hcont : containsSub sql condStr = true)
    (he : e2.data = aliasF (ambiguityLookup T) sql.data.length ' ' sql.data) :
    containsSub e2 condStr = true := by
  obtain ⟨u, v, huv⟩ := containsSeq_decomp sql.data condStr.data hcont
  show containsSeq condStr.data e2.data = true
  rw [he, hshape]
  have hlist : sql.data = u ++ (a :: '.' :: (col ++ (' ' :: '=' :: ' ' ::
      (qual ++ ('.' :: (col ++ v)))))) := by
    rw [huv, hshape]
    simp [List.append_assoc]
  rw [hlist]
  exact aliasSurvives (ambiguityLookup T) a col qual ha hcne hcall hqne hqall
    (lookup_none_not_col T (String.mk qual) hqnc) u.length u (Nat.le_refl _)
    _ ' ' v (Nat.le_refl _)

/-- Every catalog join condition survives an aliasing pass over any text
containing it. -/
theorem cond_survives (T : List String) (sql e2 : String) (h : JoinHint)
    (hmem : h ∈ catalogJoinHints)
    (hcont : containsSub sql h.condition = true)
    (he : e2.data = aliasF (ambiguityLookup T) sql.data.length ' ' sql.data) :
    containsSub e2 h.condition = true := by
  simp only [catalogJoinHints, List.mem_cons, List.not_mem_nil, or_false] at hmem
  rcases hmem with rfl | rfl | rfl | rfl
  · exact cond_survives_generic T sql e2 'f' ("district_id").data ("d").data _
      rfl (by decide) (by decide) (by decide) (by decide) (by decide)
      (by rw [stringMk_data]; decide) hcont he
  · exact cond_survives_generic T sql e2 'f' ("crime_type_id").data ("ct").data _
      rfl (by decide) (by decide) (by decide) (by decide) (by decide)
      (by rw [stringMk_data]; decide) hcont he
  · exact cond_survives_generic T sql e2 'o' ("officer_id").data ("a").data _
      rfl (by decide) (by decide) (by decide) (by decide) (by decide)
      (by rw [stringMk_data]; decide) hcont he
  · exact cond_survives_generic T sql e2 's' ("district_id").data ("d").data _
      rfl (by decide) (by decide) (by decide) (by decide) (by decide)
      (by rw [stringMk_data]; decide) hcont he

/-- Captures after an aliasing pass: original captures or inserted
qualifiers. -/
theorem pass_captures (T : List String) (s1 : String) (y : String)
    (hy : y ∈ capturesOf (addTableAliases s1 T).data) :
    y ∈ capturesOf s1.data ∨ ∃ t q, ambiguityLookup T t = some q ∧ y = q := by
  have hedata : (addTableAliases s1 T).data =
      aliasF (ambiguityLookup T) s1.data.length ' ' s1.data := rfl
  have hcorr := aliasF_eq_aliasC (ambiguityLookup T) s1.data.length s1.data
    s1.data.length ' ' (Nat.le_refl _) (Nat.le_refl _) (Or.inl (by decide))
  have hcwf1 : cwfB (chunksOf s1.data) = true := cwf_chunksF _ _ (Nat.le_refl _)
  have hXcwf := aliasChunks_cwf _ (ambOK_lookup T) (chunksOf s1.data) ' ' hcwf1
  have hchunks : chunksOf (addTableAliases s1 T).data =
      aliasChunks (ambiguityLookup T) ' ' (chunksOf s1.data) := by
    rw [hedata, hcorr, ← renderChunks_aliasChunks]
    exact chunksOf_render _ hXcwf
  rw [capturesOf_eq_extractC (addTableAliases s1 T).data.length _ (Nat.le_refl _),
    hchunks] at hy
  rcases extractC_alias _ (ambOK_lookup T) (chunksOf s1.data).length _ ' '
    (Nat.le_refl _) hcwf1 y hy with hl | hr
  · left
    rw [← capturesOf_eq_extractC s1.data.length _ (Nat.le_refl _)] at hl
    exact hl
  · right
    exact hr

/-- A second aliasing pass whose mentioned catalog tables all appeared
in the first pass is the identity. -/
theorem alias_pass2_noop (T1 T2 : List String) (s1 : String)
    (hsub : ∀ x ∈ T2, x ∈ catalogNames → x ∈ T1) :
    addTableAliases (addTableAliases s1 T1) T2 = addTableAliases s1 T1 := by
  have hA : ∀ t, ambiguityLookup T1 t = none → ambiguityLookup T2 t = none := by
    intro t h1
    match h2 : ambiguityLookup T2 t with
    | none => rfl
    | some q2 =>
      exfalso
      obtain ⟨hamb2, -⟩ := lookup_some_parts T2 t q2 h2
      have hamb1 : t ∈ ambiguousCols T1 := ambCols_mono T1 T2 hsub t hamb2
      have hsome := qualifierFor_isSome_of_amb T1 t hamb1
      unfold ambiguityLookup at h1
      rw [if_pos (List.elem_eq_true_of_mem hamb1)] at h1
      rw [h1] at hsome
      exact absurd hsome (by simp)
  have hB : ∀ t q, ambiguityLookup T1 t = some q → ambiguityLookup T2 q = none := by
    intro t q h1
    obtain ⟨-, hq⟩ := lookup_some_parts T1 t q h1
    exact lookup_none_not_col T2 q (names_not_cols q (qualifierFor_name T1 t q hq))
  have hedata : (addTableAliases s1 T1).data =
      aliasF (ambiguityLookup T1) s1.data.length ' ' s1.data := rfl
  have hcorr := aliasF_eq_aliasC (ambiguityLookup T1) s1.data.length s1.data
    s1.data.length ' ' (Nat.le_refl _) (Nat.le_refl _) (Or.inl (by decide))
  have hcwf1 : cwfB (chunksOf s1.data) = true := cwf_chunksF _ _ (Nat.le_refl _)
  have hXcwf := aliasChunks_cwf _ (ambOK_lookup T1) (chunksOf s1.data) ' ' hcwf1
  have hchunks : chunksOf (addTableAliases s1 T1).data =
      aliasChunks (ambiguityLookup T1) ' ' (chunksOf s1.data) := by
    rw [hedata, hcorr, ← renderChunks_aliasChunks]
    exact chunksOf_render _ hXcwf
  show String.mk (aliasF (ambiguityLookup T2) (addTableAliases s1 T1).data.length ' '
    (addTableAliases s1 T1).data) = addTableAliases s1 T1
  rw [aliasF_eq_aliasC (ambiguityLookup T2) (addTableAliases s1 T1).data.length
    (addTableAliases s1 T1).data (addTableAliases s1 T1).data.length ' '
    (Nat.le_refl _) (Nat.le_refl _) (Or.inl (by decide))]
  rw [hchunks]
  rw [aliasNoop_render _ _ _ (noop_transfer _ _ hA hB (chunksOf s1.data) ' ' hcwf1)]
  rw [renderChunks_aliasChunks]
  rw [← hcorr, ← hedata]

/-- Unfolding the enhancement when more than one table is mentioned. -/
theorem enhance_eq_main (s : String) (hT1 : 1 < (extractTableNames s).length) :
    enhanceWithSchema s = addTableAliases
      (applyJoinSuggestions s (suggestJoinsForQuery (extractTableNames s)))
      (extractTableNames s) := by
  show addTableAliases (if 1 < (extractTableNames s).length then
      applyJoinSuggestions s (suggestJoinsForQuery (extractTableNames s)) else s)
    (extractTableNames s) = _
  rw [if_pos hT1]

/-- With at most one mentioned table the enhancement is the identity. -/
theorem enhance_eq_short (s : String) (hT1 : ¬ 1 < (extractTableNames s).length) :
    enhanceWithSchema s = s := by
  show addTableAliases (if 1 < (extractTableNames s).length then
      applyJoinSuggestions s (suggestJoinsForQuery (extractTableNames s)) else s)
    (extractTableNames s) = s
  rw [if_neg hT1]
  show String.mk (aliasF (ambiguityLookup (extractTableNames s))
    s.data.length ' ' s.data) = s
  rw [aliasF_id_of_none (ambiguityLookup (extractTableNames s))
    (amb_none_of_short (extractTableNames s) (by omega)) s.data.length s.data
    s.data.length ' ' (Nat.le_refl _) (Nat.le_refl _)]

/-- Catalog tables mentioned after the enhancement were already
mentioned before it. -/
theorem T2_sub (s : String) (hT1 : 1 < (extractTableNames s).length) :
    ∀ y ∈ extractTableNames (enhanceWithSchema s), y ∈ catalogNames →
      y ∈ extractTableNames s := by
  intro y hy hyname
  rw [enhance_eq_main s hT1] at hy
  have hy2 : y ∈ capturesOf (addTableAliases (applyJoinSuggestions s
      (suggestJoinsForQuery (extractTableNames s))) (extractTableNames s)).data :=
    (dedup_mem _ y).mp hy
  rcases pass_captures _ _ y hy2 with hl | ⟨t, q, hq, rfl⟩
  · rcases capturesOf_applyJoin _ s y hl with hsrc | ⟨h, hm, w, hw1, rfl⟩
    · exact (dedup_mem _ y).mpr hsrc
    · have hhm : h ∈ catalogJoinHints := (List.mem_filter.mp hm).1
      have heq := clause_toks_catalog h hhm (String.mk w)
        (tok_mem_tokStrings _ w hw1) hyname
      rw [heq]
      have hcond := (List.mem_filter.mp hm).2
      exact List.mem_of_elem_eq_true (Bool.and_eq_true_iff.mp hcond).2
  · obtain ⟨-, hqf⟩ := lookup_some_parts _ t y hq
    exact qualifierFor_memT _ t y hqf

/-- Every join condition suggested on the enhanced text is already a
substring of the enhanced text. -/
theorem conds_present_pass2 (s : String) (hT1 : 1 < (extractTableNames s).length) :
    ∀ h ∈ suggestJoinsForQuery (extractTableNames (enhanceWithSchema s)),
      containsSub (enhanceWithSchema s) h.condition = true := by
  intro h hm
  obtain ⟨hcat, hcond2⟩ := List.mem_filter.mp hm
  obtain ⟨hf2, ht2⟩ := Bool.and_eq_true_iff.mp hcond2
  have hep := hint_endpoints h hcat
  have hfrom1 : h.from_table ∈ extractTableNames s :=
    T2_sub s hT1 h.from_table (List.mem_of_elem_eq_true hf2) hep.1
  have hto1 : h.to_table ∈ extractTableNames s :=
    T2_sub s hT1 h.to_table (List.mem_of_elem_eq_true ht2) hep.2
  have hm1 : h ∈ suggestJoinsForQuery (extractTableNames s) := by
    refine List.mem_filter.mpr ⟨hcat, ?_⟩
    rw [Bool.and_eq_true_iff]
    exact ⟨List.elem_eq_true_of_mem hfrom1, List.elem_eq_true_of_mem hto1⟩
  have hs1 : containsSub (applyJoinSuggestions s (suggestJoinsForQuery
      (extractTableNames s))) h.condition = true :=
    applyJoin_ensures _ s h hm1
  have hedata : (enhanceWithSchema s).data =
      aliasF (ambiguityLookup (extractTableNames s))
        (applyJoinSuggestions s (suggestJoinsForQuery (extractTableNames s))).data.length
        ' ' (applyJoinSuggestions s (suggestJoinsForQuery (extractTableNames s))).data := by
    rw [enhance_eq_main s hT1]
    rfl
  exact cond_survives (extractTableNames s) _ _ h hcat hs1 hedata

/-- Idempotence in the joined branch. -/
theorem enhance_idem_main (s : String) (hT1 : 1 < (extractTableNames s).length) :
    enhanceWithSchema (enhanceWithSchema s) = enhanceWithSchema s := by
  have hstep1 : (if 1 < (extractTableNames (enhanceWithSchema s)).length then
      applyJoinSuggestions (enhanceWithSchema s)
        (suggestJoinsForQuery (extractTableNames (enhanceWithSchema s)))
      else enhanceWithSchema s) = enhanceWithSchema s := by
    split
    · exact applyJoin_noop _ _ (conds_present_pass2 s hT1)
    · rfl
  show addTableAliases (if 1 < (extractTableNames (enhanceWithSchema s)).length then
      applyJoinSuggestions (enhanceWithSchema s)
        (suggestJoinsForQuery (extractTableNames (enhanceWithSchema s)))
      else enhanceWithSchema s) (extractTableNames (enhanceWithSchema s)) =
    enhanceWithSchema s
  rw [hstep1]
  rw [enhance_eq_main s hT1]
  refine alias_pass2_noop (extractTableNames s) _ _ ?_
  intro x hx hxn
  refine T2_sub s hT1 x ?_ hxn
  rw [enhance_eq_main s hT1]
  exact hx

/-- C9: the schema enhancement stage (`_enhance_with_schema`, the spec
name is `SchemaEnhancer.enhance`, with its missing helpers modelled from
the spec) is idempotent: enhancing its own output returns it unchanged,
so in particular no duplicate join clause is ever appended. -/
theorem c9_enhance_idempotent (s : String) :
    enhanceWithSchema (enhanceWithSchema s) = enhanceWithSchema s := by
  by_cases hT1 : 1 < (extractTableNames s).length
  · exact enhance_idem_main s hT1
  · rw [enhance_eq_short s hT1, enhance_eq_short s hT1]
